import Mathlib

/-!
# markdown-editor: a verification development

A shallow embedding of the text-processing core of the editor
(`app.js`, `block.js`, `lists.js`, `format.js`) and theorems about it.

JavaScript strings are modelled as lists of characters. (A character
outside the Basic Multilingual Plane is one element here and two code units
in JavaScript; the patterns of the program only tell apart ASCII characters,
white space and line terminators, so they treat both the same way.) The
regular expressions of the program are kept as syntax trees (`Regex`) and run
by a backtracking matcher that follows the ECMAScript matching rules
(priority order of alternatives, greedy and lazy quantifiers, the empty
check of quantifier iterations, multi-line anchors, negative lookahead).
Offsets into a string (the cursor, the start of a match) count the elements
of the list. The Numbers of the list continuation are the non-negative
integers that a double holds, with the rounding of `parseInt` and of `+`
(`toNumber`), so that the arithmetic is the one of the program also beyond
`2 ^ 53`.
-/

namespace MarkdownEditor

/-- A JavaScript string, as the list of its characters. -/
abbrev Str := List Char

/-! ## Character classes of ECMAScript regular expressions -/

/-- LineTerminator: LF, CR, LS, PS. -/
def isLineTerminator (c : Char) : Bool :=
  c == '\n' || c == '\r' || c.toNat == 0x2028 || c.toNat == 0x2029

/-- The class `\s` (WhiteSpace and LineTerminator); also what `trim` removes. -/
def isSpace (c : Char) : Bool :=
  c == ' ' || c == '\t' || c == '\n' || c == '\r' || c.toNat == 0x0B || c.toNat == 0x0C
    || c.toNat == 0xA0 || c.toNat == 0x1680 || (0x2000 ≤ c.toNat && c.toNat ≤ 0x200A)
    || c.toNat == 0x2028 || c.toNat == 0x2029 || c.toNat == 0x202F || c.toNat == 0x205F
    || c.toNat == 0x3000 || c.toNat == 0xFEFF

/-- The class `\d`. -/
def isDigit (c : Char) : Bool := '0' ≤ c && c ≤ '9'

/-- The class `\w`. -/
def isWord (c : Char) : Bool :=
  ('a' ≤ c && c ≤ 'z') || ('A' ≤ c && c ≤ 'Z') || ('0' ≤ c && c ≤ '9') || c == '_'

/-- The atom `.` without the `s` flag: anything but a line terminator. -/
def isDot (c : Char) : Bool := !isLineTerminator c

/-- The atom `.` with the `s` flag, and the class `[\s\S]`: any character. -/
def isAny (_ : Char) : Bool := true

/-! ## Regular expressions and the backtracking matcher -/

/-- Syntax of the regular expressions used by the program. -/
inductive Regex where
  /-- The empty pattern. -/
  | empty : Regex
  /-- One character of a class (a literal, `\s`, `[uo]`, `.`, ...). -/
  | char (p : Char → Bool) : Regex
  /-- Concatenation. -/
  | seq (a b : Regex) : Regex
  /-- Alternation `a|b`, the left alternative first. -/
  | alt (a b : Regex) : Regex
  /-- Quantifier `r*` (greedy) or `r*?` (lazy). -/
  | star (greedy : Bool) (r : Regex) : Regex
  /-- Capturing group number `i`. -/
  | group (i : Nat) (r : Regex) : Regex
  /-- Assertion `^`, with or without the `m` flag. -/
  | bol (multiline : Bool) : Regex
  /-- Assertion `$`, with or without the `m` flag. -/
  | eol (multiline : Bool) : Regex
  /-- Negative lookahead `(?!r)`. -/
  | notAhead (r : Regex) : Regex

/-- Matcher state: the character before the current position (none at the
start of the input), the input from the current position on, and the
captures recorded so far (most recent first). -/
structure MState where
  prev : Option Char
  rest : Str
  caps : List (Nat × Str)

/-- Iterations of a quantified pattern whose single iteration is `f`. An
iteration that consumes nothing is rejected (the ECMAScript empty check),
so `n` = length of the remaining input bounds the number of iterations. -/
def starRun (greedy : Bool) (f : MState → List MState) : Nat → MState → List MState
  | 0, s => [s]
  | n + 1, s =>
    let more := ((f s).filter (fun s1 => s1.rest.length < s.rest.length)).flatMap
      (starRun greedy f n)
    if greedy then more ++ [s] else s :: more

/-- All the ways `r` matches at state `s`, in the priority order of a
backtracking matcher: the head of the list is the match the engine takes. -/
def Regex.run : Regex → MState → List MState
  | .empty, s => [s]
  | .char p, s =>
    match s.rest with
    | [] => []
    | c :: cs => if p c then [{ prev := some c, rest := cs, caps := s.caps }] else []
  | .seq a b, s => (a.run s).flatMap b.run
  | .alt a b, s => a.run s ++ b.run s
  | .star g r, s => starRun g r.run s.rest.length s
  | .group i r, s =>
    (r.run s).map (fun s1 =>
      { s1 with caps := (i, s.rest.take (s.rest.length - s1.rest.length)) :: s1.caps })
  | .bol m, s =>
    match s.prev with
    | none => [s]
    | some c => if m && isLineTerminator c then [s] else []
  | .eol m, s =>
    match s.rest with
    | [] => [s]
    | c :: _ => if m && isLineTerminator c then [s] else []
  | .notAhead r, s => if (r.run s).isEmpty then [s] else []

/-- The pattern `r+`. -/
def Regex.plus (r : Regex) : Regex := .seq r (.star true r)

/-- The pattern `r?`. -/
def Regex.opt (r : Regex) : Regex := .alt r .empty

/-- A literal character. -/
def Regex.lit (c : Char) : Regex := .char (fun x => x == c)

/-- A literal string. -/
def Regex.str : Str → Regex
  | [] => .empty
  | c :: cs => .seq (.lit c) (Regex.str cs)

/-- The concatenation of a list of patterns. -/
def Regex.cat : List Regex → Regex
  | [] => .empty
  | [r] => r
  | r :: rs => .seq r (Regex.cat rs)

/-- A successful match: the matched text and the captures. -/
structure Match where
  text : Str
  caps : List (Nat × Str)

/-- The capture `$i`; the empty string when the group did not take part. -/
def Match.cap (m : Match) (i : Nat) : Str := (m.caps.lookup i).getD []

/-- Does group `i` take part in the match (is `match[i]` defined)? -/
def Match.hasCap (m : Match) (i : Nat) : Bool := (m.caps.lookup i).isSome

/-- One match attempt at the current position. -/
def Regex.exec (r : Regex) (prev : Option Char) (rest : Str) : Option Match :=
  match r.run { prev := prev, rest := rest, caps := [] } with
  | [] => none
  | s :: _ => some { text := rest.take (rest.length - s.rest.length), caps := s.caps }

/-- A piece of the scanned text: a character copied as is, or a match. -/
inductive Seg where
  | lit (c : Char) : Seg
  | hit (m : Match) : Seg

/-- The scan of a global (`g`) regular expression over a text: a match is
tried at every position from left to right, the scan resumes at the end of
a match, and steps one character after an empty match. `skip` counts the
characters still covered by the last match. -/
def Regex.scan (r : Regex) : Nat → Option Char → Str → List Seg
  | _, prev, [] =>
    match r.exec prev [] with
    | some m => [.hit m]
    | none => []
  | skip + 1, _, c :: cs => r.scan skip (some c) cs
  | 0, prev, c :: cs =>
    match r.exec prev (c :: cs) with
    | some m =>
      .hit m :: (if m.text.length = 0 then .lit c :: r.scan 0 (some c) cs
                 else r.scan (m.text.length - 1) (some c) cs)
    | none => .lit c :: r.scan 0 (some c) cs

/-- The text rebuilt from the segments, each match replaced through `f`. -/
def render (f : Match → Str) : List Seg → Str
  | [] => []
  | .lit c :: segs => c :: render f segs
  | .hit m :: segs => f m ++ render f segs

/-- The matches among the segments, in order. -/
def hits : List Seg → List Match
  | [] => []
  | .lit _ :: segs => hits segs
  | .hit m :: segs => m :: hits segs

/-- The matches among the segments with the offset where each starts
(`match.index`); `i` is the offset of the first segment. -/
def hitsAt : Nat → List Seg → List (Nat × Match)
  | _, [] => []
  | i, .lit _ :: segs => hitsAt (i + 1) segs
  | i, .hit m :: segs => (i, m) :: hitsAt (i + m.text.length) segs

/-- Method `text.replace(r, f)` for a regular expression with the `g` flag. -/
def replaceAll (r : Regex) (f : Match → Str) (text : Str) : Str :=
  render f (r.scan 0 none text)

/-- Scan for the first match only (a regular expression without `g`). -/
def Regex.replaceFirstFrom (r : Regex) (f : Match → Str) : Option Char → Str → Str
  | prev, [] =>
    match r.exec prev [] with
    | some m => f m
    | none => []
  | prev, c :: cs =>
    match r.exec prev (c :: cs) with
    | some m => f m ++ (c :: cs).drop m.text.length
    | none => c :: r.replaceFirstFrom f (some c) cs

/-- Method `text.replace(r, f)` for a regular expression without the `g` flag. -/
def replaceFirst (r : Regex) (f : Match → Str) (text : Str) : Str :=
  r.replaceFirstFrom f none text

/-- Find the first match in a text, as `text.match(r)` without `g` does. -/
def Regex.findFrom (r : Regex) : Option Char → Str → Option Match
  | prev, [] => r.exec prev []
  | prev, c :: cs =>
    match r.exec prev (c :: cs) with
    | some m => some m
    | none => r.findFrom (some c) cs

/-- Method `text.match(r)` for a regular expression without the `g` flag. -/
def Regex.find (r : Regex) (text : Str) : Option Match := r.findFrom none text

/-! ## String methods -/

/-- Method `trim`: drops white space and line terminators at both ends. -/
def trim (s : Str) : Str :=
  ((s.dropWhile isSpace).reverse.dropWhile isSpace).reverse

/-- Method `toLowerCase`, on the ASCII letters (the language token that the
code processor passes is made of word characters). -/
def toLowerCase (s : Str) : Str := s.map Char.toLower

/-- Method `startsWith`. -/
def startsWith (s pre : Str) : Bool := pre.isPrefixOf s

/-- Method `endsWith`. -/
def endsWith (s suf : Str) : Bool := suf.reverse.isPrefixOf s.reverse

/-- Search of `pat` in `s` from offset `i` on; -1 when absent. -/
def indexOfFrom (pat : Str) : Str → Nat → Int
  | [], i => if pat.isEmpty then (i : Int) else -1
  | c :: cs, i => if pat.isPrefixOf (c :: cs) then (i : Int) else indexOfFrom pat cs (i + 1)

/-- Method `s.indexOf(pat)`. -/
def indexOf (s pat : Str) : Int := indexOfFrom pat s 0

/-- Method `s.includes(pat)`. -/
def includes (s pat : Str) : Bool := indexOf s pat != -1

/-- Method `s.substring(a, b)`: both offsets are clamped to the length and
swapped when out of order. -/
def substring (s : Str) (a b : Nat) : Str :=
  (s.take (max (min a s.length) (min b s.length))).drop (min (min a s.length) (min b s.length))

/-- Method `s.slice(a, -b)`: from offset `a` to `b` characters before the end. -/
def sliceFromTo (s : Str) (a b : Nat) : Str := (s.take (s.length - b)).drop a

/-- Method `s.split('\n')`. -/
def splitLines : Str → List Str
  | [] => [[]]
  | c :: cs =>
    if c == '\n' then [] :: splitLines cs
    else
      match splitLines cs with
      | [] => [[c]]
      | l :: ls => (c :: l) :: ls

/-- Method `lines.join('\n')`. -/
def joinLines (lines : List Str) : Str := ['\n'].intercalate lines

/-! ## The text field of the editor -/

/-- The state of the textarea that the formatter and the list continuation
read and write: its value and its selection. -/
structure Textarea where
  value : Str
  selectionStart : Nat
  selectionEnd : Nat
deriving DecidableEq, Repr

/-- Assignment of `value` followed by `setSelectionRange(start, stop)`: an
offset beyond the end of the value is set to its length, and a start beyond
the stop is set to the stop. -/
def setSelectionRange (value : Str) (start stop : Nat) : Textarea :=
  { value := value
    selectionStart := min (min start value.length) (min stop value.length)
    selectionEnd := min stop value.length }

/-! ## block.js -/

/-- The chain of five replacements of `transformCodeBlock` (block.js 7-12). -/
def escapeCode (codeContent : Str) : Str :=
  replaceAll (.lit (Char.ofNat 39)) (fun _ => "&#39;".toList)
    (replaceAll (.lit (Char.ofNat 34)) (fun _ => "&quot;".toList)
      (replaceAll (.lit '>') (fun _ => "&gt;".toList)
        (replaceAll (.lit '<') (fun _ => "&lt;".toList)
          (replaceAll (.lit '&') (fun _ => "&amp;".toList) codeContent))))

/-- The object returned by `transformCodeBlock`. -/
structure Transformed where
  html : Str
  language : Str
  content : Str
  hasLanguage : Bool

/-- Function `transformCodeBlock` of `createCodeTransformer` (block.js 5-24).
An undefined `language` takes the default `''` before the call. -/
def transformCodeBlock (codeContent : Str) (language : Str) : Transformed :=
  let escapedCode := escapeCode codeContent
  let languageClass := if language.isEmpty then [] else " language-".toList ++ toLowerCase language
  { html := "<pre class=\"code-highlight\"><code class=\"code-block".toList ++ languageClass
      ++ "\">".toList ++ escapedCode ++ "</code></pre>".toList
    language := language
    content := escapedCode
    hasLanguage := !language.isEmpty }

/-- The regular expression of the fenced blocks, with three backticks, an
optional word (group 1), an optional newline, a lazy body (group 2) and
three backticks (block.js 35 and 70). -/
def codeBlockRegex : Regex :=
  .cat [.str "```".toList, .opt (.group 1 (.plus (.char isWord))), .opt (.lit '\n'),
        .group 2 (.star false (.char isAny)), .str "```".toList]

/-- One entry of `codeBlocks`. -/
structure CodeBlock where
  index : Nat
  original : Str
  transformed : Transformed
  position : Int

/-- The result of the multi-code processor. -/
structure CodeResult where
  processedText : Str
  codeBlocks : List CodeBlock
  totalBlocks : Nat

/-- The replacer callback of the multi-code processor (block.js 41-55): the
block transformed from the match. An unmatched group 1 is `undefined` and the
transformer's default `''` applies. -/
def transformMatch (transformer : Str → Str → Transformed) (m : Match) : Transformed :=
  transformer (trim (m.cap 2)) (m.cap 1)

/-- The records pushed by the replacer callback, one per match, in order;
`blockIndex` counts the calls so far. -/
def recordBlocks (transformer : Str → Str → Transformed) (markdownText : Str) :
    Nat → List Match → List CodeBlock
  | _, [] => []
  | blockIndex, m :: ms =>
    { index := blockIndex, original := m.text, transformed := transformMatch transformer m,
      position := indexOf markdownText m.text }
      :: recordBlocks transformer markdownText (blockIndex + 1) ms

/-- The function returned by `createMultiCodeProcessor(transformer)`
(block.js 31-63). -/
def createMultiCodeProcessor (transformer : Str → Str → Transformed) (markdownText : Str) :
    CodeResult :=
  let segs := codeBlockRegex.scan 0 none markdownText
  { processedText := render (fun m => (transformMatch transformer m).html) segs
    codeBlocks := recordBlocks transformer markdownText 0 (hits segs)
    totalBlocks := (hits segs).length }

/-- One entry of the `blocks` of the code detector. -/
structure DetectedBlock where
  fullMatch : Str
  language : Str
  content : Str
  startIndex : Nat
  endIndex : Nat
  isComplete : Bool
deriving DecidableEq, Repr

/-- The object returned by the code detector. -/
structure Detection where
  blocks : List DetectedBlock
  count : Nat
  hasIncompleteBlocks : Bool
deriving DecidableEq, Repr

/-- The entry pushed for one match found at offset `index` (block.js 79-86).
An unmatched group is `undefined`; it and the empty string are both falsy. -/
def detectBlock (index : Nat) (m : Match) : DetectedBlock :=
  { fullMatch := m.text
    language := if (m.cap 1).isEmpty then "plaintext".toList else m.cap 1
    content := if (m.cap 2).isEmpty then [] else trim (m.cap 2)
    startIndex := index
    endIndex := index + m.text.length
    isComplete := endsWith m.text "```".toList }

/-- The function returned by `createCodeDetector()` (block.js 66-96). The
loop of `exec` calls visits the matches of the scan (a match of the fence
pattern is never empty, so `lastIndex` always moves on); the closure variable
`detectedBlocks` is only read back in the returned object. -/
def createCodeDetector (text : Str) : Detection :=
  let newBlocks := (hitsAt 0 (codeBlockRegex.scan 0 none text)).map
    (fun im => detectBlock im.1 im.2)
  { blocks := newBlocks
    count := newBlocks.length
    hasIncompleteBlocks := newBlocks.any (fun block => !block.isComplete) }

/-- The `codeInfo` of the enhanced converter. -/
structure CodeInfo where
  blocksProcessed : Nat
  blocks : List CodeBlock

/-- The object returned by the enhanced converter. -/
structure Enhanced where
  html : Str
  codeInfo : CodeInfo

/-- The function returned by `enhanceMarkdownWithCodeHighlight(originalMarkdownToHtml)`
(block.js 99-118). -/
def enhanceMarkdownWithCodeHighlight (originalMarkdownToHtml : Str → Str)
    (markdownText : Str) : Enhanced :=
  let codeResult := createMultiCodeProcessor transformCodeBlock markdownText
  let htmlResult := originalMarkdownToHtml codeResult.processedText
  { html := htmlResult
    codeInfo := { blocksProcessed := codeResult.totalBlocks, blocks := codeResult.codeBlocks } }

/-! ## app.js -/

/-- Heading pattern `^#...#\s+(.+)$` with `level` hashes, flags `gm`
(app.js 13-18). -/
def headingRegex (level : Nat) : Regex :=
  .cat [.bol true, .str (List.replicate level '#'), .plus (.char isSpace),
        .group 1 (.plus (.char isDot)), .eol true]

/-- Replacement `<hN>$1</hN>`. -/
def headingTag (level : Nat) (m : Match) : Str :=
  "<h".toList ++ (Nat.repr level).toList ++ ">".toList ++ m.cap 1
    ++ "</h".toList ++ (Nat.repr level).toList ++ ">".toList

/-- Pattern `^[\s]*-\s+(.+)$`, flags `gm` (app.js 21). -/
def ulItemRegex : Regex :=
  .cat [.bol true, .star true (.char isSpace), .lit '-', .plus (.char isSpace),
        .group 1 (.plus (.char isDot)), .eol true]

/-- Replacement `<li>$1</li>`. -/
def liTag (m : Match) : Str := "<li>".toList ++ m.cap 1 ++ "</li>".toList

/-- Pattern `(<li>.*<\/li>)`, flag `s` (app.js 22). -/
def ulWrapRegex : Regex :=
  .group 1 (.cat [.str "<li>".toList, .star true (.char isAny), .str "</li>".toList])

/-- Pattern `<\/ul>\s*<ul>`, flag `g` (app.js 25). -/
def ulJoinRegex : Regex :=
  .cat [.str "</ul>".toList, .star true (.char isSpace), .str "<ul>".toList]

/-- Pattern `^[\s]*\d+\.\s+(.+)$`, flags `gm` (app.js 28). -/
def olItemRegex : Regex :=
  .cat [.bol true, .star true (.char isSpace), .plus (.char isDigit), .lit '.',
        .plus (.char isSpace), .group 1 (.plus (.char isDot)), .eol true]

/-- Pattern `<\/?[uo]l>`, the list tags the lookahead of app.js 31 excludes. -/
def listTagRegex : Regex :=
  .cat [.lit '<', .opt (.lit '/'), .char (fun c => c == 'u' || c == 'o'), .lit 'l', .lit '>']

/-- Pattern `<li>(?:(?!<\/?[uo]l>).)*<\/li>`, flag `s`: one item of app.js 31. -/
def olItemRunRegex : Regex :=
  .cat [.str "<li>".toList, .star true (.seq (.notAhead listTagRegex) (.char isAny)),
        .str "</li>".toList]

/-- Pattern of app.js 31, flags `gs`: an item followed by more items, each
after optional white space. -/
def olWrapRegex : Regex :=
  .group 1 (.seq olItemRunRegex
    (.star true (.seq (.star true (.char isSpace)) olItemRunRegex)))

/-- The replacer callback of app.js 31-37; `html` is the text before the
replacement. -/
def olWrap (html : Str) (m : Match) : Str :=
  if indexOf html ("<ul>".toList ++ m.text) != -1 then m.text
  else "<ol>".toList ++ m.text ++ "</ol>".toList

/-- Pattern `<\/ol>\s*<ol>`, flag `g` (app.js 40). -/
def olJoinRegex : Regex :=
  .cat [.str "</ol>".toList, .star true (.char isSpace), .str "<ol>".toList]

/-- Pattern `^(?!<[huo]|<li)(.+)$`, flags `gm` (app.js 43). -/
def paragraphRegex : Regex :=
  .cat [.bol true,
        .notAhead (.alt (.seq (.lit '<') (.char (fun c => c == 'h' || c == 'u' || c == 'o')))
                        (.str "<li".toList)),
        .group 1 (.plus (.char isDot)), .eol true]

/-- Replacement `<p>$1</p>`. -/
def pTag (m : Match) : Str := "<p>".toList ++ m.cap 1 ++ "</p>".toList

/-- Pattern `<p>\s*<\/p>`, flag `g` (app.js 46). -/
def emptyParagraphRegex : Regex :=
  .cat [.str "<p>".toList, .star true (.char isSpace), .str "</p>".toList]

/-- Pattern `\n\s*\n`, flag `g` (app.js 49). -/
def blankLinesRegex : Regex :=
  .cat [.lit '\n', .star true (.char isSpace), .lit '\n']

/-- The six heading passes, level 6 first (app.js 13-18). -/
def convertHeadings (markdown : Str) : Str :=
  replaceAll (headingRegex 1) (headingTag 1)
    (replaceAll (headingRegex 2) (headingTag 2)
      (replaceAll (headingRegex 3) (headingTag 3)
        (replaceAll (headingRegex 4) (headingTag 4)
          (replaceAll (headingRegex 5) (headingTag 5)
            (replaceAll (headingRegex 6) (headingTag 6) markdown)))))

/-- The unordered-list passes (app.js 21-25). -/
def convertUnordered (html : Str) : Str :=
  replaceAll ulJoinRegex (fun _ => [])
    (replaceFirst ulWrapRegex (fun m => "<ul>".toList ++ m.cap 1 ++ "</ul>".toList)
      (replaceAll ulItemRegex liTag html))

/-- The wrapping of bare items in an ordered container (app.js 31-37). -/
def wrapOrdered (html : Str) : Str := replaceAll olWrapRegex (olWrap html) html

/-- The ordered-list passes (app.js 28-40). -/
def convertOrdered (html : Str) : Str :=
  replaceAll olJoinRegex (fun _ => []) (wrapOrdered (replaceAll olItemRegex liTag html))

/-- The paragraph passes and the clean-up (app.js 43-49). -/
def convertParagraphs (html : Str) : Str :=
  replaceAll blankLinesRegex (fun _ => ['\n'])
    (replaceAll emptyParagraphRegex (fun _ => [])
      (replaceAll paragraphRegex pTag html))

/-- Function `markdownToHtml` (app.js 9-52). -/
def markdownToHtml (markdown : Str) : Str :=
  convertParagraphs (convertOrdered (convertUnordered (convertHeadings markdown)))

/-! ## Numbers -/

/-- A Number value that is a non-negative integer or `Infinity`: the values
that `parseInt` returns on a string of digits, and that adding 1 to them
gives. -/
inductive Num where
  | int (n : Nat) : Num
  | infinity : Num
deriving DecidableEq, Repr

/-- The number of binary digits of `n` (none for 0), read with at most
`fuel` halvings. -/
def bitLengthFrom : Nat → Nat → Nat
  | 0, _ => 0
  | fuel + 1, n => if n = 0 then 0 else bitLengthFrom fuel (n / 2) + 1

/-- The number of binary digits of `n`. -/
def bitLength (n : Nat) : Nat := bitLengthFrom n n

/-- The Number value for the natural number `n`: the nearest double (53 bits
of significand), a tie going to the even significand, and `Infinity` when the
rounded value needs more than 1024 bits. -/
def toNumber (n : Nat) : Num :=
  let e := bitLength n - 53
  let q := n / 2 ^ e
  let r := n % 2 ^ e
  let q1 := if 2 ^ e < 2 * r ∨ (2 * r = 2 ^ e ∧ q % 2 = 1) then q + 1 else q
  if bitLength (q1 * 2 ^ e) ≤ 1024 then .int (q1 * 2 ^ e) else .infinity

/-- The integer that a string of decimal digits denotes. -/
def parseDigits (s : Str) : Nat := s.foldl (fun n c => 10 * n + (c.toNat - '0'.toNat)) 0

/-- Function `parseInt` on a string of decimal digits: the Number value for
the integer the digits denote. -/
def parseInt (s : Str) : Num := toNumber (parseDigits s)

/-- The sum `x + 1` of Numbers: the exact sum, rounded. -/
def Num.succ : Num → Num
  | .int n => toNumber (n + 1)
  | .infinity => .infinity

/-- The multiple of `10 ^ j` nearest to the double `x` among those whose
Number value is `x`, if there is one. -/
def shortestAt (x j : Nat) : Option Nat :=
  let lo := x / 10 ^ j * 10 ^ j
  let hi := lo + 10 ^ j
  let okLo := decide (toNumber lo = .int x)
  let okHi := decide (toNumber hi = .int x)
  if okLo && okHi then some (if x - lo ≤ hi - x then lo else hi)
  else if okLo then some lo
  else if okHi then some hi
  else none

/-- The integer with the fewest significant digits whose Number value is the
double `x`, looked for with `j` trailing zeros, then `j - 1`, down to `x`
itself. -/
def shortestFrom (x : Nat) : Nat → Nat
  | 0 => x
  | j + 1 =>
    match shortestAt x (j + 1) with
    | some m => m
    | none => shortestFrom x j

/-- Conversion of a Number to a string (as a template literal does): the
decimal digits of the shortest integer that denotes the same double, in
exponent form from 22 digits on. -/
def Num.toStr : Num → Str
  | .infinity => "Infinity".toList
  | .int x =>
    let m := shortestFrom x (Nat.repr x).length
    let ds := (Nat.repr m).toList
    if m < 10 ^ 21 then ds
    else
      let sig := (ds.reverse.dropWhile (fun c => c == '0')).reverse
      let exponent := "e+".toList ++ (Nat.repr (ds.length - 1)).toList
      match sig with
      | [] => ds
      | [d] => d :: exponent
      | d :: more => d :: '.' :: more ++ exponent

/-! ## lists.js -/

/-- The object returned by `listLineProcessor`. -/
structure LineResult where
  processedLine : Str
  isOrderedList : Bool
  isUnorderedList : Bool
  listType : Str
  content : Option Str
  number : Option Num

/-- Pattern `^(\d+)\.\s+(.+)$`, no flag (lists.js 38). -/
def orderedLineRegex : Regex :=
  .cat [.bol false, .group 1 (.plus (.char isDigit)), .lit '.', .plus (.char isSpace),
        .group 2 (.plus (.char isDot)), .eol false]

/-- Pattern `^[-*+]\s+(.+)$`, no flag (lists.js 54). -/
def unorderedLineRegex : Regex :=
  .cat [.bol false, .char (fun c => c == '-' || c == '*' || c == '+'), .plus (.char isSpace),
        .group 1 (.plus (.char isDot)), .eol false]

/-- Function `listLineProcessor` (lists.js 34-74); the index and the context
arguments are not read by the body. -/
def listLineProcessor (line : Str) : LineResult :=
  let trimmedLine := trim line
  match orderedLineRegex.find trimmedLine with
  | some m =>
    { processedLine := "<li data-number=\"".toList ++ m.cap 1 ++ "\">".toList ++ m.cap 2
        ++ "</li>".toList
      isOrderedList := true, isUnorderedList := false, listType := "ordered".toList
      content := some (m.cap 2), number := some (parseInt (m.cap 1)) }
  | none =>
    match unorderedLineRegex.find trimmedLine with
    | some m =>
      { processedLine := "<li>".toList ++ m.cap 1 ++ "</li>".toList
        isOrderedList := false, isUnorderedList := true, listType := "unordered".toList
        content := some (m.cap 1), number := none }
    | none =>
      { processedLine := line
        isOrderedList := false, isUnorderedList := false, listType := "none".toList
        content := none, number := none }

/-- The function returned by `processListsWithCallback(listProcessor)`
(lists.js 7-31). The two flags kept between lines are only handed to the
processor as context. -/
def processListsWithCallback (listProcessor : Str → LineResult) (markdownText : Str) : Str :=
  joinLines ((splitLines markdownText).map (fun line => (listProcessor line).processedLine))

/-- Pattern `<li data-number="\d+"[^>]*>.*?<\/li>`, flag `s`: one numbered item. -/
def numberedItemRegex : Regex :=
  .cat [.str "<li data-number=\"".toList, .plus (.char isDigit), .lit '"',
        .star true (.char (fun c => !(c == '>'))), .lit '>', .star false (.char isAny),
        .str "</li>".toList]

/-- Pattern of lists.js 88, flags `gs`: a numbered item (group 1) followed by
more numbered items, each after optional white space. -/
def numberedRunRegex : Regex :=
  .seq (.group 1 numberedItemRegex)
    (.star true (.seq (.star true (.char isSpace)) numberedItemRegex))

/-- Pattern `data-number="\d+"`, flag `g` (lists.js 90). -/
def dataNumberRegex : Regex :=
  .cat [.str "data-number=\"".toList, .plus (.char isDigit), .lit '"']

/-- Pattern `<li(?![^>]*data-number)[^>]*>.*?<\/li>`, flag `s`: one plain item. -/
def plainItemRegex : Regex :=
  .cat [.str "<li".toList,
        .notAhead (.seq (.star true (.char (fun c => !(c == '>')))) (.str "data-number".toList)),
        .star true (.char (fun c => !(c == '>'))), .lit '>', .star false (.char isAny),
        .str "</li>".toList]

/-- Pattern of lists.js 95, flags `gs`: a plain item (group 1) followed by
more plain items, each after optional white space. -/
def plainRunRegex : Regex :=
  .seq (.group 1 plainItemRegex)
    (.star true (.seq (.star true (.char isSpace)) plainItemRegex))

/-- Function `listItemGrouper` (lists.js 84-108). -/
def listItemGrouper (htmlText : Str) : Str :=
  let grouped := replaceAll numberedRunRegex
    (fun m => "<ol>".toList ++ replaceAll dataNumberRegex (fun _ => []) m.text ++ "</ol>".toList)
    htmlText
  let wrapped := replaceAll plainRunRegex
    (fun m =>
      if !includes m.text "<ol>".toList && !includes m.text "<ul>".toList then
        "<ul>".toList ++ m.text ++ "</ul>".toList
      else m.text)
    grouped
  replaceAll ulJoinRegex (fun _ => []) (replaceAll olJoinRegex (fun _ => []) wrapped)

/-- Function `processListsAutomatically` (lists.js 111-123). -/
def processListsAutomatically (markdownText : Str) : Str :=
  listItemGrouper (processListsWithCallback listLineProcessor markdownText)

/-- Pattern `^(\s*)(\d+)\.\s+(.*)$`, no flag (lists.js 202). -/
def orderedContinuationRegex : Regex :=
  .cat [.bol false, .group 1 (.star true (.char isSpace)), .group 2 (.plus (.char isDigit)),
        .lit '.', .plus (.char isSpace), .group 3 (.star true (.char isDot)), .eol false]

/-- Pattern `^(\s*)([-*+])\s+(.*)$`, no flag (lists.js 234). -/
def unorderedContinuationRegex : Regex :=
  .cat [.bol false, .group 1 (.star true (.char isSpace)),
        .group 2 (.char (fun c => c == '-' || c == '*' || c == '+')),
        .plus (.char isSpace), .group 3 (.star true (.char isDot)), .eol false]

/-- What `handleListContinuation` does: the textarea afterwards and whether
`event.preventDefault()` was called. -/
structure KeyOutcome where
  textarea : Textarea
  defaultPrevented : Bool
deriving DecidableEq, Repr

/-- Function `handleListContinuation` (lists.js 195-261). -/
def handleListContinuation (textarea : Textarea) : KeyOutcome :=
  let cursorPosition := textarea.selectionStart
  let textBeforeCursor := substring textarea.value 0 cursorPosition
  let lines := splitLines textBeforeCursor
  let currentLine := lines.getLastD []
  match orderedContinuationRegex.find currentLine with
  | some orderedMatch =>
    let indent := orderedMatch.cap 1
    let currentNumber := parseInt (orderedMatch.cap 2)
    let content := orderedMatch.cap 3
    if (trim content).isEmpty then
      let newPosition := cursorPosition - currentLine.length
      { textarea := setSelectionRange
          (substring textarea.value 0 newPosition ++ textarea.value.drop cursorPosition)
          newPosition newPosition
        defaultPrevented := true }
    else
      let nextNumber := currentNumber.succ
      let newListItem := '\n' :: (indent ++ nextNumber.toStr ++ ". ".toList)
      let newPosition := cursorPosition + newListItem.length
      { textarea := setSelectionRange
          (substring textarea.value 0 cursorPosition ++ newListItem
            ++ textarea.value.drop cursorPosition)
          newPosition newPosition
        defaultPrevented := true }
  | none =>
    match unorderedContinuationRegex.find currentLine with
    | some unorderedMatch =>
      let indent := unorderedMatch.cap 1
      let bullet := unorderedMatch.cap 2
      let content := unorderedMatch.cap 3
      if (trim content).isEmpty then
        let newPosition := cursorPosition - currentLine.length
        { textarea := setSelectionRange
            (substring textarea.value 0 newPosition ++ textarea.value.drop cursorPosition)
            newPosition newPosition
          defaultPrevented := true }
      else
        let newListItem := '\n' :: (indent ++ bullet ++ " ".toList)
        let newPosition := cursorPosition + newListItem.length
        { textarea := setSelectionRange
            (substring textarea.value 0 cursorPosition ++ newListItem
              ++ textarea.value.drop cursorPosition)
            newPosition newPosition
          defaultPrevented := true }
    | none => { textarea := textarea, defaultPrevented := false }

/-! ## format.js -/

/-- The format kinds the `switch` of `formatTextCallback` tells apart:
`'bold'`, `'italic'`, and any other value (the `default` branch). -/
inductive FormatType where
  | bold : FormatType
  | italic : FormatType
  | other : FormatType
deriving DecidableEq, Repr

/-- The object returned by `formatTextCallback`. -/
structure FormatResult where
  text : Str
  wasFormatted : Bool
  formatType : FormatType
deriving DecidableEq, Repr

/-- Function `formatTextCallback` (format.js 38-77). -/
def formatTextCallback (selectedText : Str) (formatType : FormatType) : FormatResult :=
  match formatType with
  | .bold =>
    if startsWith selectedText "**".toList && endsWith selectedText "**".toList
        && decide (selectedText.length > 4) then
      { text := sliceFromTo selectedText 2 2, wasFormatted := true, formatType := formatType }
    else
      { text := "**".toList ++ selectedText ++ "**".toList, wasFormatted := false,
        formatType := formatType }
  | .italic =>
    if startsWith selectedText "*".toList && endsWith selectedText "*".toList
        && !startsWith selectedText "**".toList && decide (selectedText.length > 2) then
      { text := sliceFromTo selectedText 1 1, wasFormatted := true, formatType := formatType }
    else
      { text := "*".toList ++ selectedText ++ "*".toList, wasFormatted := false,
        formatType := formatType }
  | .other => { text := selectedText, wasFormatted := false, formatType := formatType }

/-- What one call of the formatter does: the textarea afterwards, the value
returned (none for `undefined`), whether `alert` was shown, and the arguments
of every call made to the format callback. -/
structure FormatOutcome where
  textarea : Textarea
  result : Option FormatResult
  alerted : Bool
  callbackCalls : List (Str × FormatType)
deriving DecidableEq, Repr

/-- The function returned by `applyFormatting(formatCallback)` (format.js 7-35). -/
def applyFormatting (formatCallback : Str → FormatType → FormatResult)
    (textarea : Textarea) (formatType : FormatType) : FormatOutcome :=
  let start := textarea.selectionStart
  let stop := textarea.selectionEnd
  let selectedText := substring textarea.value start stop
  if selectedText.length = 0 then
    { textarea := textarea, result := none, alerted := true, callbackCalls := [] }
  else
    let result := formatCallback selectedText formatType
    let beforeText := substring textarea.value 0 start
    let afterText := textarea.value.drop stop
    { textarea :=
        { value := beforeText ++ result.text ++ afterText
          selectionStart := start
          selectionEnd := start + result.text.length }
      result := some result, alerted := false
      callbackCalls := [(selectedText, formatType)] }

/-- The object returned by the toggler. -/
structure ToggleResult where
  success : Bool
  action : Option Str
  format : Option Str
  nextFormat : Option Str
deriving DecidableEq, Repr

/-- The state around one call of the toggler: the closure variable
`currentFormat` and the textarea. -/
structure TogglerState where
  currentFormat : FormatType
  textarea : Textarea
deriving DecidableEq, Repr

/-- The function returned by `createFormatToggler()` (format.js 80-111), as a
step on the closure variable `currentFormat` and the textarea. -/
def createFormatToggler (st : TogglerState) : TogglerState × ToggleResult :=
  let out := applyFormatting formatTextCallback st.textarea st.currentFormat
  match out.result with
  | some result =>
    let currentFormat := if st.currentFormat = .bold then FormatType.italic else FormatType.bold
    let action := if result.wasFormatted then "removido".toList else "aplicado".toList
    let formatName := if result.formatType = .bold then "negrita".toList else "cursiva".toList
    ({ currentFormat := currentFormat, textarea := out.textarea },
     { success := true, action := some action, format := some formatName
       nextFormat := some (if currentFormat = .bold then "negrita".toList else "cursiva".toList) })
  | none =>
    ({ currentFormat := st.currentFormat, textarea := out.textarea },
     { success := false, action := none, format := none, nextFormat := none })

/-! ## Specification-side definitions -/

/-- The entity of one character, as the specification lists them: the five
characters `&`, `<`, `>`, double quote and apostrophe are replaced, any other
character is kept. -/
def entity (c : Char) : Str :=
  if c = '&' then "&amp;".toList
  else if c = '<' then "&lt;".toList
  else if c = '>' then "&gt;".toList
  else if c = Char.ofNat 34 then "&quot;".toList
  else if c = Char.ofNat 39 then "&#39;".toList
  else [c]

/-- A pass applied the way the specification describes the line-anchored
passes: to each line of the text on its own, the lines joined again. -/
def linewise (pass : Str → Str) (text : Str) : Str :=
  joinLines ((splitLines text).map pass)

/-! ## Proof-side definitions -/

/-- The character before the position reached after reading `w`. -/
def prevAfter : Option Char → Str → Option Char
  | p, [] => p
  | _, x :: w => prevAfter (some x) w

/-- The states a greedy quantifier over single characters offers after it
has read `pre`: the longest first, then one character less at a time. -/
def unwind (caps : List (Nat × Str)) : Option Char → Str → Str → List MState
  | p, [], suf => [{ prev := p, rest := suf, caps := caps }]
  | p, x :: pre, suf =>
    unwind caps (some x) pre suf ++ [{ prev := p, rest := x :: pre ++ suf, caps := caps }]

/-- The states a lazy quantifier over any character offers: every position
from the current one on, the nearest first. -/
def suffixStates (caps : List (Nat × Str)) : Option Char → Str → List MState
  | p, [] => [{ prev := p, rest := [], caps := caps }]
  | p, x :: t => { prev := p, rest := x :: t, caps := caps } :: suffixStates caps (some x) t

/-- The first way `r` matches at `s` ends in the state `s1`. -/
def Heads (r : Regex) (s s1 : MState) : Prop := ∃ tl, r.run s = s1 :: tl

/-- In the text `a ++ suf`, read after the character `p`,
no match of `r` starts at a position of `a`. -/
def Quiet (r : Regex) : Option Char → Str → Str → Prop
  | _, [], _ => True
  | p, x :: a, suf =>
    r.run { prev := p, rest := x :: (a ++ suf), caps := [] } = [] ∧ Quiet r (some x) a suf

/-- The pattern `r` only matches at the start of a line. -/
def Anchored (r : Regex) : Prop :=
  ∀ c rest caps, isLineTerminator c = false →
    r.run { prev := some c, rest := rest, caps := caps } = []

/-- Is the position after the character `p` the start of a line? -/
def lineStart (m : Bool) : Option Char → Bool
  | none => true
  | some c => m && isLineTerminator c

/-- The heading text `<hd>c</hd>`, with any character `d` for the level. -/
def headingText (d : Char) (c : Str) : Str :=
  '<' :: 'h' :: d :: '>' :: (c ++ ['<', '/', 'h', d, '>'])

/-- Hypotheses on a line of hashes, white space `ws` and content `c`. -/
structure HeadingLine (ws c : Str) : Prop where
  ws_ne : ws ≠ []
  ws_space : ∀ x ∈ ws, isSpace x = true
  ws_line : ∀ x ∈ ws, isLineTerminator x = false
  c_ne : c ≠ []
  c_start : ∀ x t, c = x :: t → isSpace x = false
  c_line : ∀ x ∈ c, isLineTerminator x = false
  c_plain : ∀ x ∈ c, x ≠ '<'

/-- The single iteration `f` reads the characters of
`pre` one by one, in the text `pre ++ suf` read after the character `p`. -/
def Walk (f : MState → List MState) (caps : List (Nat × Str)) :
    Option Char → Str → Str → Prop
  | _, [], _ => True
  | p, x :: a, suf =>
    f { prev := p, rest := x :: (a ++ suf), caps := caps }
      = [{ prev := some x, rest := a ++ suf, caps := caps }]
    ∧ Walk f caps (some x) a suf

/-- The item `<li>c</li>`. -/
def liText (c : Str) : Str := "<li>".toList ++ c ++ "</li>".toList

/-- The items of the contents `cs`, one per line. -/
def itemsText (cs : List Str) : Str := joinLines (cs.map liText)

/-- A content of a list item: without line terminator and without `<`. -/
def PlainContent (c : Str) : Prop := ∀ x ∈ c, isLineTerminator x = false ∧ x ≠ '<'

/-- What a pattern must satisfy to find nothing inside the items of a list:
no match at an item tag, at a closing item tag, at a newline before a tag, or
at any other character inside a line. -/
structure ListQuiet (r : Regex) : Prop where
  li : ∀ p t, r.run { prev := p, rest := '<' :: 'l' :: 'i' :: '>' :: t, caps := [] } = []
  inner : ∀ y x t, isLineTerminator y = false → x ≠ '<' → x ≠ '\n' →
    r.run { prev := some y, rest := x :: t, caps := [] } = []
  close : ∀ y t, isLineTerminator y = false →
    r.run { prev := some y, rest := '<' :: '/' :: 'l' :: t, caps := [] } = []
  nl : ∀ y t, isLineTerminator y = false →
    r.run { prev := some y, rest := '\n' :: '<' :: t, caps := [] } = []

/-- The list container with the tag letter `a` (`u` or `o`) around the items. -/
def listText (a : Char) (cs : List Str) : Str :=
  '<' :: a :: 'l' :: '>' :: (itemsText cs ++ ['<', '/', a, 'l', '>'])

/-- The body `(?!<\/?[uo]l>).` of the quantifier in the pattern of app.js 31. -/
def notTagChar : Regex := .seq (.notAhead listTagRegex) (.char isAny)

/-- A content of a list item as the claim takes it: not empty, not starting
with white space, without line terminator and without `<`. -/
def ItemContent (c : Str) : Prop :=
  c ≠ [] ∧ (∀ x ∈ c.head?, isSpace x = false)
    ∧ ∀ x ∈ c, isLineTerminator x = false ∧ x ≠ '<'

/-- A number of an ordered item: one or more digits. -/
def ItemNumber (n : Str) : Prop := n ≠ [] ∧ ∀ x ∈ n, isDigit x = true

/-- Is the line blank: empty or made of white space only? -/
def isBlank (l : Str) : Bool := l.all isSpace

/-- The lines of a text that are not blank, in order. -/
def nonBlankLines (t : Str) : List Str := (splitLines t).filter (fun l => !isBlank l)

/-- The patterns of the Markdown syntax the converter knows: the six heading
patterns and the two item patterns. -/
def markdownRegexes : List Regex :=
  [headingRegex 6, headingRegex 5, headingRegex 4, headingRegex 3, headingRegex 2,
   headingRegex 1, ulItemRegex, olItemRegex]

/-- Does one of the Markdown patterns match somewhere in the text? -/
def hasMarkdown (t : Str) : Bool := markdownRegexes.any (fun r => (r.find t).isSome)

/-- The paragraph `<p>l</p>`. -/
def pText (l : Str) : Str := "<p>".toList ++ l ++ "</p>".toList

/-- The non-blank lines of the text `cur ++ t`, where `cur` is the part of
the current line already read and contains no newline. -/
def parasFrom (cur : Str) : Str → List Str
  | [] => if isBlank cur then [] else [cur]
  | c :: cs =>
    if c == '\n' then (if isBlank cur then [] else [cur]) ++ parasFrom [] cs
    else parasFrom (cur ++ [c]) cs

/-- Is every `<` of the text followed by `p` or `/`? -/
def tagsOk : Str → Bool
  | [] => true
  | [c] => !(c == '<')
  | c :: y :: t => (!(c == '<') || y == 'p' || y == '/') && tagsOk (y :: t)

/-- White space inside a line: one or more characters of the class `\s`, none
of them a newline. -/
def Blanks (ws : Str) : Prop := ws ≠ [] ∧ ∀ x ∈ ws, isSpace x = true ∧ x ≠ '\n'

/-- The content of an item line of the editor: not empty, not starting with
white space, without line terminator. -/
def LineContent (c : Str) : Prop :=
  c ≠ [] ∧ (∀ x ∈ c.head?, isSpace x = false) ∧ ∀ x ∈ c, isLineTerminator x = false

/-- Is `b` one of the bullet characters `-`, `*`, `+`? -/
def isBullet (b : Char) : Bool := b == '-' || b == '*' || b == '+'

/-- The marker of an item line: digits and a dot, or a bullet character. -/
def IsMarker (marker : Str) : Prop :=
  (∃ digits, ItemNumber digits ∧ marker = digits ++ ['.'])
    ∨ ∃ b, isBullet b = true ∧ marker = [b]

/-- The marker `next` continues the marker `marker`: the number `n + 1` and a
dot after the digits of a number `n` below `2 ^ 53` and a dot, the same bullet
after a bullet. -/
def Continues (marker next : Str) : Prop :=
  (∃ digits, ItemNumber digits ∧ parseDigits digits < 2 ^ 53 ∧ marker = digits ++ ['.']
      ∧ next = (Nat.repr (parseDigits digits + 1)).toList ++ ['.'])
    ∨ ∃ b, isBullet b = true ∧ marker = [b] ∧ next = [b]

/-- The html of a code block with the class suffix `cls` and the escaped
content `e`. -/
def codeHtml (cls e : Str) : Str :=
  "<pre class=\"code-highlight\"><code class=\"code-block".toList ++ cls ++ "\">".toList ++ e
    ++ "</code></pre>".toList

/-- A character that can stand inside a tag or a text of one line: not `<`
and not a line terminator. -/
def isInline (x : Char) : Bool := !(x == '<') && !isLineTerminator x

/-! ## The matcher: basic facts -/

@[simp] theorem prevAfter_nil (p : Option Char) : prevAfter p [] = p := rfl
@[simp] theorem prevAfter_cons (p : Option Char) (x : Char) (w : Str) :
    prevAfter p (x :: w) = prevAfter (some x) w := rfl

theorem prevAfter_append (p : Option Char) (a b : Str) :
    prevAfter p (a ++ b) = prevAfter (prevAfter p a) b := by
  induction a generalizing p with
  | nil => rfl
  | cons x a ih => simp [ih]

@[simp] theorem run_empty (s : MState) : Regex.empty.run s = [s] := rfl
@[simp] theorem run_seq (a b : Regex) (s : MState) :
    (Regex.seq a b).run s = (a.run s).flatMap b.run := rfl
@[simp] theorem run_alt (a b : Regex) (s : MState) :
    (Regex.alt a b).run s = a.run s ++ b.run s := rfl
@[simp] theorem run_opt (a : Regex) (s : MState) :
    a.opt.run s = a.run s ++ [s] := rfl
@[simp] theorem run_plus (a : Regex) (s : MState) :
    a.plus.run s = (a.run s).flatMap (Regex.star true a).run := rfl
@[simp] theorem run_char_nil (q : Char → Bool) (p : Option Char) (caps : List (Nat × Str)) :
    (Regex.char q).run { prev := p, rest := [], caps := caps } = [] := rfl
@[simp] theorem run_char_cons (q : Char → Bool) (p : Option Char) (x : Char) (t : Str)
    (caps : List (Nat × Str)) :
    (Regex.char q).run { prev := p, rest := x :: t, caps := caps }
      = if q x then [{ prev := some x, rest := t, caps := caps }] else [] := rfl
@[simp] theorem run_lit_cons (a : Char) (p : Option Char) (x : Char) (t : Str)
    (caps : List (Nat × Str)) :
    (Regex.lit a).run { prev := p, rest := x :: t, caps := caps }
      = if x = a then [{ prev := some x, rest := t, caps := caps }] else [] := by
  simp [Regex.lit]
@[simp] theorem run_lit_nil (a : Char) (p : Option Char) (caps : List (Nat × Str)) :
    (Regex.lit a).run { prev := p, rest := [], caps := caps } = [] := rfl
theorem run_star (g : Bool) (r : Regex) (s : MState) :
    (Regex.star g r).run s = starRun g r.run s.rest.length s := rfl
theorem run_group (i : Nat) (r : Regex) (s : MState) :
    (Regex.group i r).run s = (r.run s).map (fun s1 =>
      { s1 with caps := (i, s.rest.take (s.rest.length - s1.rest.length)) :: s1.caps }) := rfl

theorem run_str_append (w rest : Str) (p : Option Char) (caps : List (Nat × Str)) :
    (Regex.str w).run { prev := p, rest := w ++ rest, caps := caps }
      = [{ prev := prevAfter p w, rest := rest, caps := caps }] := by
  induction w generalizing p with
  | nil => rfl
  | cons x w ih => simp [Regex.str, ih]

theorem run_str_of_not_prefix (w t : Str) (p : Option Char) (caps : List (Nat × Str))
    (h : ¬ w <+: t) : (Regex.str w).run { prev := p, rest := t, caps := caps } = [] := by
  induction w generalizing p t with
  | nil => exact absurd (List.nil_prefix) h
  | cons x w ih =>
    cases t with
    | nil => simp [Regex.str]
    | cons y t =>
      by_cases hxy : y = x
      · subst hxy
        have h1 : ¬ w <+: t := fun hw => h ((List.prefix_cons_inj y).mpr hw)
        simp [Regex.str, ih t _ h1]
      · simp [Regex.str, hxy]

/-- The lazy quantifier over any character offers every later position. -/
theorem starRun_lazy_any (p : Option Char) (t : Str) (caps : List (Nat × Str)) :
    starRun false (Regex.char isAny).run t.length { prev := p, rest := t, caps := caps }
      = suffixStates caps p t := by
  induction t generalizing p with
  | nil => rfl
  | cons x t ih =>
    simp [starRun, isAny, suffixStates, ih]

/-- A greedy quantifier over a character class reads the longest run of the
class and offers to give characters back one at a time. -/
theorem starRun_greedy_char (q : Char → Bool) (p : Option Char) (pre suf : Str)
    (caps : List (Nat × Str)) (hpre : ∀ x ∈ pre, q x = true)
    (hsuf : ∀ y t, suf = y :: t → q y = false) :
    starRun true (Regex.char q).run (pre ++ suf).length
        { prev := p, rest := pre ++ suf, caps := caps }
      = unwind caps p pre suf := by
  induction pre generalizing p with
  | nil =>
    cases suf with
    | nil => rfl
    | cons y t => simp [starRun, hsuf y t rfl, unwind]
  | cons x pre ih =>
    have hx : q x = true := hpre x (List.mem_cons_self _ _)
    have ih1 := ih (some x) (fun z hz => hpre z (List.mem_cons_of_mem _ hz))
    simp only [List.length_append] at ih1
    simp [starRun, hx, unwind, ih1]

theorem unwind_head (caps : List (Nat × Str)) (p : Option Char) (pre suf : Str) :
    ∃ tl, unwind caps p pre suf = { prev := prevAfter p pre, rest := suf, caps := caps } :: tl := by
  induction pre generalizing p with
  | nil => exact ⟨[], rfl⟩
  | cons x pre ih =>
    obtain ⟨tl, h⟩ := ih (some x)
    exact ⟨tl ++ [{ prev := p, rest := x :: pre ++ suf, caps := caps }], by simp [unwind, h]⟩


theorem head?_flatMap_of_head {α β : Type} (f : α → List β) (x : α) (tl : List α) (y : β)
    (ys : List β) (h : f x = y :: ys) : ((x :: tl).flatMap f).head? = some y := by
  simp [h]

theorem trim_append_space (c : Str) (x : Char) (hx : isSpace x = true) :
    trim (c ++ [x]) = trim c := by
  unfold trim
  by_cases h : List.dropWhile isSpace c = []
  · have hall : ∀ y ∈ c, isSpace y = true := by
      simpa [List.dropWhile_eq_nil_iff] using h
    have h2 : List.dropWhile isSpace (c ++ [x]) = [] := by
      rw [List.dropWhile_eq_nil_iff]
      intro y hy
      rcases List.mem_append.mp hy with hy | hy
      · exact hall y hy
      · simp at hy; subst hy; exact hx
    rw [h, h2]
  · have h2 : List.dropWhile isSpace (c ++ [x]) = List.dropWhile isSpace c ++ [x] := by
      induction c with
      | nil => simp at h
      | cons y c ih =>
        by_cases hy : isSpace y = true
        · simp only [List.cons_append, List.dropWhile_cons, hy, if_true] at h ⊢
          exact ih h
        · simp [List.dropWhile_cons, hy]
    rw [h2]
    simp [List.dropWhile_cons, hx]


theorem flatMap_cons_head {α β : Type} (f : α → List β) (x : α) (l : List α) (y : β)
    (ys : List β) (h : f x = y :: ys) : ∃ tl, (x :: l).flatMap f = y :: tl :=
  ⟨ys ++ l.flatMap f, by simp [h]⟩

theorem suffixStates_head (caps : List (Nat × Str)) (p : Option Char) (t : Str) :
    ∃ tl, suffixStates caps p t = { prev := p, rest := t, caps := caps } :: tl := by
  cases t with
  | nil => exact ⟨[], rfl⟩
  | cons x t => exact ⟨_, rfl⟩

/-- A lazy quantifier followed by a pattern that needs the literal `w` stops
at the first position where `w` stands. -/
theorem suffixStates_flatMap_head (caps : List (Nat × Str)) (F : MState → List MState)
    (w : Str) (hF : ∀ s, ¬ w <+: s.rest → F s = []) (a tail : Str) (p : Option Char)
    (hno : ∀ b d, a = b ++ d → d ≠ [] → ¬ w <+: d ++ tail) (y : MState) (ys : List MState)
    (hy : F { prev := prevAfter p a, rest := tail, caps := caps } = y :: ys) :
    ∃ tl, (suffixStates caps p (a ++ tail)).flatMap F = y :: tl := by
  induction a generalizing p with
  | nil =>
    obtain ⟨tl, h⟩ := suffixStates_head caps p tail
    simp only [List.nil_append, h]
    exact flatMap_cons_head F _ tl y ys hy
  | cons x a ih =>
    have h1 : F { prev := p, rest := x :: a ++ tail, caps := caps } = [] :=
      hF _ (hno [] (x :: a) rfl (by simp))
    have h2 := ih (some x) (fun b d hbd hd => hno (x :: b) d (by simp [hbd]) hd) hy
    obtain ⟨tl, h3⟩ := h2
    have h1c : F { prev := p, rest := x :: (a ++ tail), caps := caps } = [] := h1
    exact ⟨tl, by simp [suffixStates, h1c, h3]⟩

theorem exec_of_run_cons (r : Regex) (prev : Option Char) (rest : Str) (s : MState)
    (tl : List MState) (h : r.run { prev := prev, rest := rest, caps := [] } = s :: tl) :
    r.exec prev rest
      = some { text := rest.take (rest.length - s.rest.length), caps := s.caps } := by
  simp [Regex.exec, h]

theorem exec_of_run_nil (r : Regex) (prev : Option Char) (rest : Str)
    (h : r.run { prev := prev, rest := rest, caps := [] } = []) :
    r.exec prev rest = none := by
  simp [Regex.exec, h]

/-- Inside a match the scan only steps over the characters. -/
theorem scan_skip (r : Regex) (a rest : Str) (prev : Option Char) :
    r.scan a.length prev (a ++ rest) = r.scan 0 (prevAfter prev a) rest := by
  induction a generalizing prev with
  | nil => rfl
  | cons x a ih => simpa [Regex.scan] using ih (some x)

theorem scan_hit (r : Regex) (prev : Option Char) (t rest : Str) (m : Match)
    (h : r.exec prev (t ++ rest) = some m) (hm : m.text = t) (hne : t ≠ []) :
    r.scan 0 prev (t ++ rest) = Seg.hit m :: r.scan 0 (prevAfter prev t) rest := by
  obtain ⟨x, a, rfl⟩ := List.exists_cons_of_ne_nil hne
  have h1 : r.exec prev (x :: (a ++ rest)) = some m := h
  simp [Regex.scan, h1, hm, scan_skip]

theorem scan_hit_all (r : Regex) (prev : Option Char) (t : Str) (m : Match)
    (h : r.exec prev t = some m) (hm : m.text = t) (hne : t ≠ []) :
    r.scan 0 prev t = Seg.hit m :: r.scan 0 (prevAfter prev t) [] := by
  have := scan_hit r prev t [] m (by simpa using h) hm hne
  simpa using this

theorem scan_miss (r : Regex) (prev : Option Char) (x : Char) (t : Str)
    (h : r.exec prev (x :: t) = none) :
    r.scan 0 prev (x :: t) = Seg.lit x :: r.scan 0 (some x) t := by
  simp [Regex.scan, h]

theorem run_str_self (w : Str) (p : Option Char) (caps : List (Nat × Str)) :
    (Regex.str w).run { prev := p, rest := w, caps := caps }
      = [{ prev := prevAfter p w, rest := [], caps := caps }] := by
  simpa using run_str_append w [] p caps

theorem take_sub_length (a b : Str) : (a ++ b).take ((a ++ b).length - b.length) = a := by
  have h : (a ++ b).length - b.length = a.length := by simp
  rw [h, List.take_left]

theorem exec_lit_cons (a : Char) (prev : Option Char) (c : Char) (cs : Str) :
    (Regex.lit a).exec prev (c :: cs)
      = if c = a then some { text := [c], caps := [] } else none := by
  by_cases h : c = a <;> simp [Regex.exec, Regex.lit, Regex.run, h]

theorem exec_lit_nil (a : Char) (prev : Option Char) :
    (Regex.lit a).exec prev [] = none := by
  simp [Regex.exec, Regex.lit, Regex.run]

/-- A global replacement of one literal character is a character-wise map. -/
theorem scan_lit (a : Char) (f : Match → Str) (prev : Option Char) (t : Str) :
    render f ((Regex.lit a).scan 0 prev t)
      = t.flatMap (fun c => if c = a then f { text := [c], caps := [] } else [c]) := by
  induction t generalizing prev with
  | nil => simp [Regex.scan, exec_lit_nil, render]
  | cons c cs ih =>
    by_cases h : c = a
    · simp [Regex.scan, exec_lit_cons, h, render, ih]
    · simp [Regex.scan, exec_lit_cons, h, render, ih]

/-! ## The matcher: the match taken first -/

theorem Heads.seq {a b : Regex} {s s1 s2 : MState} (ha : Heads a s s1) (hb : Heads b s1 s2) :
    Heads (.seq a b) s s2 := by
  obtain ⟨tl, h⟩ := ha
  obtain ⟨tl2, h2⟩ := hb
  exact ⟨tl2 ++ tl.flatMap b.run, by simp [h, h2]⟩

theorem Heads.group {r : Regex} {s s1 : MState} (i : Nat) (h : Heads r s s1) :
    Heads (.group i r) s
      { s1 with caps := (i, s.rest.take (s.rest.length - s1.rest.length)) :: s1.caps } := by
  obtain ⟨tl, h⟩ := h
  refine ⟨tl.map (fun s1 =>
    { s1 with caps := (i, s.rest.take (s.rest.length - s1.rest.length)) :: s1.caps }), ?_⟩
  simp [run_group, h]

theorem heads_str (w rest : Str) (p : Option Char) (caps : List (Nat × Str)) :
    Heads (.str w) { prev := p, rest := w ++ rest, caps := caps }
      { prev := prevAfter p w, rest := rest, caps := caps } :=
  ⟨[], run_str_append w rest p caps⟩

theorem heads_lit (x : Char) (rest : Str) (p : Option Char) (caps : List (Nat × Str)) :
    Heads (.lit x) { prev := p, rest := x :: rest, caps := caps }
      { prev := some x, rest := rest, caps := caps } :=
  ⟨[], by simp⟩

theorem heads_bol_none (m : Bool) (rest : Str) (caps : List (Nat × Str)) :
    Heads (.bol m) { prev := none, rest := rest, caps := caps }
      { prev := none, rest := rest, caps := caps } :=
  ⟨[], rfl⟩

theorem heads_bol_lt (c : Char) (hc : isLineTerminator c = true) (rest : Str)
    (caps : List (Nat × Str)) :
    Heads (.bol true) { prev := some c, rest := rest, caps := caps }
      { prev := some c, rest := rest, caps := caps } :=
  ⟨[], by simp [Regex.run, hc]⟩

theorem heads_eol_nil (m : Bool) (p : Option Char) (caps : List (Nat × Str)) :
    Heads (.eol m) { prev := p, rest := [], caps := caps }
      { prev := p, rest := [], caps := caps } :=
  ⟨[], rfl⟩

theorem heads_eol_lt (c : Char) (hc : isLineTerminator c = true) (p : Option Char) (rest : Str)
    (caps : List (Nat × Str)) :
    Heads (.eol true) { prev := p, rest := c :: rest, caps := caps }
      { prev := p, rest := c :: rest, caps := caps } :=
  ⟨[], by simp [Regex.run, hc]⟩

theorem heads_notAhead (r : Regex) (s : MState) (h : r.run s = []) :
    Heads (.notAhead r) s s :=
  ⟨[], by simp [Regex.run, h]⟩

/-- A greedy quantifier over a character class takes the whole run first. -/
theorem heads_star_char (q : Char → Bool) (p : Option Char) (pre suf : Str)
    (caps : List (Nat × Str)) (hpre : ∀ x ∈ pre, q x = true)
    (hsuf : ∀ y t, suf = y :: t → q y = false) :
    Heads (.star true (.char q)) { prev := p, rest := pre ++ suf, caps := caps }
      { prev := prevAfter p pre, rest := suf, caps := caps } := by
  obtain ⟨tl, h⟩ := unwind_head caps p pre suf
  exact ⟨tl, by rw [run_star, starRun_greedy_char q p pre suf caps hpre hsuf, h]⟩

theorem heads_plus_char (q : Char → Bool) (p : Option Char) (pre suf : Str)
    (caps : List (Nat × Str)) (hne : pre ≠ []) (hpre : ∀ x ∈ pre, q x = true)
    (hsuf : ∀ y t, suf = y :: t → q y = false) :
    Heads (Regex.plus (.char q)) { prev := p, rest := pre ++ suf, caps := caps }
      { prev := prevAfter p pre, rest := suf, caps := caps } := by
  obtain ⟨x, pre1, rfl⟩ := List.exists_cons_of_ne_nil hne
  have hx : q x = true := hpre x (List.mem_cons_self _ _)
  have h1 := heads_star_char q (some x) pre1 suf caps
    (fun z hz => hpre z (List.mem_cons_of_mem _ hz)) hsuf
  obtain ⟨tl, h⟩ := h1
  exact ⟨tl, by simp [hx, h]⟩

theorem exec_of_heads (r : Regex) (prev : Option Char) (rest : Str) (s : MState)
    (h : Heads r { prev := prev, rest := rest, caps := [] } s) :
    r.exec prev rest
      = some { text := rest.take (rest.length - s.rest.length), caps := s.caps } := by
  obtain ⟨tl, h⟩ := h
  exact exec_of_run_cons r prev rest s tl h

/-! ## The scan: stretches without a match -/

theorem quiet_append (r : Regex) (p : Option Char) (a b suf : Str) :
    Quiet r p (a ++ b) suf ↔ Quiet r p a (b ++ suf) ∧ Quiet r (prevAfter p a) b suf := by
  induction a generalizing p with
  | nil => simp [Quiet]
  | cons x a ih => simp [Quiet, ih, and_assoc]

theorem scan_quiet (r : Regex) (p : Option Char) (a suf : Str) (h : Quiet r p a suf) :
    r.scan 0 p (a ++ suf) = a.map Seg.lit ++ r.scan 0 (prevAfter p a) suf := by
  induction a generalizing p with
  | nil => rfl
  | cons x a ih =>
    obtain ⟨h1, h2⟩ := h
    have h3 := scan_miss r p x (a ++ suf) (exec_of_run_nil _ _ _ h1)
    simp [h3, ih _ h2]

theorem render_append (f : Match → Str) (l1 l2 : List Seg) :
    render f (l1 ++ l2) = render f l1 ++ render f l2 := by
  induction l1 with
  | nil => rfl
  | cons s l1 ih => cases s <;> simp [render, ih]

theorem render_lits (f : Match → Str) (a : Str) : render f (a.map Seg.lit) = a := by
  induction a with
  | nil => rfl
  | cons x a ih => simp [render, ih]

theorem scan_nil_of_run_nil (r : Regex) (p : Option Char)
    (h : r.run { prev := p, rest := [], caps := [] } = []) : r.scan 0 p [] = [] := by
  simp [Regex.scan, exec_of_run_nil _ _ _ h]

/-- A text in which no match starts anywhere is left as it is by a global
replacement. -/
theorem replaceAll_quiet (r : Regex) (f : Match → Str) (t : Str) (h : Quiet r none t [])
    (hend : r.run { prev := prevAfter none t, rest := [], caps := [] } = []) :
    replaceAll r f t = t := by
  have h1 := scan_quiet r none t [] h
  simp only [List.append_nil] at h1
  simp [replaceAll, h1, scan_nil_of_run_nil r _ hend, render_lits]

theorem replaceFirstFrom_quiet (r : Regex) (f : Match → Str) (p : Option Char) (a suf : Str)
    (h : Quiet r p a suf) :
    r.replaceFirstFrom f p (a ++ suf) = a ++ r.replaceFirstFrom f (prevAfter p a) suf := by
  induction a generalizing p with
  | nil => rfl
  | cons x a ih =>
    obtain ⟨h1, h2⟩ := h
    have h3 : r.exec p (x :: (a ++ suf)) = none := exec_of_run_nil _ _ _ h1
    simp [Regex.replaceFirstFrom, h3, ih _ h2]

theorem replaceFirst_quiet (r : Regex) (f : Match → Str) (t : Str) (h : Quiet r none t [])
    (hend : r.run { prev := prevAfter none t, rest := [], caps := [] } = []) :
    replaceFirst r f t = t := by
  have h1 := replaceFirstFrom_quiet r f none t [] h
  simp only [List.append_nil] at h1
  simp [replaceFirst, h1, Regex.replaceFirstFrom, exec_of_run_nil _ _ _ hend]

/-- A pattern that needs a character of the class `q` first is quiet on a
stretch without such a character. -/
theorem quiet_of_head (r : Regex) (q : Char → Bool)
    (hr : ∀ p x t, q x = false → r.run { prev := p, rest := x :: t, caps := [] } = [])
    (p : Option Char) (a suf : Str) (ha : ∀ x ∈ a, q x = false) : Quiet r p a suf := by
  induction a generalizing p with
  | nil => trivial
  | cons x a ih =>
    exact ⟨hr p x _ (ha x (List.mem_cons_self _ _)),
      ih _ (fun z hz => ha z (List.mem_cons_of_mem _ hz))⟩

theorem anchored_seq_bol (r : Regex) : Anchored (.seq (.bol true) r) := by
  intro c rest caps hc
  simp [Regex.run, hc]

/-- An anchored pattern is quiet inside a line. -/
theorem quiet_of_anchored (r : Regex) (hr : Anchored r) (c : Char)
    (hc : isLineTerminator c = false) (a suf : Str)
    (ha : ∀ x ∈ a, isLineTerminator x = false) : Quiet r (some c) a suf := by
  induction a generalizing c with
  | nil => trivial
  | cons x a ih =>
    exact ⟨hr c _ _ hc,
      ih x (ha x (List.mem_cons_self _ _)) (fun z hz => ha z (List.mem_cons_of_mem _ hz))⟩

/-- An anchored pattern is quiet on a line at whose start it does not match. -/
theorem quiet_line (r : Regex) (hr : Anchored r) (p : Option Char) (l suf : Str)
    (hl : ∀ x ∈ l, isLineTerminator x = false)
    (h0 : r.run { prev := p, rest := l ++ suf, caps := [] } = []) : Quiet r p l suf := by
  cases l with
  | nil => trivial
  | cons x a =>
    exact ⟨h0, quiet_of_anchored r hr x (hl x (List.mem_cons_self _ _)) a suf
      (fun z hz => hl z (List.mem_cons_of_mem _ hz))⟩

theorem prevAfter_some_of_ne_nil (p : Option Char) (a : Str) (ha : a ≠ []) :
    ∃ c, c ∈ a ∧ prevAfter p a = some c := by
  induction a generalizing p with
  | nil => exact absurd rfl ha
  | cons x a ih =>
    cases a with
    | nil => exact ⟨x, by simp, rfl⟩
    | cons y a =>
      obtain ⟨c, hc, h⟩ := ih (some x) (by simp)
      exact ⟨c, List.mem_cons_of_mem _ hc, h⟩


/-! ## The quantifier: the bound on the iterations is never reached early -/

theorem flatMap_congr_mem {α β : Type} (l : List α) (f g : α → List β)
    (h : ∀ x ∈ l, f x = g x) : l.flatMap f = l.flatMap g := by
  induction l with
  | nil => rfl
  | cons x l ih =>
    simp only [List.flatMap_cons]
    rw [h x (List.mem_cons_self _ _), ih (fun y hy => h y (List.mem_cons_of_mem _ hy))]

/-- The iterations of a quantifier do not depend on the bound `n`, as soon as
`n` is at least the length of the remaining input: the matcher, which starts
with exactly that length, never stops for lack of iterations. -/
theorem starRun_fuel (g : Bool) (f : MState → List MState) (n m : Nat) (s : MState)
    (hn : s.rest.length ≤ n) (hm : s.rest.length ≤ m) : starRun g f n s = starRun g f m s := by
  induction n generalizing m s with
  | zero =>
    have h0 : s.rest.length = 0 := by omega
    cases m with
    | zero => rfl
    | succ m => cases g <;> simp [starRun, h0]
  | succ n ih =>
    cases m with
    | zero =>
      have h0 : s.rest.length = 0 := by omega
      cases g <;> simp [starRun, h0]
    | succ m =>
      have hmore : ((f s).filter (fun s1 => s1.rest.length < s.rest.length)).flatMap
            (starRun g f n)
          = ((f s).filter (fun s1 => s1.rest.length < s.rest.length)).flatMap
            (starRun g f m) := by
        apply flatMap_congr_mem
        intro s2 hs2
        have hlt : s2.rest.length < s.rest.length := by
          simpa using (List.mem_filter.mp hs2).2
        exact ih m s2 (by omega) (by omega)
      simp only [starRun, hmore]
/-! ## block.js: escaping -/

theorem escapeCode_eq (c : Str) : escapeCode c = c.flatMap entity := by
  simp only [escapeCode, replaceAll, scan_lit, List.flatMap_assoc]
  congr 1
  funext x
  by_cases h1 : x = '&'
  · subst h1; decide
  by_cases h2 : x = '<'
  · subst h2; decide
  by_cases h3 : x = '>'
  · subst h3; decide
  by_cases h4 : x = Char.ofNat 34
  · subst h4; decide
  by_cases h5 : x = Char.ofNat 39
  · subst h5; decide
  simp [entity, h1, h2, h3, h4, h5]

theorem entity_clean (c x : Char) (hx : x ∈ entity c) :
    x ≠ '<' ∧ x ≠ '>' ∧ x ≠ Char.ofNat 34 ∧ x ≠ Char.ofNat 39 := by
  unfold entity at hx
  split_ifs at hx with h1 h2 h3 h4 h5
  · revert x; decide
  · revert x; decide
  · revert x; decide
  · revert x; decide
  · revert x; decide
  · simp at hx
    subst hx
    exact ⟨h2, h3, h4, h5⟩

/-- C1: the content returned by the code transformer, which is also the text
inside the code element of its html, is the input with every character
replaced independently by its entity (so no entity is escaped twice), and it
contains none of the characters `<`, `>`, double quote, apostrophe. -/
theorem transformCodeBlock_content_entities (c lang : Str) :
    (transformCodeBlock c lang).content = c.flatMap entity
    ∧ (transformCodeBlock c lang).html
        = "<pre class=\"code-highlight\"><code class=\"code-block".toList
          ++ (if lang.isEmpty then [] else " language-".toList ++ toLowerCase lang)
          ++ "\">".toList ++ c.flatMap entity ++ "</code></pre>".toList
    ∧ ∀ x ∈ (transformCodeBlock c lang).content,
        x ≠ '<' ∧ x ≠ '>' ∧ x ≠ Char.ofNat 34 ∧ x ≠ Char.ofNat 39 := by
  refine ⟨escapeCode_eq c, ?_, ?_⟩
  · simp only [transformCodeBlock, escapeCode_eq]
  · intro x hx
    have hx1 : x ∈ c.flatMap entity := by
      simpa only [transformCodeBlock, escapeCode_eq] using hx
    obtain ⟨y, _, hy⟩ := List.mem_flatMap.mp hx1
    exact entity_clean y x hy

/-! ## block.js: one fenced block -/

theorem no_fence_before (c : Str) (hc : ¬ "```".toList <:+: c) (b d : Str)
    (hbd : c ++ ['\n'] = b ++ d) (hd : d ≠ []) : ¬ "```".toList <+: d ++ "```".toList := by
  rcases List.eq_nil_or_concat d with hd0 | ⟨d1, z, rfl⟩
  · exact absurd hd0 hd
  · have h1 : c ++ ['\n'] = (b ++ d1) ++ [z] := by simp [hbd]
    have h2 := List.append_inj' h1 rfl
    obtain ⟨hcb, hz⟩ := h2
    simp at hz
    subst hz
    intro hpre
    rw [← List.isPrefixOf_iff_prefix] at hpre
    rcases d1 with _ | ⟨x1, _ | ⟨x2, _ | ⟨x3, d2⟩⟩⟩
    · revert hpre; decide
    · simp [List.isPrefixOf] at hpre
    · simp [List.isPrefixOf] at hpre
    · simp [List.isPrefixOf] at hpre
      obtain ⟨rfl, rfl, rfl⟩ := hpre
      exact hc ⟨b, d2, by simp [hcb]⟩


/-- The match of the fenced-block pattern on one well-formed block. -/
theorem codeBlockRegex_run_block (L c : Str) (hL : L ≠ []) (hw : ∀ x ∈ L, isWord x = true)
    (hc : ¬ "```".toList <:+: c) (p : Option Char) :
    ∃ tl, codeBlockRegex.run
        { prev := p, rest := "```".toList ++ (L ++ ('\n' :: (c ++ ['\n'] ++ "```".toList))),
          caps := [] }
      = { prev := some '`', rest := [], caps := [(2, c ++ ['\n']), (1, L)] } :: tl := by
  obtain ⟨x, L1, rfl⟩ := List.exists_cons_of_ne_nil hL
  have hx : isWord x = true := hw x (List.mem_cons_self _ _)
  have hL1 : ∀ z ∈ L1, isWord z = true := fun z hz => hw z (List.mem_cons_of_mem _ hz)
  -- the body and the closing fence
  have hbody : ∃ tl, (Regex.seq (.group 2 (.star false (.char isAny))) (.str "```".toList)).run
        { prev := some '\n', rest := c ++ ['\n'] ++ "```".toList, caps := [(1, x :: L1)] }
      = { prev := some '`', rest := [], caps := [(2, c ++ ['\n']), (1, x :: L1)] } :: tl := by
    simp only [run_seq, run_group, run_star, starRun_lazy_any, List.flatMap_map]
    refine suffixStates_flatMap_head _ _ "```".toList ?_ (c ++ ['\n']) "```".toList _
      (no_fence_before c hc) _ [] ?_
    · intro s hs
      exact run_str_of_not_prefix _ _ _ _ hs
    · simp only []
      rw [run_str_self, take_sub_length]
      rfl
  obtain ⟨tl1, h1⟩ := hbody
  -- the optional newline
  have hnl : ∃ tl, (Regex.cat [.opt (.lit '\n'), .group 2 (.star false (.char isAny)),
        .str "```".toList]).run
        { prev := prevAfter (some x) L1, rest := '\n' :: (c ++ ['\n'] ++ "```".toList),
          caps := [(1, x :: L1)] }
      = { prev := some '`', rest := [], caps := [(2, c ++ ['\n']), (1, x :: L1)] } :: tl := by
    simp only [Regex.cat, run_seq, run_opt, run_lit_cons, if_true, List.singleton_append]
    exact flatMap_cons_head _ _ _ _ _ h1
  obtain ⟨tl2, h2⟩ := hnl
  -- the language token
  have hsuf : ∀ y t, '\n' :: (c ++ ['\n'] ++ "```".toList) = y :: t → isWord y = false := by
    intro y t h
    injection h with h _
    subst h
    decide
  have hstar := starRun_greedy_char isWord (some x) L1 ('\n' :: (c ++ ['\n'] ++ "```".toList))
    [] hL1 hsuf
  obtain ⟨tl3, h3⟩ := unwind_head [] (some x) L1 ('\n' :: (c ++ ['\n'] ++ "```".toList))
  simp only [codeBlockRegex, Regex.cat, run_seq, run_str_append, List.flatMap_cons,
    List.flatMap_nil, List.append_nil, run_opt, run_group, run_plus, List.cons_append,
    run_char_cons, hx, if_true, run_star]
  rw [hstar, h3]
  simp only [List.map_cons, List.cons_append]
  have h4 := take_sub_length (x :: L1) ('\n' :: (c ++ ['\n'] ++ "```".toList))
  simp only [List.cons_append] at h4
  rw [h4]
  exact flatMap_cons_head _ _ _ _ _ h2


theorem codeBlockRegex_exec_nil (p : Option Char) : codeBlockRegex.exec p [] = none := by
  apply exec_of_run_nil
  simp [codeBlockRegex, Regex.cat, Regex.str]

/-- The scan of the fenced-block pattern over one well-formed block: one
match, of the whole text. -/
theorem codeBlockRegex_scan_block (L c : Str) (hL : L ≠ []) (hw : ∀ x ∈ L, isWord x = true)
    (hc : ¬ "```".toList <:+: c) :
    codeBlockRegex.scan 0 none ("```".toList ++ L ++ "\n".toList ++ c ++ "\n```".toList)
      = [Seg.hit { text := "```".toList ++ L ++ "\n".toList ++ c ++ "\n```".toList,
                   caps := [(2, c ++ ['\n']), (1, L)] }] := by
  have htext : "```".toList ++ L ++ "\n".toList ++ c ++ "\n```".toList
      = "```".toList ++ (L ++ ('\n' :: (c ++ ['\n'] ++ "```".toList))) := by simp
  obtain ⟨tl, hrun⟩ := codeBlockRegex_run_block L c hL hw hc none
  have hexec := exec_of_run_cons _ _ _ _ _ hrun
  rw [← htext] at hexec
  simp only [List.length_nil, Nat.sub_zero, List.take_length] at hexec
  rw [scan_hit_all _ _ _ _ hexec rfl (by simp)]
  simp [Regex.scan, codeBlockRegex_exec_nil]

/-- C2: one fenced block with a language token `L` of word characters and a
content `c` without three consecutive backticks is one block, and the
processed text is exactly the highlighted code element with the class
`language-` followed by `L` in lower case and the escaped, trimmed content. -/
theorem multiCodeProcessor_single_block (L c : Str) (hL : L ≠ [])
    (hw : ∀ x ∈ L, isWord x = true) (hc : ¬ "```".toList <:+: c) :
    (createMultiCodeProcessor transformCodeBlock
        ("```".toList ++ L ++ "\n".toList ++ c ++ "\n```".toList)).totalBlocks = 1
    ∧ (createMultiCodeProcessor transformCodeBlock
        ("```".toList ++ L ++ "\n".toList ++ c ++ "\n```".toList)).processedText
      = "<pre class=\"code-highlight\"><code class=\"code-block language-".toList
          ++ toLowerCase L ++ "\">".toList ++ (trim c).flatMap entity
          ++ "</code></pre>".toList := by
  have hne : L.isEmpty = false := by
    cases L with
    | nil => exact absurd rfl hL
    | cons x L1 => rfl
  simp only [createMultiCodeProcessor, codeBlockRegex_scan_block L c hL hw hc, hits, render,
    transformMatch, Match.cap, List.lookup, transformCodeBlock, escapeCode_eq]
  refine ⟨rfl, ?_⟩
  simp [hne, trim_append_space c '\n' (by decide)]

theorem multiCodeProcessor_single_block_witness :
    "js".toList ≠ [] ∧ (∀ x ∈ "js".toList, isWord x = true)
    ∧ ¬ "```".toList <:+: "const x = 1;".toList
    ∧ (createMultiCodeProcessor transformCodeBlock
        ("```".toList ++ "js".toList ++ "\n".toList ++ "const x = 1;".toList
          ++ "\n```".toList)).totalBlocks = 1
    ∧ (createMultiCodeProcessor transformCodeBlock
        ("```".toList ++ "js".toList ++ "\n".toList ++ "const x = 1;".toList
          ++ "\n```".toList)).processedText
      = "<pre class=\"code-highlight\"><code class=\"code-block language-".toList
          ++ toLowerCase "js".toList ++ "\">".toList
          ++ (trim "const x = 1;".toList).flatMap entity ++ "</code></pre>".toList :=
  ⟨by decide, by decide, by decide,
   multiCodeProcessor_single_block "js".toList "const x = 1;".toList (by decide) (by decide)
     (by decide)⟩


/-- The example of the specification for a fenced block. -/
theorem multiCodeProcessor_example :
    (createMultiCodeProcessor transformCodeBlock "```js\nconst x = 1;\n```".toList).processedText
      = "<pre class=\"code-highlight\"><code class=\"code-block language-js\">const x = 1;</code></pre>".toList
    ∧ (createMultiCodeProcessor transformCodeBlock
        "```js\nconst x = 1;\n```".toList).totalBlocks = 1 := by
  decide
/-! ## format.js: the toggle -/

theorem startsWith_iff (s pre : Str) : startsWith s pre = true ↔ pre <+: s := by
  simp [startsWith]

theorem endsWith_iff (s suf : Str) : endsWith s suf = true ↔ suf <:+ s := by
  simp [endsWith, List.reverse_prefix]

theorem sliceFromTo_wrapped (a m b : Str) :
    sliceFromTo (a ++ m ++ b) a.length b.length = m := by
  have h1 : (a ++ m ++ b).length - b.length = (a ++ m).length := by simp; omega
  rw [sliceFromTo, h1, List.take_left, List.drop_left]

/-- A string with the prefix `w`, the suffix `w` and more than twice the
length of `w` is `w`, a non-empty middle, and `w`. -/
theorem wrapped_of_prefix_suffix (w s : Str) (hp : w <+: s) (hs : w <:+ s)
    (hl : 2 * w.length < s.length) : ∃ m, m ≠ [] ∧ s = w ++ m ++ w := by
  obtain ⟨t, rfl⟩ := hp
  have hwt : w.length ≤ t.length := by
    simp at hl; omega
  have h1 : w <:+ t :=
    List.suffix_of_suffix_length_le hs (List.suffix_append w t) hwt
  obtain ⟨m, rfl⟩ := h1
  refine ⟨m, ?_, by simp⟩
  rintro rfl
  simp at hl
  omega

theorem formatTextCallback_bold_wrapped (m : Str) (hm : m ≠ []) :
    formatTextCallback ("**".toList ++ m ++ "**".toList) .bold
      = { text := m, wasFormatted := true, formatType := .bold } := by
  have hl : 0 < m.length := List.length_pos.mpr hm
  have h1 : startsWith ("**".toList ++ m ++ "**".toList) "**".toList = true := by
    rw [startsWith_iff]; exact ⟨m ++ "**".toList, by simp⟩
  have h2 : endsWith ("**".toList ++ m ++ "**".toList) "**".toList = true := by
    rw [endsWith_iff]; exact ⟨"**".toList ++ m, by simp⟩
  have h3 : ("**".toList ++ m ++ "**".toList).length > 4 := by
    simp; omega
  have h4 := sliceFromTo_wrapped "**".toList m "**".toList
  simp only [formatTextCallback, h1, h2, h3, decide_True, Bool.and_self, if_true]
  rw [show (2 : Nat) = "**".toList.length from rfl, h4]

theorem formatTextCallback_italic_wrapped (m : Str) (hm : m ≠ [])
    (hs : ¬ "*".toList <+: m) :
    formatTextCallback ("*".toList ++ m ++ "*".toList) .italic
      = { text := m, wasFormatted := true, formatType := .italic } := by
  have hl : 0 < m.length := List.length_pos.mpr hm
  have h1 : startsWith ("*".toList ++ m ++ "*".toList) "*".toList = true := by
    rw [startsWith_iff]; exact ⟨m ++ "*".toList, by simp⟩
  have h2 : endsWith ("*".toList ++ m ++ "*".toList) "*".toList = true := by
    rw [endsWith_iff]; exact ⟨"*".toList ++ m, by simp⟩
  have h3 : ("*".toList ++ m ++ "*".toList).length > 2 := by
    simp; omega
  have h5 : startsWith ("*".toList ++ m ++ "*".toList) "**".toList = false := by
    cases m with
    | nil => exact absurd rfl hm
    | cons c cs =>
      have hc : c ≠ '*' := by
        rintro rfl
        exact hs ⟨cs, rfl⟩
      simpa [startsWith, List.isPrefixOf] using fun h => hc h.symm
  have h4 := sliceFromTo_wrapped "*".toList m "*".toList
  simp only [formatTextCallback, h1, h2, h3, h5, decide_True, Bool.and_self, if_true,
    Bool.not_false]
  rw [show (1 : Nat) = "*".toList.length from rfl, h4]

/-- The bold branch, with the test of the code read on lists. -/
theorem formatTextCallback_bold (s : Str) :
    formatTextCallback s .bold
      = if "**".toList <+: s ∧ "**".toList <:+ s ∧ 4 < s.length then
          { text := sliceFromTo s 2 2, wasFormatted := true, formatType := .bold }
        else
          { text := "**".toList ++ s ++ "**".toList, wasFormatted := false,
            formatType := .bold } := by
  simp only [formatTextCallback, ← startsWith_iff, ← endsWith_iff, Bool.and_eq_true,
    decide_eq_true_eq, gt_iff_lt, and_assoc]

/-- The italic branch, with the test of the code read on lists. -/
theorem formatTextCallback_italic (s : Str) :
    formatTextCallback s .italic
      = if "*".toList <+: s ∧ "*".toList <:+ s ∧ ¬ "**".toList <+: s ∧ 2 < s.length then
          { text := sliceFromTo s 1 1, wasFormatted := true, formatType := .italic }
        else
          { text := "*".toList ++ s ++ "*".toList, wasFormatted := false,
            formatType := .italic } := by
  simp only [formatTextCallback, ← startsWith_iff, ← endsWith_iff, Bool.and_eq_true,
    decide_eq_true_eq, gt_iff_lt, and_assoc, Bool.not_eq_true', Bool.not_eq_true]

/-- C7: the toggle looks at the selected text only. Bold: a selection that
starts and ends with two stars and is longer than 4 loses exactly the two
stars at each end and is reported as formatted; any other selection gets two
stars at each end and is reported as not formatted. Italic: the same with one
star, length above 2 and a start that is not two stars. -/
theorem formatTextCallback_toggle (s : Str) :
    (if "**".toList <+: s ∧ "**".toList <:+ s ∧ 4 < s.length then
        (formatTextCallback s .bold).wasFormatted = true
          ∧ s = "**".toList ++ (formatTextCallback s .bold).text ++ "**".toList
      else
        (formatTextCallback s .bold).wasFormatted = false
          ∧ (formatTextCallback s .bold).text = "**".toList ++ s ++ "**".toList)
    ∧ (if "*".toList <+: s ∧ "*".toList <:+ s ∧ ¬ "**".toList <+: s ∧ 2 < s.length then
        (formatTextCallback s .italic).wasFormatted = true
          ∧ s = "*".toList ++ (formatTextCallback s .italic).text ++ "*".toList
      else
        (formatTextCallback s .italic).wasFormatted = false
          ∧ (formatTextCallback s .italic).text = "*".toList ++ s ++ "*".toList)
    ∧ (formatTextCallback "**word**".toList .bold).text = "word".toList
    ∧ (formatTextCallback "word".toList .bold).text = "**word**".toList := by
  refine ⟨?_, ?_, by decide, by decide⟩
  · split_ifs with h
    · obtain ⟨m, hm, rfl⟩ := wrapped_of_prefix_suffix "**".toList s h.1 h.2.1 h.2.2
      rw [formatTextCallback_bold_wrapped m hm]
      exact ⟨rfl, rfl⟩
    · rw [formatTextCallback_bold, if_neg h]
      exact ⟨rfl, rfl⟩
  · split_ifs with h
    · obtain ⟨m, hm, rfl⟩ := wrapped_of_prefix_suffix "*".toList s h.1 h.2.1 h.2.2.2
      have hs : ¬ "*".toList <+: m := by
        rintro ⟨t, rfl⟩
        exact h.2.2.1 ⟨t ++ "*".toList, by simp⟩
      rw [formatTextCallback_italic_wrapped m hm hs]
      exact ⟨rfl, rfl⟩
    · rw [formatTextCallback_italic, if_neg h]
      exact ⟨rfl, rfl⟩

/-- C8 as stated fails: on the selection `*a` the italic toggle adds markers,
and the second toggle adds markers again instead of removing them. -/
theorem italic_round_trip_counterexample :
    "*a".toList ≠ []
    ∧ (formatTextCallback "*a".toList .italic).wasFormatted = false
    ∧ (formatTextCallback (formatTextCallback "*a".toList .italic).text .italic).text
        = "***a**".toList
    ∧ (formatTextCallback (formatTextCallback "*a".toList .italic).text .italic).text
        ≠ "*a".toList := by
  decide

/-- C8, amended: for a non-empty selection on which the italic toggle adds
markers, toggling twice gives the selection back exactly when the selection
does not start with a star. -/
theorem italic_round_trip (s : Str) (hs : s ≠ [])
    (hadd : (formatTextCallback s .italic).wasFormatted = false) :
    (formatTextCallback (formatTextCallback s .italic).text .italic).text = s
      ↔ ¬ "*".toList <+: s := by
  have h1 : (formatTextCallback s .italic).text = "*".toList ++ s ++ "*".toList := by
    rw [formatTextCallback_italic] at hadd ⊢
    split_ifs at hadd ⊢ with h
    rfl
  rw [h1]
  constructor
  · intro h2 hstar
    obtain ⟨t, rfl⟩ := hstar
    have h3 : "**".toList <+: "*".toList ++ ("*".toList ++ t) ++ "*".toList :=
      ⟨t ++ "*".toList, by simp⟩
    rw [formatTextCallback_italic, if_neg (fun h => h.2.2.1 h3)] at h2
    have := congrArg List.length h2
    simp at this
    omega
  · intro hstar
    rw [formatTextCallback_italic_wrapped s hs hstar]

theorem italic_round_trip_witness :
    "word".toList ≠ []
    ∧ (formatTextCallback "word".toList .italic).wasFormatted = false
    ∧ ((formatTextCallback (formatTextCallback "word".toList .italic).text .italic).text
        = "word".toList ↔ ¬ "*".toList <+: "word".toList) :=
  ⟨by decide, by decide, italic_round_trip "word".toList (by decide) (by decide)⟩

/-- C9: for a non-empty selection on which the bold toggle adds markers,
toggling twice gives the selection back. -/
theorem bold_round_trip (s : Str) (hs : s ≠ [])
    (hadd : (formatTextCallback s .bold).wasFormatted = false) :
    (formatTextCallback (formatTextCallback s .bold).text .bold).text = s := by
  have h1 : (formatTextCallback s .bold).text = "**".toList ++ s ++ "**".toList := by
    rw [formatTextCallback_bold] at hadd ⊢
    split_ifs at hadd ⊢ with h
    rfl
  rw [h1, formatTextCallback_bold_wrapped s hs]

theorem bold_round_trip_witness :
    "word".toList ≠ []
    ∧ (formatTextCallback "word".toList .bold).wasFormatted = false
    ∧ (formatTextCallback (formatTextCallback "word".toList .bold).text .bold).text
        = "word".toList :=
  ⟨by decide, by decide, bold_round_trip "word".toList (by decide) (by decide)⟩

theorem substring_self (s : Str) (a : Nat) : substring s a a = [] := by
  simp [substring]

/-- C10: with an empty selection the formatter returns no result, does not
call the format callback and leaves the textarea as it is, whatever the
callback and the format; the toggler then reports no success and keeps its
current format. -/
theorem applyFormatting_empty_selection
    (formatCallback : Str → FormatType → FormatResult) (textarea : Textarea)
    (formatType : FormatType)
    (hempty : textarea.selectionStart = textarea.selectionEnd) :
    applyFormatting formatCallback textarea formatType
        = { textarea := textarea, result := none, alerted := true, callbackCalls := [] }
    ∧ createFormatToggler { currentFormat := formatType, textarea := textarea }
        = ({ currentFormat := formatType, textarea := textarea },
           { success := false, action := none, format := none, nextFormat := none }) := by
  have h : ∀ cb, applyFormatting cb textarea formatType
      = { textarea := textarea, result := none, alerted := true, callbackCalls := [] } := by
    intro cb
    simp [applyFormatting, hempty, substring_self]
  refine ⟨h _, ?_⟩
  simp only [createFormatToggler, h]

theorem applyFormatting_empty_selection_witness :
    applyFormatting formatTextCallback
        { value := "some text".toList, selectionStart := 4, selectionEnd := 4 } FormatType.bold
        = { textarea := { value := "some text".toList, selectionStart := 4, selectionEnd := 4 },
            result := none, alerted := true, callbackCalls := [] }
    ∧ createFormatToggler
        { currentFormat := FormatType.bold,
          textarea := { value := "some text".toList, selectionStart := 4, selectionEnd := 4 } }
        = ({ currentFormat := FormatType.bold,
             textarea := { value := "some text".toList, selectionStart := 4, selectionEnd := 4 } },
           { success := false, action := none, format := none, nextFormat := none }) :=
  applyFormatting_empty_selection formatTextCallback
    { value := "some text".toList, selectionStart := 4, selectionEnd := 4 } FormatType.bold rfl

/-! ## lists.js: the grouping of a numbered run -/

/-- C5, the code at the input `1. a`, `2. b`, `3. c`: the items, already
wrapped in an ordered container and stripped of their number attribute by the
first replacement of `listItemGrouper`, are matched again by the second
replacement and wrapped in an unordered container too. -/
theorem processListsAutomatically_ordered_run :
    processListsWithCallback listLineProcessor "1. a\n2. b\n3. c".toList
      = "<li data-number=\"1\">a</li>\n<li data-number=\"2\">b</li>\n<li data-number=\"3\">c</li>".toList
    ∧ processListsAutomatically "1. a\n2. b\n3. c".toList
      = "<ol><ul><li >a</li>\n<li >b</li>\n<li >c</li></ul></ol>".toList
    ∧ includes (processListsAutomatically "1. a\n2. b\n3. c".toList) "<ul>".toList = true := by
  decide

/-! ## The matcher: quantifiers that cannot start -/

theorem starRun_of_nil (g : Bool) (f : MState → List MState) (n : Nat) (s : MState)
    (h : f s = []) : starRun g f n s = [s] := by
  cases n with
  | zero => rfl
  | succ n => cases g <;> simp [starRun, h]

@[simp] theorem run_star_char_nil (g : Bool) (q : Char → Bool) (p : Option Char)
    (caps : List (Nat × Str)) :
    (Regex.star g (.char q)).run { prev := p, rest := [], caps := caps }
      = [{ prev := p, rest := [], caps := caps }] := rfl

theorem run_star_char_of_not (g : Bool) (q : Char → Bool) (p : Option Char) (x : Char)
    (t : Str) (caps : List (Nat × Str)) (h : q x = false) :
    (Regex.star g (.char q)).run { prev := p, rest := x :: t, caps := caps }
      = [{ prev := p, rest := x :: t, caps := caps }] := by
  rw [run_star]
  exact starRun_of_nil _ _ _ _ (by simp [h])

theorem run_bol (m : Bool) (s : MState) :
    (Regex.bol m).run s = if lineStart m s.prev then [s] else [] := by
  obtain ⟨p, rest, caps⟩ := s
  cases p <;> simp [Regex.run, lineStart]

theorem run_seq_bol (m : Bool) (r : Regex) (s : MState) :
    (Regex.seq (.bol m) r).run s = if lineStart m s.prev then r.run s else [] := by
  rw [run_seq, run_bol]
  split <;> simp

theorem run_seq_bol_nil (m : Bool) (r : Regex) (s : MState) (h : r.run s = []) :
    (Regex.seq (.bol m) r).run s = [] := by
  rw [run_seq_bol, h]
  simp

theorem run_seq_nil_left (a b : Regex) (s : MState) (h : a.run s = []) :
    (Regex.seq a b).run s = [] := by
  simp [h]

theorem run_seq_of_singleton (a b : Regex) (s s1 : MState) (h : a.run s = [s1]) :
    (Regex.seq a b).run s = b.run s1 := by
  simp [h]

/-! ## app.js: where the patterns cannot match -/

theorem anchored_heading (j : Nat) : Anchored (headingRegex j) := anchored_seq_bol _
theorem anchored_ulItem : Anchored ulItemRegex := anchored_seq_bol _
theorem anchored_olItem : Anchored olItemRegex := anchored_seq_bol _
theorem anchored_paragraph : Anchored paragraphRegex := anchored_seq_bol _

theorem heading_run_nil (j : Nat) (p : Option Char) (caps : List (Nat × Str)) :
    (headingRegex j).run { prev := p, rest := [], caps := caps } = [] := by
  apply run_seq_bol_nil
  cases j with
  | zero => simp [Regex.cat, Regex.str]
  | succ j => simp [Regex.cat, Regex.str, List.replicate]

theorem heading_run_of_ne (j : Nat) (p : Option Char) (x : Char) (t : Str)
    (caps : List (Nat × Str)) (hx : x ≠ '#') (hj : 1 ≤ j) :
    (headingRegex j).run { prev := p, rest := x :: t, caps := caps } = [] := by
  obtain ⟨j, rfl⟩ := Nat.exists_eq_succ_of_ne_zero (by omega : j ≠ 0)
  apply run_seq_bol_nil
  simp [Regex.cat, List.replicate, Regex.str, hx]

theorem ulItem_run_nil (p : Option Char) (caps : List (Nat × Str)) :
    ulItemRegex.run { prev := p, rest := [], caps := caps } = [] := by
  apply run_seq_bol_nil
  simp [Regex.cat]

theorem ulItem_run_of_ne (p : Option Char) (x : Char) (t : Str) (caps : List (Nat × Str))
    (hs : isSpace x = false) (hx : x ≠ '-') :
    ulItemRegex.run { prev := p, rest := x :: t, caps := caps } = [] := by
  apply run_seq_bol_nil
  simp [Regex.cat, run_star_char_of_not _ _ _ _ _ _ hs, hx]

theorem olItem_run_nil (p : Option Char) (caps : List (Nat × Str)) :
    olItemRegex.run { prev := p, rest := [], caps := caps } = [] := by
  apply run_seq_bol_nil
  simp [Regex.cat]

theorem olItem_run_of_ne (p : Option Char) (x : Char) (t : Str) (caps : List (Nat × Str))
    (hs : isSpace x = false) (hx : isDigit x = false) :
    olItemRegex.run { prev := p, rest := x :: t, caps := caps } = [] := by
  apply run_seq_bol_nil
  simp [Regex.cat, run_star_char_of_not _ _ _ _ _ _ hs, hx]

theorem paragraph_run_nil (p : Option Char) (caps : List (Nat × Str)) :
    paragraphRegex.run { prev := p, rest := [], caps := caps } = [] := by
  apply run_seq_bol_nil
  simp [Regex.cat, Regex.run, Regex.str, Regex.lit]

/-- The guard of the paragraph pattern: a line that starts with `<h`, `<u`,
`<o` or `<li` is not a paragraph. -/
theorem paragraph_run_of_tag (p : Option Char) (y : Char) (t : Str) (caps : List (Nat × Str))
    (hy : y = 'h' ∨ y = 'u' ∨ y = 'o') :
    paragraphRegex.run { prev := p, rest := '<' :: y :: t, caps := caps } = [] := by
  apply run_seq_bol_nil
  rcases hy with rfl | rfl | rfl <;> simp [Regex.cat, Regex.run, Regex.str, Regex.lit]

theorem paragraph_run_of_li (p : Option Char) (t : Str) (caps : List (Nat × Str)) :
    paragraphRegex.run { prev := p, rest := '<' :: 'l' :: 'i' :: t, caps := caps } = [] := by
  apply run_seq_bol_nil
  simp [Regex.cat, Regex.run, Regex.str, Regex.lit]


theorem ulWrap_run_nil (p : Option Char) (caps : List (Nat × Str)) :
    ulWrapRegex.run { prev := p, rest := [], caps := caps } = [] := by
  simp [ulWrapRegex, run_group, Regex.cat, Regex.str]

theorem ulWrap_run_of_ne (p : Option Char) (x : Char) (t : Str) (caps : List (Nat × Str))
    (hx : x ≠ '<') : ulWrapRegex.run { prev := p, rest := x :: t, caps := caps } = [] := by
  simp [ulWrapRegex, run_group, Regex.cat, Regex.str, hx]

theorem ulWrap_run_of_ne2 (p : Option Char) (x y : Char) (t : Str) (caps : List (Nat × Str))
    (hy : y ≠ 'l') : ulWrapRegex.run { prev := p, rest := x :: y :: t, caps := caps } = [] := by
  by_cases hx : x = '<' <;> simp [ulWrapRegex, run_group, Regex.cat, Regex.str, hx, hy]

theorem olWrap_run_nil (p : Option Char) (caps : List (Nat × Str)) :
    olWrapRegex.run { prev := p, rest := [], caps := caps } = [] := by
  simp [olWrapRegex, olItemRunRegex, run_group, Regex.cat, Regex.str]

theorem olWrap_run_of_ne (p : Option Char) (x : Char) (t : Str) (caps : List (Nat × Str))
    (hx : x ≠ '<') : olWrapRegex.run { prev := p, rest := x :: t, caps := caps } = [] := by
  simp [olWrapRegex, olItemRunRegex, run_group, Regex.cat, Regex.str, hx]

theorem olWrap_run_of_ne2 (p : Option Char) (x y : Char) (t : Str) (caps : List (Nat × Str))
    (hy : y ≠ 'l') : olWrapRegex.run { prev := p, rest := x :: y :: t, caps := caps } = [] := by
  by_cases hx : x = '<' <;>
    simp [olWrapRegex, olItemRunRegex, run_group, Regex.cat, Regex.str, hx, hy]

theorem ulJoin_run_nil (p : Option Char) (caps : List (Nat × Str)) :
    ulJoinRegex.run { prev := p, rest := [], caps := caps } = [] := by
  simp [ulJoinRegex, Regex.cat, Regex.str]

theorem ulJoin_run_of_ne (p : Option Char) (x : Char) (t : Str) (caps : List (Nat × Str))
    (hx : x ≠ '<') : ulJoinRegex.run { prev := p, rest := x :: t, caps := caps } = [] := by
  simp [ulJoinRegex, Regex.cat, Regex.str, hx]

theorem ulJoin_run_of_ne2 (p : Option Char) (x y : Char) (t : Str) (caps : List (Nat × Str))
    (hy : y ≠ '/') : ulJoinRegex.run { prev := p, rest := x :: y :: t, caps := caps } = [] := by
  by_cases hx : x = '<' <;> simp [ulJoinRegex, Regex.cat, Regex.str, hx, hy]

theorem ulJoin_run_of_ne3 (p : Option Char) (x y z : Char) (t : Str) (caps : List (Nat × Str))
    (hz : z ≠ 'u') :
    ulJoinRegex.run { prev := p, rest := x :: y :: z :: t, caps := caps } = [] := by
  by_cases hx : x = '<' <;> by_cases hy : y = '/' <;>
    simp [ulJoinRegex, Regex.cat, Regex.str, hx, hy, hz]

theorem olJoin_run_nil (p : Option Char) (caps : List (Nat × Str)) :
    olJoinRegex.run { prev := p, rest := [], caps := caps } = [] := by
  simp [olJoinRegex, Regex.cat, Regex.str]

theorem olJoin_run_of_ne (p : Option Char) (x : Char) (t : Str) (caps : List (Nat × Str))
    (hx : x ≠ '<') : olJoinRegex.run { prev := p, rest := x :: t, caps := caps } = [] := by
  simp [olJoinRegex, Regex.cat, Regex.str, hx]

theorem olJoin_run_of_ne2 (p : Option Char) (x y : Char) (t : Str) (caps : List (Nat × Str))
    (hy : y ≠ '/') : olJoinRegex.run { prev := p, rest := x :: y :: t, caps := caps } = [] := by
  by_cases hx : x = '<' <;> simp [olJoinRegex, Regex.cat, Regex.str, hx, hy]

theorem olJoin_run_of_ne3 (p : Option Char) (x y z : Char) (t : Str) (caps : List (Nat × Str))
    (hz : z ≠ 'o') :
    olJoinRegex.run { prev := p, rest := x :: y :: z :: t, caps := caps } = [] := by
  by_cases hx : x = '<' <;> by_cases hy : y = '/' <;>
    simp [olJoinRegex, Regex.cat, Regex.str, hx, hy, hz]

theorem emptyParagraph_run_nil (p : Option Char) (caps : List (Nat × Str)) :
    emptyParagraphRegex.run { prev := p, rest := [], caps := caps } = [] := by
  simp [emptyParagraphRegex, Regex.cat, Regex.str]

theorem emptyParagraph_run_of_ne (p : Option Char) (x : Char) (t : Str)
    (caps : List (Nat × Str)) (hx : x ≠ '<') :
    emptyParagraphRegex.run { prev := p, rest := x :: t, caps := caps } = [] := by
  simp [emptyParagraphRegex, Regex.cat, Regex.str, hx]

theorem emptyParagraph_run_of_ne2 (p : Option Char) (x y : Char) (t : Str)
    (caps : List (Nat × Str)) (hy : y ≠ 'p') :
    emptyParagraphRegex.run { prev := p, rest := x :: y :: t, caps := caps } = [] := by
  by_cases hx : x = '<' <;> simp [emptyParagraphRegex, Regex.cat, Regex.str, hx, hy]

theorem blankLines_run_nil (p : Option Char) (caps : List (Nat × Str)) :
    blankLinesRegex.run { prev := p, rest := [], caps := caps } = [] := by
  simp [blankLinesRegex, Regex.cat]

theorem blankLines_run_of_ne (p : Option Char) (x : Char) (t : Str) (caps : List (Nat × Str))
    (hx : x ≠ '\n') : blankLinesRegex.run { prev := p, rest := x :: t, caps := caps } = [] := by
  simp [blankLinesRegex, Regex.cat, hx]

theorem blankLines_run_of_ne2 (p : Option Char) (x y : Char) (t : Str)
    (caps : List (Nat × Str)) (hy : isSpace y = false) :
    blankLinesRegex.run { prev := p, rest := x :: y :: t, caps := caps } = [] := by
  have hy2 : y ≠ '\n' := by
    rintro rfl
    revert hy; decide
  by_cases hx : x = '\n' <;>
    simp [blankLinesRegex, Regex.cat, hx, run_star_char_of_not _ _ _ _ _ _ hy, hy2]

/-! ## app.js: single lines -/

/-- An anchored pattern that does not match at the start of a one-line text
leaves the text as it is. -/
theorem replaceAll_line_quiet (r : Regex) (hr : Anchored r) (f : Match → Str) (l : Str)
    (hl : ∀ x ∈ l, isLineTerminator x = false)
    (h0 : r.run { prev := none, rest := l, caps := [] } = []) : replaceAll r f l = l := by
  apply replaceAll_quiet
  · exact quiet_line r hr none l [] hl (by simpa using h0)
  · by_cases hne : l = []
    · subst hne; exact h0
    · obtain ⟨c, hc, h⟩ := prevAfter_some_of_ne_nil none l hne
      rw [h]
      exact hr c _ _ (hl c hc)

/-- An anchored pattern whose first match at the start of a one-line text is
the whole line replaces the line. -/
theorem replaceAll_line_hit (r : Regex) (hr : Anchored r) (f : Match → Str) (l : Str)
    (hne : l ≠ []) (hl : ∀ x ∈ l, isLineTerminator x = false) (s : MState)
    (h : Heads r { prev := none, rest := l, caps := [] } s) (hs : s.rest = []) :
    replaceAll r f l = f { text := l, caps := s.caps } := by
  have hexec := exec_of_heads r none l s h
  simp only [hs, List.length_nil, Nat.sub_zero, List.take_length] at hexec
  obtain ⟨c, hc, hp⟩ := prevAfter_some_of_ne_nil none l hne
  have hend : r.scan 0 (prevAfter none l) [] = [] := by
    rw [hp]
    exact scan_nil_of_run_nil r _ (hr c _ _ (hl c hc))
  simp [replaceAll, scan_hit_all r none l _ hexec rfl hne, hend, render]

/-- The end of the line patterns: the captured `(.+)` reads to the end of the
line, and `$` holds there. -/
theorem heads_line_tail (p : Option Char) (c suf : Str) (caps : List (Nat × Str))
    (hne : c ≠ []) (hc : ∀ x ∈ c, isLineTerminator x = false)
    (hsuf : ∀ y t, suf = y :: t → isLineTerminator y = true) :
    Heads (.seq (.group 1 (Regex.plus (.char isDot))) (.eol true))
      { prev := p, rest := c ++ suf, caps := caps }
      { prev := prevAfter p c, rest := suf, caps := (1, c) :: caps } := by
  have h1 := heads_plus_char isDot p c suf caps hne (fun x hx => by simp [isDot, hc x hx])
    (fun y t h => by simp [isDot, hsuf y t h])
  have h2 := Heads.group 1 h1
  simp only [take_sub_length] at h2
  refine Heads.seq h2 ?_
  cases suf with
  | nil => exact heads_eol_nil _ _ _
  | cons y t => exact heads_eol_lt y (hsuf y t rfl) _ _ _

theorem lineStart_of (p : Option Char)
    (hp : ∀ c, p = some c → isLineTerminator c = true) : lineStart true p = true := by
  cases p with
  | none => rfl
  | some c => simpa [lineStart] using hp c rfl

theorem heads_bol (p : Option Char) (hp : ∀ c, p = some c → isLineTerminator c = true)
    (rest : Str) (caps : List (Nat × Str)) :
    Heads (.bol true) { prev := p, rest := rest, caps := caps }
      { prev := p, rest := rest, caps := caps } :=
  ⟨[], by rw [run_bol]; simp [lineStart_of p hp]⟩

/-- A heading line: the heading pattern of its level matches the whole line
and captures the content. -/
theorem heads_heading (k : Nat) (p : Option Char)
    (hp : ∀ c, p = some c → isLineTerminator c = true) (ws c suf : Str)
    (hws : ws ≠ []) (hsp : ∀ x ∈ ws, isSpace x = true)
    (hc : c ≠ []) (hc0 : ∀ x t, c = x :: t → isSpace x = false)
    (hcl : ∀ x ∈ c, isLineTerminator x = false)
    (hsuf : ∀ y t, suf = y :: t → isLineTerminator y = true) :
    Heads (headingRegex k)
      { prev := p, rest := List.replicate k '#' ++ (ws ++ (c ++ suf)), caps := [] }
      { prev := prevAfter (prevAfter (prevAfter p (List.replicate k '#')) ws) c, rest := suf,
        caps := [(1, c)] } := by
  obtain ⟨c0, c1, rfl⟩ := List.exists_cons_of_ne_nil hc
  refine Heads.seq (heads_bol p hp _ _) (Heads.seq (heads_str _ _ _ _) (Heads.seq
    (heads_plus_char isSpace _ ws _ _ hws hsp ?_) (heads_line_tail _ _ _ _ hc hcl hsuf)))
  intro y t h
  simp only [List.cons_append] at h
  injection h with h1 _
  subst h1
  exact hc0 _ _ rfl


theorem run_str_replicate_gt (x : Char) (j k : Nat) (y : Char) (t : Str) (hy : y ≠ x)
    (hjk : k < j) (p : Option Char) (caps : List (Nat × Str)) :
    (Regex.str (List.replicate j x)).run
      { prev := p, rest := List.replicate k x ++ y :: t, caps := caps } = [] := by
  induction k generalizing j p with
  | zero =>
    obtain ⟨j, rfl⟩ := Nat.exists_eq_succ_of_ne_zero (by omega : j ≠ 0)
    simp [List.replicate, Regex.str, hy]
  | succ k ih =>
    obtain ⟨j, rfl⟩ := Nat.exists_eq_succ_of_ne_zero (by omega : j ≠ 0)
    simp [List.replicate, Regex.str, ih j (by omega)]

theorem run_str_replicate_lt (x : Char) (j k : Nat) (t : Str) (hjk : j < k)
    (p : Option Char) (caps : List (Nat × Str)) :
    ∃ p1, (Regex.str (List.replicate j x)).run
      { prev := p, rest := List.replicate k x ++ t, caps := caps }
      = [{ prev := p1, rest := x :: (List.replicate (k - j - 1) x ++ t), caps := caps }] := by
  induction j generalizing k p with
  | zero =>
    obtain ⟨k, rfl⟩ := Nat.exists_eq_succ_of_ne_zero (by omega : k ≠ 0)
    exact ⟨p, by simp [List.replicate, Regex.str]⟩
  | succ j ih =>
    obtain ⟨k, rfl⟩ := Nat.exists_eq_succ_of_ne_zero (by omega : k ≠ 0)
    obtain ⟨p1, h⟩ := ih k (by omega) (some x)
    refine ⟨p1, ?_⟩
    have hk : k + 1 - (j + 1) - 1 = k - j - 1 := by omega
    simp [List.replicate, Regex.str, h, hk]

/-- A line of `k` hashes, white space and content is not matched by the
heading pattern of another level. -/
theorem heading_run_other (j k : Nat) (hjk : j ≠ k) (p : Option Char)
    (w : Char) (t : Str) (hw : isSpace w = true) :
    (headingRegex j).run { prev := p, rest := List.replicate k '#' ++ w :: t, caps := [] }
      = [] := by
  have hw2 : w ≠ '#' := by
    rintro rfl
    revert hw; decide
  apply run_seq_bol_nil
  rcases Nat.lt_or_gt_of_ne hjk with h | h
  · obtain ⟨p1, h1⟩ := run_str_replicate_lt '#' j k (w :: t) h p []
    simp only [Regex.cat, run_seq, h1, List.flatMap_cons, List.flatMap_nil, List.append_nil,
      run_plus, run_char_cons]
    simp [show isSpace '#' = false by decide]
  · simp [Regex.cat, run_str_replicate_gt '#' j k w t hw2 h]


theorem headingText_no_lt (d : Char) (c : Str) (hd : isLineTerminator d = false)
    (hc : ∀ x ∈ c, isLineTerminator x = false) :
    ∀ x ∈ headingText d c, isLineTerminator x = false := by
  intro x hx
  simp only [headingText, List.mem_cons, List.mem_append, List.mem_singleton] at hx
  rcases hx with rfl | rfl | rfl | rfl | hx | rfl | rfl | rfl | rfl | rfl | hx
  all_goals first | exact hd | exact hc x hx | decide | simp at hx

/-- A pattern that needs `<` and then something other than `h` or `/h` finds
nothing in a heading text. -/
theorem quiet_headingText (r : Regex)
    (h1 : ∀ p x t, x ≠ '<' → r.run { prev := p, rest := x :: t, caps := [] } = [])
    (h2 : ∀ p t, r.run { prev := p, rest := '<' :: 'h' :: t, caps := [] } = [])
    (h3 : ∀ p t, r.run { prev := p, rest := '<' :: '/' :: 'h' :: t, caps := [] } = [])
    (d : Char) (hd : d ≠ '<') (c : Str) (hc : ∀ x ∈ c, x ≠ '<') :
    Quiet r none (headingText d c) [] := by
  have hq := quiet_of_head r (fun x => x == '<')
    (fun p x t hx => h1 p x t (by simpa using hx)) (some '>') c (['<', '/', 'h', d, '>'] ++ [])
    (fun x hx => by simpa using hc x hx)
  simp only [headingText, Quiet, quiet_append, List.append_nil]
  refine ⟨h2 _ _, h1 _ _ _ (by decide), h1 _ _ _ hd, h1 _ _ _ (by decide), ?_, h3 _ _,
    h1 _ _ _ (by decide), h1 _ _ _ (by decide), h1 _ _ _ hd, h1 _ _ _ (by decide), trivial⟩
  simpa using hq

theorem replaceAll_headingText (r : Regex) (f : Match → Str)
    (h0 : ∀ p, r.run { prev := p, rest := [], caps := [] } = [])
    (h1 : ∀ p x t, x ≠ '<' → r.run { prev := p, rest := x :: t, caps := [] } = [])
    (h2 : ∀ p t, r.run { prev := p, rest := '<' :: 'h' :: t, caps := [] } = [])
    (h3 : ∀ p t, r.run { prev := p, rest := '<' :: '/' :: 'h' :: t, caps := [] } = [])
    (d : Char) (hd : d ≠ '<') (c : Str) (hc : ∀ x ∈ c, x ≠ '<') :
    replaceAll r f (headingText d c) = headingText d c :=
  replaceAll_quiet r f _ (quiet_headingText r h1 h2 h3 d hd c hc) (h0 _)

theorem replaceFirst_headingText (r : Regex) (f : Match → Str)
    (h0 : ∀ p, r.run { prev := p, rest := [], caps := [] } = [])
    (h1 : ∀ p x t, x ≠ '<' → r.run { prev := p, rest := x :: t, caps := [] } = [])
    (h2 : ∀ p t, r.run { prev := p, rest := '<' :: 'h' :: t, caps := [] } = [])
    (h3 : ∀ p t, r.run { prev := p, rest := '<' :: '/' :: 'h' :: t, caps := [] } = [])
    (d : Char) (hd : d ≠ '<') (c : Str) (hc : ∀ x ∈ c, x ≠ '<') :
    replaceFirst r f (headingText d c) = headingText d c :=
  replaceFirst_quiet r f _ (quiet_headingText r h1 h2 h3 d hd c hc) (h0 _)

/-- The passes after the heading passes leave a heading text as it is. -/
theorem later_passes_headingText (d : Char) (hd : d ≠ '<') (hdl : isLineTerminator d = false)
    (c : Str) (hc : ∀ x ∈ c, x ≠ '<') (hcl : ∀ x ∈ c, isLineTerminator x = false) :
    convertParagraphs (convertOrdered (convertUnordered (headingText d c)))
      = headingText d c := by
  have hlt := headingText_no_lt d c hdl hcl
  have hul : convertUnordered (headingText d c) = headingText d c := by
    unfold convertUnordered
    rw [replaceAll_line_quiet ulItemRegex anchored_ulItem _ _ hlt
        (ulItem_run_of_ne _ _ _ _ (by decide) (by decide)),
      replaceFirst_headingText ulWrapRegex _ (fun p => ulWrap_run_nil p _)
        (fun p x t hx => ulWrap_run_of_ne p x t _ hx)
        (fun p t => ulWrap_run_of_ne2 p _ _ t _ (by decide))
        (fun p t => ulWrap_run_of_ne2 p _ _ _ _ (by decide)) d hd c hc,
      replaceAll_headingText ulJoinRegex _ (fun p => ulJoin_run_nil p _)
        (fun p x t hx => ulJoin_run_of_ne p x t _ hx)
        (fun p t => ulJoin_run_of_ne2 p _ _ t _ (by decide))
        (fun p t => ulJoin_run_of_ne3 p _ _ _ t _ (by decide)) d hd c hc]
  have hol : convertOrdered (headingText d c) = headingText d c := by
    unfold convertOrdered wrapOrdered
    rw [replaceAll_line_quiet olItemRegex anchored_olItem _ _ hlt
        (olItem_run_of_ne _ _ _ _ (by decide) (by decide)),
      replaceAll_headingText olWrapRegex _ (fun p => olWrap_run_nil p _)
        (fun p x t hx => olWrap_run_of_ne p x t _ hx)
        (fun p t => olWrap_run_of_ne2 p _ _ t _ (by decide))
        (fun p t => olWrap_run_of_ne2 p _ _ _ _ (by decide)) d hd c hc,
      replaceAll_headingText olJoinRegex _ (fun p => olJoin_run_nil p _)
        (fun p x t hx => olJoin_run_of_ne p x t _ hx)
        (fun p t => olJoin_run_of_ne2 p _ _ t _ (by decide))
        (fun p t => olJoin_run_of_ne3 p _ _ _ t _ (by decide)) d hd c hc]
  have hp : convertParagraphs (headingText d c) = headingText d c := by
    unfold convertParagraphs
    rw [replaceAll_line_quiet paragraphRegex anchored_paragraph _ _ hlt
        (paragraph_run_of_tag _ _ _ _ (Or.inl rfl)),
      replaceAll_headingText emptyParagraphRegex _ (fun p => emptyParagraph_run_nil p _)
        (fun p x t hx => emptyParagraph_run_of_ne p x t _ hx)
        (fun p t => emptyParagraph_run_of_ne2 p _ _ t _ (by decide))
        (fun p t => emptyParagraph_run_of_ne2 p _ _ _ _ (by decide)) d hd c hc]
    apply replaceAll_quiet
    · exact quiet_of_head _ (fun x => x == '\n')
        (fun p x t hx => blankLines_run_of_ne p x t _ (by simpa using hx)) _ _ _
        (fun x hx => by
          have := hlt x hx
          simp only [beq_eq_false_iff_ne, ne_eq]
          rintro rfl
          revert this; decide)
    · exact blankLines_run_nil _ _
  rw [hul, hol, hp]


theorem HeadingLine.no_lt {ws c : Str} (h : HeadingLine ws c) (k : Nat) :
    ∀ x ∈ List.replicate k '#' ++ ws ++ c, isLineTerminator x = false := by
  intro x hx
  simp only [List.mem_append, List.mem_replicate] at hx
  rcases hx with (⟨_, rfl⟩ | hx) | hx
  · decide
  · exact h.ws_line x hx
  · exact h.c_line x hx

theorem HeadingLine.plain {ws c : Str} (h : HeadingLine ws c) (k : Nat) :
    ∀ x ∈ List.replicate k '#' ++ ws ++ c, x ≠ '<' := by
  intro x hx
  simp only [List.mem_append, List.mem_replicate] at hx
  rcases hx with (⟨_, rfl⟩ | hx) | hx
  · decide
  · rintro rfl
    have := h.ws_space _ hx
    revert this; decide
  · exact h.c_plain x hx

/-- The heading pass of another level leaves the line as it is. -/
theorem heading_pass_other {ws c : Str} (h : HeadingLine ws c) (j k : Nat) (hjk : j ≠ k)
    (f : Match → Str) :
    replaceAll (headingRegex j) f (List.replicate k '#' ++ ws ++ c)
      = List.replicate k '#' ++ ws ++ c := by
  obtain ⟨w, ws1, rfl⟩ := List.exists_cons_of_ne_nil h.ws_ne
  apply replaceAll_line_quiet _ (anchored_heading j) _ _ (h.no_lt k)
  have := heading_run_other j k hjk none w (ws1 ++ c) (h.ws_space w (List.mem_cons_self _ _))
  simpa using this

/-- The heading pass of the level of the line turns it into the heading. -/
theorem heading_pass_self {ws c : Str} (h : HeadingLine ws c) (k : Nat) :
    replaceAll (headingRegex k) (headingTag k) (List.replicate k '#' ++ ws ++ c)
      = "<h".toList ++ (Nat.repr k).toList ++ ">".toList ++ c
          ++ "</h".toList ++ (Nat.repr k).toList ++ ">".toList := by
  have hne : List.replicate k '#' ++ ws ++ c ≠ [] := by
    intro h0
    simp at h0
    exact h.c_ne h0.2.2
  have hh := heads_heading k none (by simp) ws c [] h.ws_ne h.ws_space h.c_ne h.c_start
    h.c_line (by simp)
  simp only [List.append_nil, ← List.append_assoc] at hh
  rw [replaceAll_line_hit _ (anchored_heading k) _ _ hne (h.no_lt k) _ hh rfl]
  simp [headingTag, Match.cap, List.lookup]

theorem heading_pass_headingText (j : Nat) (hj : 1 ≤ j) (f : Match → Str) (d : Char)
    (hdl : isLineTerminator d = false) (c : Str) (hcl : ∀ x ∈ c, isLineTerminator x = false) :
    replaceAll (headingRegex j) f (headingText d c) = headingText d c :=
  replaceAll_line_quiet _ (anchored_heading j) _ _ (headingText_no_lt d c hdl hcl)
    (heading_run_of_ne j _ _ _ _ (by decide) hj)


theorem convertHeadings_heading_line {ws c : Str} (h : HeadingLine ws c) (k : Nat)
    (hk1 : 1 ≤ k) (hk6 : k ≤ 6) :
    convertHeadings (List.replicate k '#' ++ ws ++ c)
      = "<h".toList ++ (Nat.repr k).toList ++ ">".toList ++ c
          ++ "</h".toList ++ (Nat.repr k).toList ++ ">".toList := by
  have hB := heading_pass_self h k
  have hC : ∀ j, 1 ≤ j → ∀ f, replaceAll (headingRegex j) f
      ("<h".toList ++ (Nat.repr k).toList ++ ">".toList ++ c
          ++ "</h".toList ++ (Nat.repr k).toList ++ ">".toList)
      = "<h".toList ++ (Nat.repr k).toList ++ ">".toList ++ c
          ++ "</h".toList ++ (Nat.repr k).toList ++ ">".toList := by
    intro j hj f
    have hd : ∃ d, isLineTerminator d = false ∧ (Nat.repr k).toList = [d] := by
      refine ⟨Char.ofNat (48 + k), ?_, ?_⟩ <;> interval_cases k <;> decide
    obtain ⟨d, hdl, hd⟩ := hd
    have := heading_pass_headingText j hj f d hdl c h.c_line
    rw [hd]
    simpa [headingText] using this
  unfold convertHeadings
  interval_cases k
  · rw [heading_pass_other h 6 1 (by decide), heading_pass_other h 5 1 (by decide),
      heading_pass_other h 4 1 (by decide), heading_pass_other h 3 1 (by decide),
      heading_pass_other h 2 1 (by decide), hB]
  · rw [heading_pass_other h 6 2 (by decide), heading_pass_other h 5 2 (by decide),
      heading_pass_other h 4 2 (by decide), heading_pass_other h 3 2 (by decide),
      hB, hC 1 (by decide)]
  · rw [heading_pass_other h 6 3 (by decide), heading_pass_other h 5 3 (by decide),
      heading_pass_other h 4 3 (by decide), hB, hC 2 (by decide), hC 1 (by decide)]
  · rw [heading_pass_other h 6 4 (by decide), heading_pass_other h 5 4 (by decide),
      hB, hC 3 (by decide), hC 2 (by decide), hC 1 (by decide)]
  · rw [heading_pass_other h 6 5 (by decide), hB, hC 4 (by decide), hC 3 (by decide),
      hC 2 (by decide), hC 1 (by decide)]
  · rw [hB, hC 5 (by decide), hC 4 (by decide), hC 3 (by decide), hC 2 (by decide),
      hC 1 (by decide)]


/-- The paragraph pattern on a line that does not start with `<`: the whole
line is matched and captured. -/
theorem heads_paragraph (p : Option Char) (hp : ∀ c, p = some c → isLineTerminator c = true)
    (x : Char) (l suf : Str) (hx : x ≠ '<') (hl : ∀ z ∈ x :: l, isLineTerminator z = false)
    (hsuf : ∀ y t, suf = y :: t → isLineTerminator y = true) :
    Heads paragraphRegex { prev := p, rest := (x :: l) ++ suf, caps := [] }
      { prev := prevAfter p (x :: l), rest := suf, caps := [(1, x :: l)] } := by
  refine Heads.seq (heads_bol p hp _ _) (Heads.seq (heads_notAhead _ _ ?_)
    (heads_line_tail _ _ _ _ (by simp) hl hsuf))
  simp [Regex.str, hx]

/-- The passes after the heading passes on one plain line: the line becomes
one paragraph. -/
theorem later_passes_plain_line (x : Char) (l : Str) (hx : isSpace x = false)
    (hx1 : x ≠ '-') (hx2 : isDigit x = false)
    (hl : ∀ z ∈ x :: l, isLineTerminator z = false) (hp : ∀ z ∈ x :: l, z ≠ '<') :
    convertParagraphs (convertOrdered (convertUnordered (x :: l)))
      = "<p>".toList ++ (x :: l) ++ "</p>".toList := by
  have hq : ∀ (r : Regex),
      (∀ p y t, y ≠ '<' → r.run { prev := p, rest := y :: t, caps := [] } = []) →
      ∀ p suf, Quiet r p (x :: l) suf := fun r hr p suf =>
    quiet_of_head r (fun y => y == '<') (fun p y t hy => hr p y t (by simpa using hy)) p _ suf
      (fun y hy => by simpa using hp y hy)
  have hul : convertUnordered (x :: l) = x :: l := by
    unfold convertUnordered
    rw [replaceAll_line_quiet ulItemRegex anchored_ulItem _ _ hl
        (ulItem_run_of_ne _ _ _ _ hx hx1),
      replaceFirst_quiet ulWrapRegex _ _
        (hq _ (fun p y t hy => ulWrap_run_of_ne p y t _ hy) _ _) (ulWrap_run_nil _ _),
      replaceAll_quiet ulJoinRegex _ _
        (hq _ (fun p y t hy => ulJoin_run_of_ne p y t _ hy) _ _) (ulJoin_run_nil _ _)]
  have hol : convertOrdered (x :: l) = x :: l := by
    unfold convertOrdered wrapOrdered
    rw [replaceAll_line_quiet olItemRegex anchored_olItem _ _ hl
        (olItem_run_of_ne _ _ _ _ hx hx2),
      replaceAll_quiet olWrapRegex _ _
        (hq _ (fun p y t hy => olWrap_run_of_ne p y t _ hy) _ _) (olWrap_run_nil _ _),
      replaceAll_quiet olJoinRegex _ _
        (hq _ (fun p y t hy => olJoin_run_of_ne p y t _ hy) _ _) (olJoin_run_nil _ _)]
  have hxlt : x ≠ '<' := hp x (List.mem_cons_self _ _)
  have hpar : replaceAll paragraphRegex pTag (x :: l)
      = "<p>".toList ++ (x :: l) ++ "</p>".toList := by
    have hh := heads_paragraph none (by simp) x l [] hxlt hl (by simp)
    simp only [List.append_nil] at hh
    rw [replaceAll_line_hit _ anchored_paragraph _ _ (by simp) hl _ hh rfl]
    simp [pTag, Match.cap, List.lookup]
  have hempty : replaceAll emptyParagraphRegex (fun _ => [])
      ("<p>".toList ++ (x :: l) ++ "</p>".toList)
      = "<p>".toList ++ (x :: l) ++ "</p>".toList := by
    apply replaceAll_quiet _ _ _ _ (emptyParagraph_run_nil _ _)
    have h0 : emptyParagraphRegex.run
        { prev := none, rest := '<' :: 'p' :: '>' :: x :: (l ++ "</p>".toList), caps := [] }
        = [] := by
      simp [emptyParagraphRegex, Regex.cat, Regex.str, run_star_char_of_not _ _ _ _ _ _ hx,
        hxlt]
    have h1 := hq emptyParagraphRegex (fun p y t hy => emptyParagraph_run_of_ne p y t _ hy)
      (some '>') ("</p>".toList ++ [])
    have h2 : Quiet emptyParagraphRegex (prevAfter (some '>') (x :: l)) "</p>".toList [] := by
      simp only [String.toList, Quiet]
      exact ⟨emptyParagraph_run_of_ne2 _ _ _ _ _ (by decide),
        emptyParagraph_run_of_ne _ _ _ _ (by decide),
        emptyParagraph_run_of_ne _ _ _ _ (by decide),
        emptyParagraph_run_of_ne _ _ _ _ (by decide), trivial⟩
    have h3 : Quiet emptyParagraphRegex none "<p>".toList ((x :: l) ++ "</p>".toList ++ []) := by
      simp only [String.toList, Quiet]
      exact ⟨by simpa using h0, emptyParagraph_run_of_ne _ _ _ _ (by decide),
        emptyParagraph_run_of_ne _ _ _ _ (by decide), trivial⟩
    rw [List.append_assoc, quiet_append, quiet_append]
    exact ⟨h3, by simpa using h1, by simpa [prevAfter_append] using h2⟩
  have hblank : replaceAll blankLinesRegex (fun _ => ['\n'])
      ("<p>".toList ++ (x :: l) ++ "</p>".toList)
      = "<p>".toList ++ (x :: l) ++ "</p>".toList := by
    apply replaceAll_quiet _ _ _ _ (blankLines_run_nil _ _)
    apply quiet_of_head _ (fun y => y == '\n')
      (fun p y t hy => blankLines_run_of_ne p y t _ (by simpa using hy))
    intro y hy
    simp only [List.mem_append] at hy
    simp only [beq_eq_false_iff_ne, ne_eq]
    rintro rfl
    rcases hy with (hy | hy) | hy
    · revert hy; decide
    · have := hl _ hy
      revert this; decide
    · revert hy; decide
  rw [hul, hol]
  unfold convertParagraphs
  rw [hpar, hempty, hblank]


/-- C3: a single line of `k` hashes, white space and a content `c` (not
empty, not starting with white space, without line terminator and without
`<`) becomes exactly the heading of level `k` when `k` is between 1 and 6, and
the paragraph of the whole line when `k` is 7 or more. -/
theorem markdownToHtml_heading_line (k : Nat) (ws c : Str) (hk : 1 ≤ k) (hws : ws ≠ [])
    (hsp : ∀ x ∈ ws, isSpace x = true ∧ isLineTerminator x = false) (hc : c ≠ [])
    (hc0 : ∀ x ∈ c.head?, isSpace x = false)
    (hcc : ∀ x ∈ c, isLineTerminator x = false ∧ x ≠ '<') :
    markdownToHtml (List.replicate k '#' ++ ws ++ c)
      = if k ≤ 6 then
          "<h".toList ++ (Nat.repr k).toList ++ ">".toList ++ c
            ++ "</h".toList ++ (Nat.repr k).toList ++ ">".toList
        else "<p>".toList ++ (List.replicate k '#' ++ ws ++ c) ++ "</p>".toList := by
  have h : HeadingLine ws c :=
    ⟨hws, fun x hx => (hsp x hx).1, fun x hx => (hsp x hx).2, hc,
      fun x t hxt => hc0 x (by simp [hxt]),
      fun x hx => (hcc x hx).1, fun x hx => (hcc x hx).2⟩
  unfold markdownToHtml
  split_ifs with hk6
  · rw [convertHeadings_heading_line h k hk hk6]
    have hd : ∃ d, isLineTerminator d = false ∧ d ≠ '<' ∧ (Nat.repr k).toList = [d] := by
      refine ⟨Char.ofNat (48 + k), ?_, ?_, ?_⟩ <;> interval_cases k <;> decide
    obtain ⟨d, hdl, hdlt, hd⟩ := hd
    have := later_passes_headingText d hdlt hdl c h.c_plain h.c_line
    rw [hd]
    simpa [headingText] using this
  · have hconv : convertHeadings (List.replicate k '#' ++ ws ++ c)
        = List.replicate k '#' ++ ws ++ c := by
      unfold convertHeadings
      rw [heading_pass_other h 6 k (by omega), heading_pass_other h 5 k (by omega),
        heading_pass_other h 4 k (by omega), heading_pass_other h 3 k (by omega),
        heading_pass_other h 2 k (by omega), heading_pass_other h 1 k (by omega)]
    rw [hconv]
    obtain ⟨k1, rfl⟩ := Nat.exists_eq_succ_of_ne_zero (by omega : k ≠ 0)
    have hl := h.no_lt (k1 + 1)
    have hp := h.plain (k1 + 1)
    simp only [List.replicate_succ, List.cons_append] at hl hp ⊢
    exact later_passes_plain_line '#' _ (by decide) (by decide) (by decide) hl hp

theorem markdownToHtml_heading_line_witness :
    1 ≤ 1 ∧ " ".toList ≠ []
    ∧ (∀ x ∈ " ".toList, isSpace x = true ∧ isLineTerminator x = false)
    ∧ "Title".toList ≠ []
    ∧ (∀ x ∈ "Title".toList.head?, isSpace x = false)
    ∧ (∀ x ∈ "Title".toList, isLineTerminator x = false ∧ x ≠ '<')
    ∧ markdownToHtml (List.replicate 1 '#' ++ " ".toList ++ "Title".toList)
      = if 1 ≤ 6 then
          "<h".toList ++ (Nat.repr 1).toList ++ ">".toList ++ "Title".toList
            ++ "</h".toList ++ (Nat.repr 1).toList ++ ">".toList
        else "<p>".toList ++ (List.replicate 1 '#' ++ " ".toList ++ "Title".toList)
          ++ "</p>".toList :=
  ⟨by decide, by decide, by decide, by decide, by decide, by decide,
   markdownToHtml_heading_line 1 " ".toList "Title".toList (by decide) (by decide)
     (by decide) (by decide) (by decide) (by decide)⟩

/-- The examples of the specification for headings. -/
theorem markdownToHtml_heading_examples :
    markdownToHtml "# Title".toList = "<h1>Title</h1>".toList
    ∧ markdownToHtml "###### x".toList = "<h6>x</h6>".toList
    ∧ markdownToHtml "####### x".toList = "<p>####### x</p>".toList := by
  decide

/-! ## Texts of several lines -/

@[simp] theorem joinLines_nil : joinLines [] = [] := rfl

@[simp] theorem joinLines_singleton (l : Str) : joinLines [l] = l := by
  simp [joinLines, List.intercalate]

theorem joinLines_cons_cons (l l2 : Str) (ls : List Str) :
    joinLines (l :: l2 :: ls) = l ++ '\n' :: joinLines (l2 :: ls) := by
  simp [joinLines, List.intercalate]

/-- The scan of an anchored pattern over a text given line by line: on every
line the pattern either does not match at the start of the line, or its first
match there is the whole line; inside a line it cannot match. -/
theorem render_scan_lines {α : Type} (r : Regex) (hr : Anchored r) (f : Match → Str)
    (line out : α → Str) (items : List α)
    (hl : ∀ a ∈ items, ∀ x ∈ line a, isLineTerminator x = false)
    (hact : ∀ a ∈ items, ∀ p suf, (p = none ∨ p = some '\n') →
      (suf = [] ∨ ∃ t, suf = '\n' :: t) →
      (r.run { prev := p, rest := line a ++ suf, caps := [] } = [] ∧ out a = line a)
      ∨ (line a ≠ [] ∧ ∃ s, Heads r { prev := p, rest := line a ++ suf, caps := [] } s
          ∧ s.rest = suf ∧ f { text := line a, caps := s.caps } = out a))
    (p : Option Char) (hp : p = none ∨ p = some '\n') (hne : items ≠ []) :
    render f (r.scan 0 p (joinLines (items.map line))) = joinLines (items.map out) := by
  induction items generalizing p with
  | nil => exact absurd rfl hne
  | cons a items ih =>
    have hla := hl a (List.mem_cons_self _ _)
    -- the scan of the line `a`, followed by `suf`
    have hline : ∀ suf, (suf = [] ∨ ∃ t, suf = '\n' :: t) →
        render f (r.scan 0 p (line a ++ suf))
          = out a ++ render f (r.scan 0 (prevAfter p (line a)) suf) := by
      intro suf hsuf
      rcases hact a (List.mem_cons_self _ _) p suf hp hsuf with ⟨h0, hout⟩ | ⟨hne1, s, hs, hrest, hf⟩
      · rw [scan_quiet r p (line a) suf (quiet_line r hr p _ suf hla h0), render_append,
          render_lits, hout]
      · have hexec := exec_of_heads r p _ s hs
        rw [hrest, take_sub_length] at hexec
        rw [scan_hit r p (line a) suf _ hexec rfl hne1]
        simp [render, hf]
    -- the position after the line `a`
    have hafter : ∀ suf, (suf = [] ∨ ∃ t, suf = '\n' :: t) →
        r.run { prev := prevAfter p (line a), rest := suf, caps := [] } = [] := by
      intro suf hsuf
      by_cases hempty : line a = []
      · rcases hact a (List.mem_cons_self _ _) p suf hp hsuf with ⟨h0, _⟩ | ⟨hne1, _⟩
        · simpa [hempty] using h0
        · exact absurd hempty hne1
      · obtain ⟨c, hc, hpc⟩ := prevAfter_some_of_ne_nil p (line a) hempty
        rw [hpc]
        exact hr c _ _ (hla c hc)
    cases items with
    | nil =>
      have h1 := hline [] (Or.inl rfl)
      simp only [List.append_nil] at h1
      simp [h1, scan_nil_of_run_nil r _ (hafter [] (Or.inl rfl)), render]
    | cons b items =>
      have hsuf : '\n' :: joinLines ((b :: items).map line) = [] ∨
          ∃ t, '\n' :: joinLines ((b :: items).map line) = '\n' :: t := Or.inr ⟨_, rfl⟩
      have h1 := hline _ hsuf
      have h2 := hafter _ hsuf
      have h3 := ih (fun a ha => hl a (List.mem_cons_of_mem _ ha))
        (fun a ha => hact a (List.mem_cons_of_mem _ ha)) (some '\n') (Or.inr rfl) (by simp)
      simp only [List.map_cons, joinLines_cons_cons] at h1 h2 h3 ⊢
      rw [h1, scan_miss r _ _ _ (exec_of_run_nil _ _ _ h2)]
      simp [render, h3]

theorem replaceAll_lines {α : Type} (r : Regex) (hr : Anchored r) (f : Match → Str)
    (line out : α → Str) (items : List α)
    (hl : ∀ a ∈ items, ∀ x ∈ line a, isLineTerminator x = false)
    (hact : ∀ a ∈ items, ∀ p suf, (p = none ∨ p = some '\n') →
      (suf = [] ∨ ∃ t, suf = '\n' :: t) →
      (r.run { prev := p, rest := line a ++ suf, caps := [] } = [] ∧ out a = line a)
      ∨ (line a ≠ [] ∧ ∃ s, Heads r { prev := p, rest := line a ++ suf, caps := [] } s
          ∧ s.rest = suf ∧ f { text := line a, caps := s.caps } = out a))
    (hne : items ≠ []) :
    replaceAll r f (joinLines (items.map line)) = joinLines (items.map out) :=
  render_scan_lines r hr f line out items hl hact none (Or.inl rfl) hne


/-! ## Greedy quantifiers that give characters back -/

theorem walk_append (f : MState → List MState) (caps : List (Nat × Str)) (p : Option Char)
    (a b suf : Str) :
    Walk f caps p (a ++ b) suf ↔ Walk f caps p a (b ++ suf) ∧ Walk f caps (prevAfter p a) b suf := by
  induction a generalizing p with
  | nil => simp [Walk]
  | cons x a ih => simp [Walk, ih, and_assoc]

theorem walk_of_each (f : MState → List MState) (caps : List (Nat × Str)) (q : Char → Bool)
    (hf : ∀ p x t, q x = true →
      f { prev := p, rest := x :: t, caps := caps } = [{ prev := some x, rest := t, caps := caps }])
    (p : Option Char) (a suf : Str) (ha : ∀ x ∈ a, q x = true) : Walk f caps p a suf := by
  induction a generalizing p with
  | nil => trivial
  | cons x a ih =>
    exact ⟨hf p x _ (ha x (List.mem_cons_self _ _)),
      ih _ (fun z hz => ha z (List.mem_cons_of_mem _ hz))⟩

/-- A greedy quantifier whose iteration reads `pre` character by character
and cannot go on after it offers the same states as one over a character
class. -/
theorem starRun_greedy_walk (f : MState → List MState) (caps : List (Nat × Str))
    (p : Option Char) (pre suf : Str) (hw : Walk f caps p pre suf)
    (hstop : f { prev := prevAfter p pre, rest := suf, caps := caps } = []) :
    starRun true f (pre ++ suf).length { prev := p, rest := pre ++ suf, caps := caps }
      = unwind caps p pre suf := by
  induction pre generalizing p with
  | nil => exact starRun_of_nil _ _ _ _ hstop
  | cons x pre ih =>
    obtain ⟨h1, h2⟩ := hw
    have ih1 := ih (some x) h2 hstop
    simp only [List.length_append] at ih1
    simp [starRun, h1, unwind, ih1]

theorem unwind_append (caps : List (Nat × Str)) (p : Option Char) (a : Str) (x : Char)
    (b suf : Str) :
    unwind caps p (a ++ x :: b) suf
      = unwind caps (some x) b suf ++ unwind caps p a (x :: b ++ suf) := by
  induction a generalizing p with
  | nil => simp [unwind]
  | cons y a ih => simp [unwind, ih]

/-- After a greedy quantifier has read `a ++ x :: b`, a continuation that
fails at every position inside `x :: b` and succeeds right after `a` is
first taken right after `a`. -/
theorem unwind_flatMap_backtrack (K : MState → List MState) (caps : List (Nat × Str))
    (p : Option Char) (a : Str) (x : Char) (b suf : Str)
    (hfail : ∀ s ∈ unwind caps (some x) b suf, K s = []) (y : MState) (ys : List MState)
    (hy : K { prev := prevAfter p a, rest := x :: b ++ suf, caps := caps } = y :: ys) :
    ∃ tl, (unwind caps p (a ++ x :: b) suf).flatMap K = y :: tl := by
  obtain ⟨tl, h⟩ := unwind_head caps p a (x :: b ++ suf)
  have h1 : (unwind caps (some x) b suf).flatMap K = [] := by
    simpa [List.flatMap_eq_nil_iff] using hfail
  rw [unwind_append, List.flatMap_append, h1, h]
  simpa using flatMap_cons_head K _ tl y ys hy

/-! ## app.js: list texts -/

theorem itemsText_singleton (c : Str) : itemsText [c] = liText c := by
  simp [itemsText]

theorem itemsText_cons_cons (c c2 : Str) (cs : List Str) :
    itemsText (c :: c2 :: cs) = liText c ++ '\n' :: itemsText (c2 :: cs) := by
  simp [itemsText, joinLines_cons_cons]

/-- A list text starts with the item tag and ends with the closing item tag. -/
theorem itemsText_shape (cs : List Str) (hne : cs ≠ []) :
    ∃ Y, itemsText cs = '<' :: 'l' :: 'i' :: '>' :: (Y ++ ['<', '/', 'l', 'i', '>']) := by
  induction cs with
  | nil => exact absurd rfl hne
  | cons c cs ih =>
    cases cs with
    | nil => exact ⟨c, by simp [itemsText_singleton, liText]⟩
    | cons c2 cs =>
      obtain ⟨Y, hY⟩ := ih (by simp)
      refine ⟨c ++ "</li>".toList ++ '\n' :: '<' :: 'l' :: 'i' :: '>' :: Y, ?_⟩
      rw [itemsText_cons_cons, hY]
      simp [liText]

theorem quiet_inner (r : Regex) (h : ListQuiet r) (y : Char) (hy : isLineTerminator y = false)
    (a suf : Str) (ha : PlainContent a) : Quiet r (some y) a suf := by
  induction a generalizing y with
  | nil => trivial
  | cons x a ih =>
    have hx := ha x (List.mem_cons_self _ _)
    refine ⟨h.inner y x _ hy hx.2 ?_, ih x hx.1 (fun z hz => ha z (List.mem_cons_of_mem _ hz))⟩
    rintro rfl
    exact absurd hx.1 (by decide)

theorem quiet_liText (r : Regex) (h : ListQuiet r) (p : Option Char) (c suf : Str)
    (hc : PlainContent c) : Quiet r p (liText c) suf := by
  have hq := quiet_inner r h '>' (by decide) c ("</li>".toList ++ suf) hc
  have hclose : ∀ y, isLineTerminator y = false → Quiet r (some y) "</li>".toList suf := by
    intro y hy
    simp only [String.toList, Quiet]
    exact ⟨h.close y _ hy, h.inner _ _ _ (by decide) (by decide) (by decide),
      h.inner _ _ _ (by decide) (by decide) (by decide),
      h.inner _ _ _ (by decide) (by decide) (by decide),
      h.inner _ _ _ (by decide) (by decide) (by decide), trivial⟩
  have hlast : ∃ y, isLineTerminator y = false ∧ prevAfter (some '>') c = some y := by
    by_cases hcn : c = []
    · exact ⟨'>', by decide, by simp [hcn]⟩
    · obtain ⟨y, hy, hp⟩ := prevAfter_some_of_ne_nil (some '>') c hcn
      exact ⟨y, (hc y hy).1, hp⟩
  obtain ⟨y, hy, hp⟩ := hlast
  have hopen : Quiet r p "<li>".toList (c ++ "</li>".toList ++ suf) := by
    simp only [String.toList, Quiet]
    exact ⟨h.li p _, h.inner _ _ _ (by decide) (by decide) (by decide),
      h.inner _ _ _ (by decide) (by decide) (by decide),
      h.inner _ _ _ (by decide) (by decide) (by decide), trivial⟩
  rw [liText, List.append_assoc, quiet_append, quiet_append]
  refine ⟨by simpa using hopen, by simpa using hq, ?_⟩
  have : prevAfter (prevAfter p "<li>".toList) c = some y := by
    simpa using hp
  rw [this]
  exact hclose y hy

theorem prevAfter_liText (p : Option Char) (c : Str) : prevAfter p (liText c) = some '>' := by
  simp [liText, prevAfter_append]

/-- A pattern with the properties `ListQuiet` finds nothing in a list text
that is followed by a tag or by the end of the text. -/
theorem quiet_itemsText (r : Regex) (h : ListQuiet r) (cs : List Str)
    (hcs : ∀ c ∈ cs, PlainContent c) (p : Option Char) (suf : Str) :
    Quiet r p (itemsText cs) suf := by
  induction cs generalizing p with
  | nil => trivial
  | cons c cs ih =>
    have hc := hcs c (List.mem_cons_self _ _)
    cases cs with
    | nil =>
      rw [itemsText_singleton]
      exact quiet_liText r h p c suf hc
    | cons c2 cs =>
      obtain ⟨Y, hY⟩ := itemsText_shape (c2 :: cs) (by simp)
      have ih1 := ih (fun z hz => hcs z (List.mem_cons_of_mem _ hz)) (some '\n')
      rw [itemsText_cons_cons, quiet_append]
      refine ⟨quiet_liText r h p c _ hc, ?_⟩
      rw [prevAfter_liText]
      refine ⟨?_, ih1⟩
      rw [hY]
      exact h.nl '>' _ (by decide)

theorem prevAfter_itemsText (p : Option Char) (cs : List Str) (hne : cs ≠ []) :
    prevAfter p (itemsText cs) = some '>' := by
  obtain ⟨Y, hY⟩ := itemsText_shape cs hne
  rw [hY]
  simp [prevAfter_append]


/-- A pattern that finds nothing inside the items, at the opening tag, at the
closing tag or at the end leaves a list container as it is. -/
theorem replaceAll_listText (r : Regex) (f : Match → Str) (h : ListQuiet r) (a : Char)
    (ha : a = 'u' ∨ a = 'o')
    (hopen : ∀ t, r.run { prev := none, rest := '<' :: a :: t, caps := [] } = [])
    (hclose : r.run { prev := some '>', rest := ['<', '/', a, 'l', '>'], caps := [] } = [])
    (hend : r.run { prev := some '>', rest := [], caps := [] } = [])
    (cs : List Str) (hne : cs ≠ []) (hcs : ∀ c ∈ cs, PlainContent c) :
    replaceAll r f (listText a cs) = listText a cs := by
  have ha1 : isLineTerminator a = false := by rcases ha with rfl | rfl <;> decide
  have ha2 : a ≠ '<' := by rcases ha with rfl | rfl <;> decide
  have ha3 : a ≠ '\n' := by rcases ha with rfl | rfl <;> decide
  apply replaceAll_quiet
  · have hq := quiet_itemsText r h cs hcs (some '>') (['<', '/', a, 'l', '>'] ++ [])
    have hc : Quiet r (some '>') ['<', '/', a, 'l', '>'] [] :=
      ⟨hclose, h.inner _ _ _ (by decide) (by decide) (by decide),
        h.inner _ _ _ (by decide) ha2 ha3, h.inner _ _ _ ha1 (by decide) (by decide),
        h.inner _ _ _ (by decide) (by decide) (by decide), trivial⟩
    refine ⟨hopen _, h.inner _ _ _ (by decide) ha2 ha3, h.inner _ _ _ ha1 (by decide) (by decide),
      h.inner _ _ _ (by decide) (by decide) (by decide), ?_⟩
    rw [quiet_append, prevAfter_itemsText _ cs hne]
    exact ⟨hq, hc⟩
  · have : prevAfter none (listText a cs) = some '>' := by
      simp [listText, prevAfter_append]
    rw [this]
    exact hend

theorem listQuiet_of_anchored (r : Regex) (hr : Anchored r)
    (hli : ∀ p t, r.run { prev := p, rest := '<' :: 'l' :: 'i' :: '>' :: t, caps := [] } = []) :
    ListQuiet r :=
  ⟨hli, fun y _ _ hy _ _ => hr y _ _ hy, fun y _ hy => hr y _ _ hy, fun y _ hy => hr y _ _ hy⟩

theorem listQuiet_olItem : ListQuiet olItemRegex :=
  listQuiet_of_anchored _ anchored_olItem
    (fun p t => olItem_run_of_ne p _ _ _ (by decide) (by decide))

theorem listQuiet_paragraph : ListQuiet paragraphRegex :=
  listQuiet_of_anchored _ anchored_paragraph (fun p _ => paragraph_run_of_li p _ _)

theorem listQuiet_ulJoin : ListQuiet ulJoinRegex :=
  ⟨fun p t => ulJoin_run_of_ne2 p _ _ _ _ (by decide),
   fun y x t _ hx _ => ulJoin_run_of_ne _ x t _ hx,
   fun y t _ => ulJoin_run_of_ne3 _ _ _ _ t _ (by decide),
   fun y t _ => ulJoin_run_of_ne _ _ _ _ (by decide)⟩

theorem listQuiet_olJoin : ListQuiet olJoinRegex :=
  ⟨fun p t => olJoin_run_of_ne2 p _ _ _ _ (by decide),
   fun y x t _ hx _ => olJoin_run_of_ne _ x t _ hx,
   fun y t _ => olJoin_run_of_ne3 _ _ _ _ t _ (by decide),
   fun y t _ => olJoin_run_of_ne _ _ _ _ (by decide)⟩

theorem listQuiet_emptyParagraph : ListQuiet emptyParagraphRegex :=
  ⟨fun p t => emptyParagraph_run_of_ne2 p _ _ _ _ (by decide),
   fun y x t _ hx _ => emptyParagraph_run_of_ne _ x t _ hx,
   fun y t _ => emptyParagraph_run_of_ne2 _ _ _ _ _ (by decide),
   fun y t _ => emptyParagraph_run_of_ne _ _ _ _ (by decide)⟩

theorem listQuiet_blankLines : ListQuiet blankLinesRegex :=
  ⟨fun p t => blankLines_run_of_ne p _ _ _ (by decide),
   fun y x t _ _ hx => blankLines_run_of_ne _ x t _ hx,
   fun y t _ => blankLines_run_of_ne _ _ _ _ (by decide),
   fun y t _ => blankLines_run_of_ne2 _ _ _ _ _ (by decide)⟩

theorem ulJoin_run_close (p : Option Char) :
    ulJoinRegex.run { prev := p, rest := ['<', '/', 'u', 'l', '>'], caps := [] } = [] := by
  simp [ulJoinRegex, Regex.cat, Regex.str]

theorem olJoin_run_close (p : Option Char) :
    olJoinRegex.run { prev := p, rest := ['<', '/', 'o', 'l', '>'], caps := [] } = [] := by
  simp [olJoinRegex, Regex.cat, Regex.str]

/-- The passes after the wrapping of the items leave a list container as it
is: the joining of adjacent containers, the paragraph pass and the clean-up. -/
theorem closing_passes_listText (a : Char) (ha : a = 'u' ∨ a = 'o') (cs : List Str)
    (hne : cs ≠ []) (hcs : ∀ c ∈ cs, PlainContent c) :
    replaceAll olJoinRegex (fun _ => []) (listText a cs) = listText a cs
    ∧ convertParagraphs (listText a cs) = listText a cs := by
  have ha2 : a ≠ '/' := by rcases ha with rfl | rfl <;> decide
  have ha3 : a ≠ 'p' := by rcases ha with rfl | rfl <;> decide
  constructor
  · refine replaceAll_listText _ _ listQuiet_olJoin a ha
      (fun t => olJoin_run_of_ne2 _ _ _ _ _ ha2) ?_ (olJoin_run_nil _ _) cs hne hcs
    rcases ha with rfl | rfl
    · exact olJoin_run_of_ne3 _ _ _ _ _ _ (by decide)
    · exact olJoin_run_close _
  · unfold convertParagraphs
    rw [replaceAll_listText _ _ listQuiet_paragraph a ha
        (fun t => paragraph_run_of_tag _ _ _ _ (by rcases ha with rfl | rfl <;> simp))
        (anchored_paragraph _ _ _ (by decide)) (paragraph_run_nil _ _) cs hne hcs,
      replaceAll_listText _ _ listQuiet_emptyParagraph a ha
        (fun t => emptyParagraph_run_of_ne2 _ _ _ _ _ ha3)
        (emptyParagraph_run_of_ne2 _ _ _ _ _ (by decide)) (emptyParagraph_run_nil _ _)
        cs hne hcs,
      replaceAll_listText _ _ listQuiet_blankLines a ha
        (fun t => blankLines_run_of_ne _ _ _ _ (by decide))
        (blankLines_run_of_ne _ _ _ _ (by decide)) (blankLines_run_nil _ _) cs hne hcs]

/-! ## app.js: the wrapping patterns on a list text -/

theorem listTag_run_of_ne (p : Option Char) (x : Char) (t : Str) (caps : List (Nat × Str))
    (hx : x ≠ '<') : listTagRegex.run { prev := p, rest := x :: t, caps := caps } = [] := by
  simp [listTagRegex, Regex.cat, hx]

theorem listTag_run_li (p : Option Char) (t : Str) (caps : List (Nat × Str)) :
    listTagRegex.run { prev := p, rest := '<' :: 'l' :: t, caps := caps } = [] := by
  simp [listTagRegex, Regex.cat]

theorem listTag_run_close_li (p : Option Char) (t : Str) (caps : List (Nat × Str)) :
    listTagRegex.run { prev := p, rest := '<' :: '/' :: 'l' :: t, caps := caps } = [] := by
  simp [listTagRegex, Regex.cat]

theorem run_notAhead (r : Regex) (s : MState) :
    (Regex.notAhead r).run s = if (r.run s).isEmpty then [s] else [] := rfl

theorem notTagChar_run_pass (p : Option Char) (x : Char) (t : Str) (caps : List (Nat × Str))
    (h : listTagRegex.run { prev := p, rest := x :: t, caps := caps } = []) :
    notTagChar.run { prev := p, rest := x :: t, caps := caps }
      = [{ prev := some x, rest := t, caps := caps }] := by
  simp [notTagChar, run_notAhead, h, isAny]

theorem notTagChar_run_nil (p : Option Char) (caps : List (Nat × Str)) :
    notTagChar.run { prev := p, rest := [], caps := caps } = [] := by
  simp [notTagChar, run_notAhead]

theorem notTagChar_run_close (p : Option Char) (a : Char) (ha : a = 'u' ∨ a = 'o') (t : Str)
    (caps : List (Nat × Str)) :
    notTagChar.run { prev := p, rest := '<' :: '/' :: a :: 'l' :: '>' :: t, caps := caps }
      = [] := by
  rcases ha with rfl | rfl <;> simp [notTagChar, run_notAhead, listTagRegex, Regex.cat]

theorem walk_notTagChar_plain (caps : List (Nat × Str)) (p : Option Char) (a suf : Str)
    (ha : PlainContent a) : Walk notTagChar.run caps p a suf := by
  induction a generalizing p with
  | nil => trivial
  | cons x a ih =>
    exact ⟨notTagChar_run_pass _ _ _ _ (listTag_run_of_ne _ _ _ _ (ha x (List.mem_cons_self _ _)).2),
      ih _ (fun z hz => ha z (List.mem_cons_of_mem _ hz))⟩

theorem walk_notTagChar_liText (caps : List (Nat × Str)) (p : Option Char) (c suf : Str)
    (hc : PlainContent c) : Walk notTagChar.run caps p (liText c) suf := by
  have hne : ∀ p x t, x ≠ '<' → notTagChar.run { prev := p, rest := x :: t, caps := caps }
      = [{ prev := some x, rest := t, caps := caps }] :=
    fun p x t hx => notTagChar_run_pass _ _ _ _ (listTag_run_of_ne _ _ _ _ hx)
  have hopen : Walk notTagChar.run caps p "<li>".toList (c ++ "</li>".toList ++ suf) := by
    simp only [String.toList, Walk]
    exact ⟨notTagChar_run_pass _ _ _ _ (listTag_run_li _ _ _), hne _ _ _ (by decide),
      hne _ _ _ (by decide), hne _ _ _ (by decide), trivial⟩
  have hclose : ∀ p, Walk notTagChar.run caps p "</li>".toList suf := by
    intro p
    simp only [String.toList, Walk]
    exact ⟨notTagChar_run_pass _ _ _ _ (listTag_run_close_li _ _ _), hne _ _ _ (by decide),
      hne _ _ _ (by decide), hne _ _ _ (by decide), hne _ _ _ (by decide), trivial⟩
  rw [liText, List.append_assoc, walk_append, walk_append]
  exact ⟨by simpa using hopen, by simpa using walk_notTagChar_plain caps _ c _ hc, hclose _⟩

/-- The quantified body reads a whole list text, character by character. -/
theorem walk_notTagChar_itemsText (caps : List (Nat × Str)) (cs : List Str)
    (hcs : ∀ c ∈ cs, PlainContent c) (p : Option Char) (suf : Str) :
    Walk notTagChar.run caps p (itemsText cs) suf := by
  induction cs generalizing p with
  | nil => trivial
  | cons c cs ih =>
    have hc := hcs c (List.mem_cons_self _ _)
    cases cs with
    | nil =>
      rw [itemsText_singleton]
      exact walk_notTagChar_liText caps p c suf hc
    | cons c2 cs =>
      have ih1 := ih (fun z hz => hcs z (List.mem_cons_of_mem _ hz)) (some '\n')
      rw [itemsText_cons_cons, walk_append]
      refine ⟨walk_notTagChar_liText caps p c _ hc, ?_, ih1⟩
      exact notTagChar_run_pass _ _ _ _ (listTag_run_of_ne _ _ _ _ (by decide))


/-- One item pattern `<li>body*<\/li>` on a text whose characters after the
item tag are all read by the body up to `suf`: the quantifier gives back the
closing item tag, and the first match ends right before `suf`. -/
theorem heads_item (body : Regex) (p : Option Char) (caps : List (Nat × Str)) (Y suf : Str)
    (hw : Walk body.run caps (some '>') (Y ++ ['<', '/', 'l', 'i', '>']) suf)
    (hstop : body.run { prev := some '>', rest := suf, caps := caps } = [])
    (hsuf : (Regex.str "</li>".toList).run { prev := some '>', rest := suf, caps := caps } = []) :
    Heads (Regex.cat [.str "<li>".toList, .star true body, .str "</li>".toList])
      { prev := p, rest := '<' :: 'l' :: 'i' :: '>' :: (Y ++ ['<', '/', 'l', 'i', '>'] ++ suf),
        caps := caps }
      { prev := some '>', rest := suf, caps := caps } := by
  have h1 : (Regex.str "<li>".toList).run
      { prev := p, rest := '<' :: 'l' :: 'i' :: '>' :: (Y ++ ['<', '/', 'l', 'i', '>'] ++ suf),
        caps := caps }
      = [{ prev := some '>', rest := Y ++ ['<', '/', 'l', 'i', '>'] ++ suf, caps := caps }] := by
    simpa using run_str_append "<li>".toList (Y ++ ['<', '/', 'l', 'i', '>'] ++ suf) p caps
  have hp : prevAfter (some '>') (Y ++ ['<', '/', 'l', 'i', '>']) = some '>' := by
    simp [prevAfter_append]
  have h2 := starRun_greedy_walk body.run caps (some '>') (Y ++ ['<', '/', 'l', 'i', '>']) suf
    hw (by rw [hp]; exact hstop)
  have hfail : ∀ s ∈ unwind caps (some '<') ['/', 'l', 'i', '>'] suf,
      (Regex.str "</li>".toList).run s = [] := by
    intro s hs
    simp only [unwind, List.mem_append, List.mem_singleton] at hs
    rcases hs with (((hs | hs) | hs) | hs) | hs
    · subst hs; exact hsuf
    all_goals subst hs; simp [Regex.str]
  have hy : (Regex.str "</li>".toList).run
      { prev := prevAfter (some '>') Y, rest := '<' :: ['/', 'l', 'i', '>'] ++ suf, caps := caps }
      = [{ prev := some '>', rest := suf, caps := caps }] := by
    simpa using run_str_append "</li>".toList suf (prevAfter (some '>') Y) caps
  obtain ⟨tl, h3⟩ := unwind_flatMap_backtrack (Regex.str "</li>".toList).run caps (some '>') Y
    '<' ['/', 'l', 'i', '>'] suf hfail _ [] hy
  refine ⟨tl, ?_⟩
  simp only [Regex.cat, run_seq, h1, List.flatMap_cons, List.flatMap_nil, List.append_nil,
    run_star]
  rw [h2]
  exact h3

/-- The pattern of app.js 22 on a list text: the first match is the whole text. -/
theorem heads_ulWrap (cs : List Str) (hne : cs ≠ []) :
    Heads ulWrapRegex { prev := none, rest := itemsText cs, caps := [] }
      { prev := some '>', rest := [], caps := [(1, itemsText cs)] } := by
  obtain ⟨Y, hY⟩ := itemsText_shape cs hne
  have hw : Walk (Regex.char isAny).run [] (some '>') (Y ++ ['<', '/', 'l', 'i', '>']) [] :=
    walk_of_each _ _ (fun _ => true) (fun p x t _ => by simp [isAny]) _ _ _ (fun _ _ => rfl)
  have h := Heads.group 1 (heads_item (.char isAny) none [] Y [] hw (by simp)
    (by simp [Regex.str]))
  simp only [List.append_nil] at h
  rw [← hY] at h
  simpa using h

/-- The pattern of app.js 31 on a list text followed by `suf`, where no item
can go on: the first match is the whole list text. -/
theorem heads_olWrap (cs : List Str) (hne : cs ≠ []) (hcs : ∀ c ∈ cs, PlainContent c)
    (p : Option Char) (suf : Str)
    (hstop : notTagChar.run { prev := some '>', rest := suf, caps := [] } = [])
    (hsuf : (Regex.str "</li>".toList).run { prev := some '>', rest := suf, caps := [] } = [])
    (hmore : (Regex.seq (.star true (.char isSpace)) olItemRunRegex).run
      { prev := some '>', rest := suf, caps := [] } = []) :
    Heads olWrapRegex { prev := p, rest := itemsText cs ++ suf, caps := [] }
      { prev := some '>', rest := suf, caps := [(1, itemsText cs)] } := by
  obtain ⟨Y, hY⟩ := itemsText_shape cs hne
  have hw0 := walk_notTagChar_itemsText [] cs hcs p suf
  rw [hY] at hw0
  have hw : Walk notTagChar.run [] (some '>') (Y ++ ['<', '/', 'l', 'i', '>']) suf := by
    have := (walk_append notTagChar.run [] p ['<', 'l', 'i', '>']
      (Y ++ ['<', '/', 'l', 'i', '>']) suf).mp (by simpa using hw0)
    simpa using this.2
  have h1 : Heads olItemRunRegex
      { prev := p, rest := '<' :: 'l' :: 'i' :: '>' :: (Y ++ ['<', '/', 'l', 'i', '>'] ++ suf),
        caps := [] }
      { prev := some '>', rest := suf, caps := [] } :=
    heads_item notTagChar p [] Y suf hw hstop hsuf
  have h2 : Heads (.star true (.seq (.star true (.char isSpace)) olItemRunRegex))
      { prev := some '>', rest := suf, caps := [] }
      { prev := some '>', rest := suf, caps := [] } :=
    ⟨[], by rw [run_star]; exact starRun_of_nil _ _ _ _ hmore⟩
  have h := Heads.group 1 (Heads.seq h1 h2)
  have hrest : '<' :: 'l' :: 'i' :: '>' :: (Y ++ ['<', '/', 'l', 'i', '>'] ++ suf)
      = itemsText cs ++ suf := by
    rw [hY]; simp
  rw [hrest] at h
  simpa [take_sub_length] using h

/-! ## app.js: lists -/

theorem ItemContent.toPlain {c : Str} (h : ItemContent c) : PlainContent c := h.2.2

theorem isSpace_false_of_digit (x : Char) (h : isDigit x = true) : isSpace x = false := by
  have h1 : '0' ≤ x ∧ x ≤ '9' := by simpa [isDigit] using h
  have h2 : 48 ≤ x.toNat ∧ x.toNat ≤ 57 := by
    obtain ⟨a, b⟩ := h1
    exact ⟨a, b⟩
  have hne : ∀ (c : Char), (c.toNat < 48 ∨ 57 < c.toNat) → x ≠ c := by
    rintro c hc rfl
    omega
  simp only [isSpace, Bool.or_eq_false_iff, beq_eq_false_iff_ne, ne_eq, Bool.and_eq_false_iff,
    decide_eq_false_iff_not, Nat.not_le]
  refine ⟨⟨⟨⟨⟨⟨⟨⟨⟨⟨⟨⟨⟨⟨?_, ?_⟩, ?_⟩, ?_⟩, ?_⟩, ?_⟩, ?_⟩, ?_⟩, ?_⟩, ?_⟩, ?_⟩, ?_⟩, ?_⟩, ?_⟩, ?_⟩
  any_goals (apply hne; decide)
  all_goals omega


theorem head_not_space {c : Str} (h : ItemContent c) (suf : Str) :
    ∀ y t, c ++ suf = y :: t → isSpace y = false := by
  intro y t hyt
  obtain ⟨x, c1, rfl⟩ := List.exists_cons_of_ne_nil h.1
  simp only [List.cons_append, List.cons.injEq] at hyt
  obtain ⟨rfl, _⟩ := hyt
  exact h.2.1 x (by simp)

/-- An unordered item line: the item pattern matches the whole line and
captures the content. -/
theorem heads_ulItem (p : Option Char) (hp : ∀ c, p = some c → isLineTerminator c = true)
    (c suf : Str) (hc : ItemContent c)
    (hsuf : ∀ y t, suf = y :: t → isLineTerminator y = true) :
    Heads ulItemRegex { prev := p, rest := ('-' :: ' ' :: c) ++ suf, caps := [] }
      { prev := prevAfter (some ' ') c, rest := suf, caps := [(1, c)] } := by
  refine Heads.seq (heads_bol p hp _ _) (Heads.seq
    (heads_star_char isSpace p [] _ [] (by simp) ?_) (Heads.seq (heads_lit '-' _ _ _)
    (Heads.seq (heads_plus_char isSpace _ [' '] (c ++ suf) [] (by simp) ?_ (head_not_space hc suf))
    (heads_line_tail _ c suf _ hc.1 (fun x hx => (hc.2.2 x hx).1) hsuf))))
  · intro y t h
    simp only [List.cons_append, List.cons.injEq] at h
    obtain ⟨rfl, _⟩ := h
    decide
  · intro x hx
    simp only [List.mem_singleton] at hx
    subst hx
    decide

/-- An ordered item line: the item pattern matches the whole line and captures
the content, without the number. -/
theorem heads_olItem (p : Option Char) (hp : ∀ c, p = some c → isLineTerminator c = true)
    (n c suf : Str) (hn : ItemNumber n) (hc : ItemContent c)
    (hsuf : ∀ y t, suf = y :: t → isLineTerminator y = true) :
    Heads olItemRegex { prev := p, rest := (n ++ '.' :: ' ' :: c) ++ suf, caps := [] }
      { prev := prevAfter (some ' ') c, rest := suf, caps := [(1, c)] } := by
  obtain ⟨d, n1, rfl⟩ := List.exists_cons_of_ne_nil hn.1
  have hd : isDigit d = true := hn.2 d (List.mem_cons_self _ _)
  have h1 : Heads (.star true (.char isSpace))
      { prev := p, rest := [] ++ ((d :: n1) ++ ('.' :: ' ' :: (c ++ suf))), caps := [] }
      { prev := p, rest := (d :: n1) ++ ('.' :: ' ' :: (c ++ suf)), caps := [] } :=
    heads_star_char isSpace p [] _ [] (by simp) (by
      intro y t h
      simp only [List.cons_append, List.cons.injEq] at h
      obtain ⟨rfl, _⟩ := h
      exact isSpace_false_of_digit _ hd)
  have h2 : Heads (Regex.plus (.char isDigit))
      { prev := p, rest := (d :: n1) ++ ('.' :: ' ' :: (c ++ suf)), caps := [] }
      { prev := prevAfter p (d :: n1), rest := '.' :: ' ' :: (c ++ suf), caps := [] } :=
    heads_plus_char isDigit p (d :: n1) _ [] (by simp) hn.2 (by
      intro y t h
      simp only [List.cons.injEq] at h
      obtain ⟨rfl, _⟩ := h
      decide)
  have h3 : Heads (Regex.plus (.char isSpace))
      { prev := some '.', rest := [' '] ++ (c ++ suf), caps := [] }
      { prev := prevAfter (some '.') [' '], rest := c ++ suf, caps := [] } :=
    heads_plus_char isSpace _ [' '] (c ++ suf) [] (by simp) (by
      intro x hx
      simp only [List.mem_singleton] at hx
      subst hx
      decide) (head_not_space hc suf)
  have h := Heads.seq (heads_bol p hp _ _) (Heads.seq h1 (Heads.seq h2
    (Heads.seq (heads_lit '.' _ _ _) (Heads.seq h3
    (heads_line_tail _ c suf _ hc.1 (fun x hx => (hc.2.2 x hx).1) hsuf)))))
  simpa [olItemRegex, Regex.cat] using h

theorem indexOf_of_prefix (s pat : Str) (hne : pat ≠ []) (h : pat <+: s) : indexOf s pat = 0 := by
  cases s with
  | nil =>
    have := List.prefix_nil.mp h
    exact absurd this hne
  | cons c cs =>
    have : pat.isPrefixOf (c :: cs) = true := List.isPrefixOf_iff_prefix.mpr h
    simp [indexOf, indexOfFrom, this]

theorem indexOfFrom_of_longer (pat s : Str) (i : Nat) (h : s.length < pat.length) :
    indexOfFrom pat s i = -1 := by
  induction s generalizing i with
  | nil =>
    have : pat ≠ [] := by
      rintro rfl
      simp at h
    cases pat with
    | nil => exact absurd rfl this
    | cons _ _ => rfl
  | cons c cs ih =>
    have h1 : pat.isPrefixOf (c :: cs) = false := by
      rw [Bool.eq_false_iff]
      intro hp
      have := (List.isPrefixOf_iff_prefix.mp hp).length_le
      omega
    simp only [indexOfFrom, h1]
    exact ih _ (by simp at h ⊢; omega)

theorem mem_joinLines (ls : List Str) (x : Char) (hx : x ∈ joinLines ls) :
    x = '\n' ∨ ∃ l ∈ ls, x ∈ l := by
  induction ls with
  | nil => simp at hx
  | cons l ls ih =>
    cases ls with
    | nil => exact Or.inr ⟨l, by simp, by simpa using hx⟩
    | cons l2 ls =>
      rw [joinLines_cons_cons] at hx
      simp only [List.mem_append, List.mem_cons] at hx
      rcases hx with hx | rfl | hx
      · exact Or.inr ⟨l, by simp, hx⟩
      · exact Or.inl rfl
      · rcases ih hx with h | ⟨l3, hl3, h⟩
        · exact Or.inl h
        · exact Or.inr ⟨l3, List.mem_cons_of_mem _ hl3, h⟩

theorem replaceFirst_hit_all (r : Regex) (f : Match → Str) (t : Str) (s : MState)
    (h : Heads r { prev := none, rest := t, caps := [] } s) (hs : s.rest = []) :
    replaceFirst r f t = f { text := t, caps := s.caps } := by
  have hexec := exec_of_heads r none t s h
  simp only [hs, List.length_nil, Nat.sub_zero, List.take_length] at hexec
  cases t with
  | nil => simp [replaceFirst, Regex.replaceFirstFrom, hexec]
  | cons x t => simp [replaceFirst, Regex.replaceFirstFrom, hexec]

/-- A text made of a stretch without match, one match and a stretch without
match: only the match is replaced. -/
theorem replaceAll_quiet_hit_quiet (r : Regex) (f : Match → Str) (a x b : Str) (s : MState)
    (ha : Quiet r none a (x ++ b)) (hx : x ≠ [])
    (hh : Heads r { prev := prevAfter none a, rest := x ++ b, caps := [] } s) (hs : s.rest = b)
    (hb : Quiet r (prevAfter (prevAfter none a) x) b [])
    (hend : r.run { prev := prevAfter (prevAfter (prevAfter none a) x) b, rest := [], caps := [] }
      = []) :
    replaceAll r f (a ++ x ++ b) = a ++ f { text := x, caps := s.caps } ++ b := by
  have hexec := exec_of_heads r _ _ s hh
  rw [hs, take_sub_length] at hexec
  have hb1 := scan_quiet r _ b [] hb
  simp only [List.append_nil] at hb1
  rw [replaceAll, List.append_assoc, scan_quiet r none a (x ++ b) ha,
    scan_hit r _ x b _ hexec rfl hx, hb1, scan_nil_of_run_nil r _ hend]
  simp [render_append, render_lits, render]


theorem olWrap_listText (cs : List Str) (hne : cs ≠ []) (hcs : ∀ c ∈ cs, PlainContent c) :
    wrapOrdered (listText 'u' cs) = listText 'u' cs := by
  have hh := heads_olWrap cs hne hcs (some '>') ['<', '/', 'u', 'l', '>']
    (notTagChar_run_close _ 'u' (Or.inl rfl) [] _) (by simp [Regex.str])
    (by simp [olItemRunRegex, Regex.cat, Regex.str,
      run_star_char_of_not _ _ _ _ _ _ (show isSpace '<' = false by decide)])
  have hx : itemsText cs ≠ [] := by
    obtain ⟨Y, hY⟩ := itemsText_shape cs hne
    simp [hY]
  have hqa : Quiet olWrapRegex none ['<', 'u', 'l', '>'] (itemsText cs ++ ['<', '/', 'u', 'l', '>']) :=
    ⟨olWrap_run_of_ne2 _ _ _ _ _ (by decide), olWrap_run_of_ne _ _ _ _ (by decide),
      olWrap_run_of_ne _ _ _ _ (by decide), olWrap_run_of_ne _ _ _ _ (by decide), trivial⟩
  have hqb : Quiet olWrapRegex (some '>') ['<', '/', 'u', 'l', '>'] [] :=
    ⟨olWrap_run_of_ne2 _ _ _ _ _ (by decide), olWrap_run_of_ne _ _ _ _ (by decide),
      olWrap_run_of_ne _ _ _ _ (by decide), olWrap_run_of_ne _ _ _ _ (by decide),
      olWrap_run_of_ne _ _ _ _ (by decide), trivial⟩
  have hform : listText 'u' cs = ['<', 'u', 'l', '>'] ++ itemsText cs ++ ['<', '/', 'u', 'l', '>'] := by
    simp [listText]
  have hidx : indexOf (listText 'u' cs) ("<ul>".toList ++ itemsText cs) = 0 :=
    indexOf_of_prefix _ _ (by simp) ⟨['<', '/', 'u', 'l', '>'], by simp [listText]⟩
  have hcb : ∀ caps, olWrap (listText 'u' cs) { text := itemsText cs, caps := caps }
      = itemsText cs := by
    intro caps
    simp only [olWrap, hidx]
    rfl
  have hrep := replaceAll_quiet_hit_quiet olWrapRegex (olWrap (listText 'u' cs)) _ _ _ _ hqa hx
    (by simpa using hh) rfl
    (by simpa [prevAfter_itemsText _ cs hne] using hqb)
    (by simpa [prevAfter_itemsText _ cs hne] using olWrap_run_nil (some '>') [])
  rw [hcb, ← hform] at hrep
  exact hrep

/-- The unordered case: every pass on the text of the item lines. -/
theorem markdownToHtml_unordered (cs : List Str) (hne : cs ≠ []) (hcs : ∀ c ∈ cs, ItemContent c) :
    markdownToHtml (joinLines (cs.map (fun c => '-' :: ' ' :: c))) = listText 'u' cs := by
  have hplain : ∀ c ∈ cs, PlainContent c := fun c hc => (hcs c hc).toPlain
  have hl : ∀ c ∈ cs, ∀ x ∈ '-' :: ' ' :: c, isLineTerminator x = false := by
    intro c hc x hx
    simp only [List.mem_cons] at hx
    rcases hx with rfl | rfl | hx
    · decide
    · decide
    · exact ((hcs c hc).2.2 x hx).1
  have hp : ∀ p : Option Char, (p = none ∨ p = some '\n') →
      ∀ c, p = some c → isLineTerminator c = true := by
    rintro p (rfl | rfl) c hc
    · simp at hc
    · simp only [Option.some.injEq] at hc
      subst hc
      decide
  have hsuf : ∀ suf : Str, (suf = [] ∨ ∃ t, suf = '\n' :: t) →
      ∀ y t, suf = y :: t → isLineTerminator y = true := by
    rintro suf (rfl | ⟨t1, rfl⟩) y t h
    · simp at h
    · simp only [List.cons.injEq] at h
      obtain ⟨rfl, _⟩ := h
      decide
  have hhead : ∀ j, 1 ≤ j → ∀ f,
      replaceAll (headingRegex j) f (joinLines (cs.map (fun c => '-' :: ' ' :: c)))
        = joinLines (cs.map (fun c => '-' :: ' ' :: c)) := by
    intro j hj f
    exact replaceAll_lines _ (anchored_heading j) f _ _ cs hl
      (fun c _ p suf _ _ => Or.inl ⟨heading_run_of_ne j p _ _ _ (by decide) hj, rfl⟩) hne
  have hconv : convertHeadings (joinLines (cs.map (fun c => '-' :: ' ' :: c)))
      = joinLines (cs.map (fun c => '-' :: ' ' :: c)) := by
    unfold convertHeadings
    rw [hhead 6 (by decide), hhead 5 (by decide), hhead 4 (by decide), hhead 3 (by decide),
      hhead 2 (by decide), hhead 1 (by decide)]
  have hitems : replaceAll ulItemRegex liTag (joinLines (cs.map (fun c => '-' :: ' ' :: c)))
      = itemsText cs := by
    refine replaceAll_lines _ anchored_ulItem liTag _ liText cs hl ?_ hne
    intro c hc p suf hp1 hsuf1
    refine Or.inr ⟨by simp, _, heads_ulItem p (hp p hp1) c suf (hcs c hc) (hsuf suf hsuf1), rfl, ?_⟩
    simp [liTag, liText, Match.cap, List.lookup]
  have hwrap : replaceFirst ulWrapRegex (fun m => "<ul>".toList ++ m.cap 1 ++ "</ul>".toList)
      (itemsText cs) = listText 'u' cs := by
    rw [replaceFirst_hit_all _ _ _ _ (heads_ulWrap cs hne) rfl]
    simp [Match.cap, List.lookup, listText]
  have hjoin : replaceAll ulJoinRegex (fun _ => []) (listText 'u' cs) = listText 'u' cs :=
    replaceAll_listText _ _ listQuiet_ulJoin 'u' (Or.inl rfl)
      (fun t => ulJoin_run_of_ne2 _ _ _ _ _ (by decide)) (ulJoin_run_close _)
      (ulJoin_run_nil _ _) cs hne hplain
  have hol : replaceAll olItemRegex liTag (listText 'u' cs) = listText 'u' cs :=
    replaceAll_listText _ _ listQuiet_olItem 'u' (Or.inl rfl)
      (fun t => olItem_run_of_ne _ _ _ _ (by decide) (by decide))
      (anchored_olItem _ _ _ (by decide)) (olItem_run_nil _ _) cs hne hplain
  have hclose := closing_passes_listText 'u' (Or.inl rfl) cs hne hplain
  unfold markdownToHtml
  rw [hconv]
  unfold convertUnordered
  rw [hitems, hwrap, hjoin]
  unfold convertOrdered
  rw [hol, olWrap_listText cs hne hplain, hclose.1, hclose.2]


theorem olWrap_itemsText (cs : List Str) (hne : cs ≠ []) (hcs : ∀ c ∈ cs, PlainContent c) :
    wrapOrdered (itemsText cs) = listText 'o' cs := by
  have hh := heads_olWrap cs hne hcs none [] (notTagChar_run_nil _ _) (by simp [Regex.str])
    (by simp [olItemRunRegex, Regex.cat, Regex.str])
  have hx : itemsText cs ≠ [] := by
    obtain ⟨Y, hY⟩ := itemsText_shape cs hne
    simp [hY]
  have hidx : indexOf (itemsText cs) ("<ul>".toList ++ itemsText cs) = -1 :=
    indexOfFrom_of_longer _ _ _ (by simp; omega)
  have hcb : ∀ caps, olWrap (itemsText cs) { text := itemsText cs, caps := caps }
      = listText 'o' cs := by
    intro caps
    simp only [olWrap, hidx]
    simp [listText]
  have hrep := replaceAll_quiet_hit_quiet olWrapRegex (olWrap (itemsText cs)) [] _ [] _
    trivial hx (by simpa using hh) rfl trivial
    (by simpa [prevAfter_itemsText _ cs hne] using olWrap_run_nil (some '>') [])
  rw [hcb] at hrep
  simpa [wrapOrdered] using hrep

/-- The ordered case: every pass on the text of the item lines. -/
theorem markdownToHtml_ordered (items : List (Str × Str)) (hne : items ≠ [])
    (hitems : ∀ it ∈ items, ItemNumber it.1 ∧ ItemContent it.2) :
    markdownToHtml (joinLines (items.map (fun it => it.1 ++ '.' :: ' ' :: it.2)))
      = listText 'o' (items.map Prod.snd) := by
  have hne2 : items.map Prod.snd ≠ [] := by simpa using hne
  have hplain : ∀ c ∈ items.map Prod.snd, PlainContent c := by
    intro c hc
    obtain ⟨it, hit, rfl⟩ := List.mem_map.mp hc
    exact (hitems it hit).2.toPlain
  have hdl : ∀ x, isDigit x = true → isLineTerminator x = false ∧ x ≠ '<' ∧ x ≠ '#'
      ∧ x ≠ '-' := by
    intro x hx
    refine ⟨?_, ?_, ?_, ?_⟩
    · have := isSpace_false_of_digit x hx
      cases h : isLineTerminator x
      · rfl
      · exfalso
        simp only [isLineTerminator, Bool.or_eq_true, beq_iff_eq] at h
        simp only [isSpace, Bool.or_eq_false_iff, beq_eq_false_iff_ne, ne_eq] at this
        tauto
    all_goals
      rintro rfl
      revert hx
      decide
  have hl : ∀ it ∈ items, ∀ x ∈ it.1 ++ '.' :: ' ' :: it.2,
      isLineTerminator x = false ∧ x ≠ '<' := by
    intro it hit x hx
    simp only [List.mem_append, List.mem_cons] at hx
    rcases hx with hx | rfl | rfl | hx
    · exact ⟨(hdl x ((hitems it hit).1.2 x hx)).1, (hdl x ((hitems it hit).1.2 x hx)).2.1⟩
    · decide
    · decide
    · exact (hitems it hit).2.2.2 x hx
  have hhd : ∀ it ∈ items, ∃ d t, it.1 ++ '.' :: ' ' :: it.2 = d :: t ∧ isDigit d = true := by
    intro it hit
    obtain ⟨d, n1, hd⟩ := List.exists_cons_of_ne_nil (hitems it hit).1.1
    exact ⟨d, n1 ++ '.' :: ' ' :: it.2, by simp [hd], (hitems it hit).1.2 d (by simp [hd])⟩
  have hp : ∀ p : Option Char, (p = none ∨ p = some '\n') →
      ∀ c, p = some c → isLineTerminator c = true := by
    rintro p (rfl | rfl) c hc
    · simp at hc
    · simp only [Option.some.injEq] at hc
      subst hc
      decide
  have hsuf : ∀ suf : Str, (suf = [] ∨ ∃ t, suf = '\n' :: t) →
      ∀ y t, suf = y :: t → isLineTerminator y = true := by
    rintro suf (rfl | ⟨t1, rfl⟩) y t h
    · simp at h
    · simp only [List.cons.injEq] at h
      obtain ⟨rfl, _⟩ := h
      decide
  have hplainText : ∀ x ∈ joinLines (items.map (fun it => it.1 ++ '.' :: ' ' :: it.2)),
      x ≠ '<' := by
    intro x hx
    rcases mem_joinLines _ x hx with rfl | ⟨l, hl1, hxl⟩
    · decide
    · obtain ⟨it, hit, rfl⟩ := List.mem_map.mp hl1
      exact (hl it hit x hxl).2
  have hq : ∀ (r : Regex),
      (∀ p y t, y ≠ '<' → r.run { prev := p, rest := y :: t, caps := [] } = []) →
      Quiet r none (joinLines (items.map (fun it => it.1 ++ '.' :: ' ' :: it.2))) [] :=
    fun r hr => quiet_of_head r (fun y => y == '<')
      (fun p y t hy => hr p y t (by simpa using hy)) none _ []
      (fun y hy => by simpa using hplainText y hy)
  have hhead : ∀ j, 1 ≤ j → ∀ f,
      replaceAll (headingRegex j) f (joinLines (items.map (fun it => it.1 ++ '.' :: ' ' :: it.2)))
        = joinLines (items.map (fun it => it.1 ++ '.' :: ' ' :: it.2)) := by
    intro j hj f
    refine replaceAll_lines _ (anchored_heading j) f _ _ items
      (fun it hit x hx => (hl it hit x hx).1) ?_ hne
    intro it hit p suf _ _
    obtain ⟨d, t, hdt, hd⟩ := hhd it hit
    refine Or.inl ⟨?_, rfl⟩
    rw [hdt]
    exact heading_run_of_ne j p d _ _ (hdl d hd).2.2.1 hj
  have hconv : convertHeadings (joinLines (items.map (fun it => it.1 ++ '.' :: ' ' :: it.2)))
      = joinLines (items.map (fun it => it.1 ++ '.' :: ' ' :: it.2)) := by
    unfold convertHeadings
    rw [hhead 6 (by decide), hhead 5 (by decide), hhead 4 (by decide), hhead 3 (by decide),
      hhead 2 (by decide), hhead 1 (by decide)]
  have hul : convertUnordered (joinLines (items.map (fun it => it.1 ++ '.' :: ' ' :: it.2)))
      = joinLines (items.map (fun it => it.1 ++ '.' :: ' ' :: it.2)) := by
    have h1 : replaceAll ulItemRegex liTag
        (joinLines (items.map (fun it => it.1 ++ '.' :: ' ' :: it.2)))
        = joinLines (items.map (fun it => it.1 ++ '.' :: ' ' :: it.2)) := by
      refine replaceAll_lines _ anchored_ulItem liTag _ _ items
        (fun it hit x hx => (hl it hit x hx).1) ?_ hne
      intro it hit p suf _ _
      obtain ⟨d, t, hdt, hd⟩ := hhd it hit
      refine Or.inl ⟨?_, rfl⟩
      rw [hdt]
      exact ulItem_run_of_ne p d _ _ (isSpace_false_of_digit d hd) (hdl d hd).2.2.2
    unfold convertUnordered
    rw [h1, replaceFirst_quiet ulWrapRegex _ _
        (hq _ (fun p y t hy => ulWrap_run_of_ne p y t _ hy)) (ulWrap_run_nil _ _),
      replaceAll_quiet ulJoinRegex _ _
        (hq _ (fun p y t hy => ulJoin_run_of_ne p y t _ hy)) (ulJoin_run_nil _ _)]
  have hitems2 : replaceAll olItemRegex liTag
      (joinLines (items.map (fun it => it.1 ++ '.' :: ' ' :: it.2)))
      = itemsText (items.map Prod.snd) := by
    have h1 := replaceAll_lines olItemRegex anchored_olItem liTag
      (fun it : Str × Str => it.1 ++ '.' :: ' ' :: it.2) (fun it => liText it.2) items
      (fun it hit x hx => (hl it hit x hx).1) ?_ hne
    · rw [h1, itemsText, List.map_map]
      rfl
    · intro it hit p suf hp1 hsuf1
      refine Or.inr ⟨by simp, _, heads_olItem p (hp p hp1) it.1 it.2 suf (hitems it hit).1
        (hitems it hit).2 (hsuf suf hsuf1), rfl, ?_⟩
      simp [liTag, liText, Match.cap, List.lookup]
  have hclose := closing_passes_listText 'o' (Or.inr rfl) _ hne2 hplain
  unfold markdownToHtml
  rw [hconv, hul]
  unfold convertOrdered
  rw [hitems2, olWrap_itemsText _ hne2 hplain, hclose.1, hclose.2]


/-- C4: `n` consecutive unordered item lines become exactly one unordered
container with the `n` items in their order, and `n` consecutive ordered item
lines become exactly one ordered container with the `n` items in their order,
without the numbers. Each item of `items` is a number (one or more digits,
used by the ordered lines only) and a content (not empty, not starting with
white space, without line terminator and without `<`); the items of the
result are separated by the newlines of the input. -/
theorem markdownToHtml_lists (items : List (Str × Str)) (hne : items ≠ [])
    (hitems : ∀ it ∈ items, (it.1 ≠ [] ∧ ∀ x ∈ it.1, isDigit x = true)
      ∧ it.2 ≠ [] ∧ (∀ x ∈ it.2.head?, isSpace x = false)
      ∧ ∀ x ∈ it.2, isLineTerminator x = false ∧ x ≠ '<') :
    markdownToHtml (joinLines (items.map (fun it => "- ".toList ++ it.2)))
      = "<ul>".toList
          ++ joinLines (items.map (fun it => "<li>".toList ++ it.2 ++ "</li>".toList))
          ++ "</ul>".toList
    ∧ markdownToHtml (joinLines (items.map (fun it => it.1 ++ ". ".toList ++ it.2)))
      = "<ol>".toList
          ++ joinLines (items.map (fun it => "<li>".toList ++ it.2 ++ "</li>".toList))
          ++ "</ol>".toList := by
  have hne2 : items.map Prod.snd ≠ [] := by simpa using hne
  have h1 := markdownToHtml_unordered (items.map Prod.snd) hne2 (by
    intro c hc
    obtain ⟨it, hit, rfl⟩ := List.mem_map.mp hc
    exact (hitems it hit).2)
  have h2 := markdownToHtml_ordered items hne (fun it hit => ⟨(hitems it hit).1, (hitems it hit).2⟩)
  have hform : ∀ a, listText a (items.map Prod.snd)
      = ['<', a, 'l', '>']
          ++ joinLines (items.map (fun it => "<li>".toList ++ it.2 ++ "</li>".toList))
          ++ ['<', '/', a, 'l', '>'] := by
    intro a
    simp only [listText, itemsText, List.map_map]
    simp [liText, Function.comp_def]
  rw [hform] at h1 h2
  constructor
  · simpa [List.map_map, Function.comp_def] using h1
  · simpa using h2

theorem markdownToHtml_lists_witness :
    [("1".toList, "x".toList), ("2".toList, "y".toList)] ≠ []
    ∧ (∀ it ∈ [("1".toList, "x".toList), ("2".toList, "y".toList)],
        (it.1 ≠ [] ∧ ∀ x ∈ it.1, isDigit x = true)
        ∧ it.2 ≠ [] ∧ (∀ x ∈ it.2.head?, isSpace x = false)
        ∧ ∀ x ∈ it.2, isLineTerminator x = false ∧ x ≠ '<')
    ∧ markdownToHtml (joinLines ([("1".toList, "x".toList), ("2".toList, "y".toList)].map
        (fun it => "- ".toList ++ it.2)))
      = "<ul>".toList
          ++ joinLines ([("1".toList, "x".toList), ("2".toList, "y".toList)].map
              (fun it => "<li>".toList ++ it.2 ++ "</li>".toList))
          ++ "</ul>".toList
    ∧ markdownToHtml (joinLines ([("1".toList, "x".toList), ("2".toList, "y".toList)].map
        (fun it => it.1 ++ ". ".toList ++ it.2)))
      = "<ol>".toList
          ++ joinLines ([("1".toList, "x".toList), ("2".toList, "y".toList)].map
              (fun it => "<li>".toList ++ it.2 ++ "</li>".toList))
          ++ "</ol>".toList :=
  ⟨by decide, by decide,
   markdownToHtml_lists [("1".toList, "x".toList), ("2".toList, "y".toList)] (by decide)
     (by decide)⟩

/-- The examples of the specification for lists. -/
theorem markdownToHtml_list_examples :
    markdownToHtml "- x\n- y".toList = "<ul><li>x</li>\n<li>y</li></ul>".toList
    ∧ markdownToHtml "1. a\n2. b\n3. c".toList
      = "<ol><li>a</li>\n<li>b</li>\n<li>c</li></ol>".toList := by
  decide

/-! ## app.js: texts without Markdown syntax -/

/-! ## Texts without Markdown syntax -/

theorem exec_eq_none_iff (r : Regex) (p : Option Char) (t : Str) :
    r.exec p t = none ↔ r.run { prev := p, rest := t, caps := [] } = [] := by
  unfold Regex.exec
  split <;> simp_all

theorem quiet_of_findFrom_none (r : Regex) (p : Option Char) (t : Str)
    (h : r.findFrom p t = none) :
    Quiet r p t [] ∧ r.run { prev := prevAfter p t, rest := [], caps := [] } = [] := by
  induction t generalizing p with
  | nil => exact ⟨trivial, (exec_eq_none_iff r p []).mp h⟩
  | cons c cs ih =>
    unfold Regex.findFrom at h
    split at h
    · simp at h
    · rename_i hnone
      obtain ⟨h1, h2⟩ := ih (some c) h
      exact ⟨⟨by simpa using (exec_eq_none_iff r p _).mp hnone, h1⟩, h2⟩

/-- A pattern that matches nowhere in a text is replaced nowhere. -/
theorem replaceAll_of_find_none (r : Regex) (f : Match → Str) (t : Str)
    (h : r.find t = none) : replaceAll r f t = t := by
  obtain ⟨h1, h2⟩ := quiet_of_findFrom_none r none t h
  exact replaceAll_quiet r f t h1 h2

theorem splitLines_ne_nil (t : Str) : splitLines t ≠ [] := by
  induction t with
  | nil => simp [splitLines]
  | cons c cs ih =>
    unfold splitLines
    split
    · simp
    · split <;> simp

theorem joinLines_splitLines (t : Str) : joinLines (splitLines t) = t := by
  induction t with
  | nil => simp [splitLines]
  | cons c cs ih =>
    unfold splitLines
    by_cases hc : c = '\n'
    · subst hc
      obtain ⟨l, ls, hl⟩ := List.exists_cons_of_ne_nil (splitLines_ne_nil cs)
      simp only [beq_self_eq_true, if_true]
      rw [hl, joinLines_cons_cons, ← hl, ih]
      rfl
    · have hc2 : (c == '\n') = false := by simpa using hc
      simp only [hc2]
      obtain ⟨l, ls, hl⟩ := List.exists_cons_of_ne_nil (splitLines_ne_nil cs)
      rw [hl] at ih ⊢
      simp only [Bool.false_eq_true, if_false]
      cases ls with
      | nil => simpa using congrArg (List.cons c) ih
      | cons l2 ls =>
        rw [joinLines_cons_cons] at ih ⊢
        simp [← ih]

theorem mem_splitLines_no_newline (t : Str) : ∀ l ∈ splitLines t, ∀ x ∈ l, x ≠ '\n' := by
  induction t with
  | nil => simp [splitLines]
  | cons c cs ih =>
    unfold splitLines
    by_cases hc : c = '\n'
    · subst hc
      simp only [beq_self_eq_true, if_true, List.mem_cons]
      rintro l (rfl | hl) x hx
      · simp at hx
      · exact ih l hl x hx
    · have hc2 : (c == '\n') = false := by simpa using hc
      simp only [hc2, Bool.false_eq_true, if_false]
      obtain ⟨l, ls, hl⟩ := List.exists_cons_of_ne_nil (splitLines_ne_nil cs)
      rw [hl] at ih ⊢
      simp only [List.mem_cons]
      rintro l1 (rfl | hl1) x hx
      · simp only [List.mem_cons] at hx
        rcases hx with rfl | hx
        · exact hc
        · exact ih l (by simp) x hx
      · exact ih l1 (by simp [hl1]) x hx

theorem mem_of_mem_splitLines (t : Str) : ∀ l ∈ splitLines t, ∀ x ∈ l, x ∈ t := by
  intro l hl x hx
  have h := joinLines_splitLines t
  rw [← h]
  clear h
  generalize splitLines t = ls at hl
  induction ls with
  | nil => simp at hl
  | cons l1 ls ih =>
    cases ls with
    | nil =>
      simp only [List.mem_singleton] at hl
      subst hl
      simpa using hx
    | cons l2 ls =>
      rw [joinLines_cons_cons]
      simp only [List.mem_cons] at hl
      rcases hl with rfl | hl
      · simp [hx]
      · have := ih (by simpa using hl)
        simp [this]


/-- The scan of a pattern over a text given line by line, when every line is
handled on its own and no match starts at the newline after a line or at the
end of the text. -/
theorem render_scan_joinLines {α : Type} (r : Regex) (f : Match → Str)
    (line out : α → Str) (items : List α)
    (hline : ∀ a ∈ items, ∀ p suf, (p = none ∨ p = some '\n') →
      (suf = [] ∨ ∃ t, suf = '\n' :: t) →
      render f (r.scan 0 p (line a ++ suf))
        = out a ++ render f (r.scan 0 (prevAfter p (line a)) suf))
    (hsep : ∀ a ∈ items, ∀ p t, (p = none ∨ p = some '\n') →
      r.run { prev := prevAfter p (line a), rest := '\n' :: t, caps := [] } = [])
    (hend : ∀ a ∈ items, ∀ p, (p = none ∨ p = some '\n') →
      r.run { prev := prevAfter p (line a), rest := [], caps := [] } = [])
    (p : Option Char) (hp : p = none ∨ p = some '\n') (hne : items ≠ []) :
    render f (r.scan 0 p (joinLines (items.map line))) = joinLines (items.map out) := by
  induction items generalizing p with
  | nil => exact absurd rfl hne
  | cons a items ih =>
    have ha : a ∈ a :: items := List.mem_cons_self _ _
    cases items with
    | nil =>
      have h1 := hline a ha p [] hp (Or.inl rfl)
      simp only [List.append_nil] at h1
      simp [h1, scan_nil_of_run_nil r _ (hend a ha p hp), render]
    | cons b items =>
      have h1 := hline a ha p ('\n' :: joinLines ((b :: items).map line)) hp (Or.inr ⟨_, rfl⟩)
      have h2 := hsep a ha p (joinLines ((b :: items).map line)) hp
      have h3 := ih (fun a ha => hline a (List.mem_cons_of_mem _ ha))
        (fun a ha => hsep a (List.mem_cons_of_mem _ ha))
        (fun a ha => hend a (List.mem_cons_of_mem _ ha)) (some '\n') (Or.inr rfl) (by simp)
      simp only [List.map_cons, joinLines_cons_cons] at h1 h2 h3 ⊢
      rw [h1, scan_miss r _ _ _ (exec_of_run_nil _ _ _ h2)]
      simp [render, h3]

theorem paragraph_run_of_lt (p : Option Char) (x : Char) (t : Str) (caps : List (Nat × Str))
    (hx : isLineTerminator x = true) :
    paragraphRegex.run { prev := p, rest := x :: t, caps := caps } = [] := by
  have hx2 : x ≠ '<' := by
    rintro rfl
    revert hx; decide
  apply run_seq_bol_nil
  simp [Regex.cat, run_notAhead, Regex.str, hx2, run_group, isDot, hx]

/-- The paragraph pass on a text without `<`, given by its lines: every line
that is not empty becomes a paragraph. -/
theorem paragraph_pass_lines (ls : List Str) (hne : ls ≠ [])
    (hls : ∀ l ∈ ls, ∀ x ∈ l, isLineTerminator x = false ∧ x ≠ '<') :
    replaceAll paragraphRegex pTag (joinLines ls)
      = joinLines (ls.map (fun l => if l = [] then [] else pText l)) := by
  have h := replaceAll_lines paragraphRegex anchored_paragraph pTag (fun l : Str => l)
    (fun l => if l = [] then [] else pText l) ls (fun l hl x hx => (hls l hl x hx).1) ?_ hne
  · simpa using h
  · intro l hl p suf hp hsuf
    have hp1 : ∀ c, p = some c → isLineTerminator c = true := by
      rcases hp with rfl | rfl
      · simp
      · intro c hc
        simp only [Option.some.injEq] at hc
        subst hc
        decide
    have hsuf1 : ∀ y t, suf = y :: t → isLineTerminator y = true := by
      rcases hsuf with rfl | ⟨t1, rfl⟩
      · simp
      · intro y t h
        simp only [List.cons.injEq] at h
        obtain ⟨rfl, _⟩ := h
        decide
    cases l with
    | nil =>
      refine Or.inl ⟨?_, by simp⟩
      rcases hsuf with rfl | ⟨t1, rfl⟩
      · exact paragraph_run_nil _ _
      · exact paragraph_run_of_lt _ _ _ _ (by decide)
    | cons x l =>
      refine Or.inr ⟨by simp, _, heads_paragraph p hp1 x l suf (hls _ hl x (by simp)).2
        (fun z hz => (hls _ hl z hz).1) hsuf1, rfl, ?_⟩
      simp [pTag, pText, Match.cap, List.lookup]


theorem unwind_rest_head (caps : List (Nat × Str)) (p : Option Char) (pre : Str) (x : Char)
    (t : Str) : ∀ s ∈ unwind caps p pre (x :: t), ∃ y u, s.rest = y :: u ∧ (y ∈ pre ∨ y = x) := by
  induction pre generalizing p with
  | nil =>
    intro s hs
    simp only [unwind, List.mem_singleton] at hs
    subst hs
    exact ⟨x, t, rfl, Or.inr rfl⟩
  | cons z pre ih =>
    intro s hs
    simp only [unwind, List.mem_append, List.mem_singleton] at hs
    rcases hs with hs | hs
    · obtain ⟨y, u, h1, h2⟩ := ih _ s hs
      refine ⟨y, u, h1, ?_⟩
      rcases h2 with h2 | h2
      · exact Or.inl (List.mem_cons_of_mem _ h2)
      · exact Or.inr h2
    · subst hs
      exact ⟨z, pre ++ x :: t, rfl, Or.inl (List.mem_cons_self _ _)⟩

theorem exists_first_non_space (l : Str) (h : isBlank l = false) :
    ∃ pre x l2, l = pre ++ x :: l2 ∧ (∀ y ∈ pre, isSpace y = true) ∧ isSpace x = false := by
  induction l with
  | nil => simp [isBlank] at h
  | cons c l ih =>
    by_cases hc : isSpace c = true
    · have h1 : isBlank l = false := by
        simpa [isBlank, hc] using h
      obtain ⟨pre, x, l2, h2, h3, h4⟩ := ih h1
      refine ⟨c :: pre, x, l2, by simp [h2], ?_, h4⟩
      intro y hy
      simp only [List.mem_cons] at hy
      rcases hy with rfl | hy
      · exact hc
      · exact h3 y hy
    · exact ⟨[], c, l, rfl, by simp, by simpa using hc⟩

theorem ne_lt_of_space (y : Char) (h : isSpace y = true) : y ≠ '<' := by
  rintro rfl
  revert h; decide

/-- The pattern `<p>\s*<\/p>` on a paragraph of white space: the whole
paragraph is matched. -/
theorem heads_emptyParagraph (p : Option Char) (l suf : Str) (hl : ∀ y ∈ l, isSpace y = true) :
    Heads emptyParagraphRegex { prev := p, rest := pText l ++ suf, caps := [] }
      { prev := some '>', rest := suf, caps := [] } := by
  have h1 := heads_str "<p>".toList (l ++ ("</p>".toList ++ suf)) p []
  have h2 := heads_star_char isSpace (prevAfter p "<p>".toList) l ("</p>".toList ++ suf) [] hl
    (by
      intro y t h
      simp only [String.toList, List.cons_append, List.cons.injEq] at h
      obtain ⟨rfl, _⟩ := h
      decide)
  have h3 := heads_str "</p>".toList suf (prevAfter (prevAfter p "<p>".toList) l) []
  have h := Heads.seq h1 (Heads.seq h2 h3)
  have hp2 : prevAfter (prevAfter (prevAfter p "<p>".toList) l) "</p>".toList = some '>' := by
    simp
  rw [hp2] at h
  simpa [emptyParagraphRegex, Regex.cat, pText] using h

/-- The pattern `<p>\s*<\/p>` finds nothing in a paragraph whose content is
not blank and has no `<`. -/
theorem quiet_emptyParagraph_pText (p : Option Char) (l suf : Str)
    (hl : ∀ x ∈ l, x ≠ '<') (hb : isBlank l = false) :
    Quiet emptyParagraphRegex p (pText l) suf := by
  obtain ⟨pre, x, l2, rfl, hpre, hx⟩ := exists_first_non_space l hb
  have hxlt : x ≠ '<' := hl x (by simp)
  have h0 : emptyParagraphRegex.run
      { prev := p, rest := '<' :: 'p' :: '>' :: (pre ++ x :: (l2 ++ "</p>".toList ++ suf)),
        caps := [] } = [] := by
    have hstar := starRun_greedy_char isSpace (some '>') pre (x :: (l2 ++ "</p>".toList ++ suf))
      [] hpre (by
        intro y t h
        simp only [List.cons.injEq] at h
        obtain ⟨rfl, _⟩ := h
        exact hx)
    simp only [emptyParagraphRegex, Regex.cat, run_seq, Regex.str, run_lit_cons, if_true,
      List.flatMap_cons, List.flatMap_nil, List.append_nil, run_empty, run_star]
    rw [hstar]
    simp only [List.flatMap_eq_nil_iff]
    intro s hs
    obtain ⟨y, u, hrest, hy⟩ := unwind_rest_head [] (some '>') pre x _ s hs
    have hylt : y ≠ '<' := by
      rcases hy with hy | rfl
      · exact ne_lt_of_space y (hpre y hy)
      · exact hxlt
    obtain ⟨sp, sr, sc⟩ := s
    simp only at hrest
    subst hrest
    simp [hylt]
  have hq : ∀ q suf1, Quiet emptyParagraphRegex q (pre ++ x :: l2) suf1 := fun q suf1 =>
    quiet_of_head _ (fun y => y == '<')
      (fun p y t hy => emptyParagraph_run_of_ne p y t _ (by simpa using hy)) q _ suf1
      (fun y hy => by simpa using hl y hy)
  have hclose : ∀ q, Quiet emptyParagraphRegex q "</p>".toList suf := by
    intro q
    simp only [String.toList, Quiet]
    exact ⟨emptyParagraph_run_of_ne2 _ _ _ _ _ (by decide),
      emptyParagraph_run_of_ne _ _ _ _ (by decide),
      emptyParagraph_run_of_ne _ _ _ _ (by decide),
      emptyParagraph_run_of_ne _ _ _ _ (by decide), trivial⟩
  have hopen : Quiet emptyParagraphRegex p "<p>".toList
      ((pre ++ x :: l2) ++ "</p>".toList ++ suf) := by
    simp only [String.toList, Quiet]
    exact ⟨by simpa using h0, emptyParagraph_run_of_ne _ _ _ _ (by decide),
      emptyParagraph_run_of_ne _ _ _ _ (by decide), trivial⟩
  rw [pText, List.append_assoc, quiet_append, quiet_append]
  exact ⟨by simpa using hopen, hq _ _, hclose _⟩

theorem prevAfter_pText (p : Option Char) (l : Str) : prevAfter p (pText l) = some '>' := by
  simp [pText, prevAfter_append]

/-- The removal of empty paragraphs on a text of paragraphs and empty lines:
the paragraphs of blank lines are removed. -/
theorem emptyParagraph_pass_lines (ls : List Str) (hne : ls ≠ [])
    (hls : ∀ l ∈ ls, ∀ x ∈ l, x ≠ '<') :
    replaceAll emptyParagraphRegex (fun _ => [])
        (joinLines (ls.map (fun l => if l = [] then [] else pText l)))
      = joinLines (ls.map (fun l => if isBlank l then [] else pText l)) := by
  refine render_scan_joinLines emptyParagraphRegex _ _ _ ls ?_ ?_ ?_ none (Or.inl rfl) hne
  · intro l hl p suf _ _
    by_cases hl0 : l = []
    · subst hl0
      simp [isBlank]
    by_cases hb : isBlank l = true
    · have hh := heads_emptyParagraph p l suf (by simpa [isBlank] using hb)
      have hexec := exec_of_heads _ _ _ _ hh
      simp only [take_sub_length] at hexec
      simp only [hl0, hb, if_true, if_false, List.nil_append]
      rw [scan_hit _ p (pText l) suf _ hexec rfl (by simp [pText])]
      simp [render]
    · have hb2 : isBlank l = false := by simpa using hb
      simp only [hl0, hb2, if_false, Bool.false_eq_true]
      rw [scan_quiet _ p (pText l) suf (quiet_emptyParagraph_pText p l suf (hls l hl) hb2),
        render_append, render_lits]
  · intro l _ p t _
    exact emptyParagraph_run_of_ne _ _ _ _ (by decide)
  · intro l _ p _
    exact emptyParagraph_run_nil _ _

/-! ## The clean-up of blank lines -/

theorem starRun_char_sound (g : Bool) (q : Char → Bool) (n : Nat) (s s1 : MState)
    (h : s1 ∈ starRun g (Regex.char q).run n s) :
    ∃ pre, s.rest = pre ++ s1.rest ∧ ∀ x ∈ pre, q x = true := by
  induction n generalizing s with
  | zero =>
    simp only [starRun, List.mem_singleton] at h
    subst h
    exact ⟨[], rfl, by simp⟩
  | succ n ih =>
    have hcases : s1 = s ∨ s1 ∈ ((Regex.char q).run s |>.filter
        (fun s2 => s2.rest.length < s.rest.length)).flatMap (starRun g (Regex.char q).run n) := by
      cases g <;> simp [starRun] at h ⊢ <;> tauto
    rcases hcases with rfl | hmore
    · exact ⟨[], rfl, by simp⟩
    · obtain ⟨s2, hs2, hs1⟩ := List.mem_flatMap.mp hmore
      have hs2' := (List.mem_filter.mp hs2).1
      obtain ⟨sp, sr, sc⟩ := s
      cases sr with
      | nil => simp at hs2'
      | cons x t =>
        simp only [run_char_cons] at hs2'
        by_cases hx : q x = true
        · simp only [hx, if_true, List.mem_singleton] at hs2'
          subst hs2'
          obtain ⟨pre, h1, h2⟩ := ih _ hs1
          refine ⟨x :: pre, by simpa using h1, ?_⟩
          intro y hy
          simp only [List.mem_cons] at hy
          rcases hy with rfl | hy
          · exact hx
          · exact h2 y hy
        · simp [hx] at hs2'

/-- A match of `\n\s*\n` is a newline, white space and a newline. -/
theorem blankLines_exec_some (p : Option Char) (R : Str) (m : Match)
    (h : blankLinesRegex.exec p R = some m) :
    ∃ w R2, (∀ x ∈ w, isSpace x = true) ∧ m.text = '\n' :: (w ++ ['\n'])
      ∧ R = '\n' :: (w ++ '\n' :: R2) := by
  unfold Regex.exec at h
  split at h
  · simp at h
  · rename_i s tl hrun
    simp only [Option.some.injEq] at h
    have hs : s ∈ blankLinesRegex.run { prev := p, rest := R, caps := [] } := by
      rw [hrun]; exact List.mem_cons_self _ _
    cases R with
    | nil => simp [blankLines_run_nil] at hs
    | cons c R1 =>
      by_cases hc : c = '\n'
      · subst hc
        simp only [blankLinesRegex, Regex.cat, run_seq, run_lit_cons, if_true, List.flatMap_cons,
          List.flatMap_nil, List.append_nil, List.mem_flatMap, run_star] at hs
        obtain ⟨s1, hs1, hs2⟩ := hs
        obtain ⟨pre, hpre, hsp⟩ := starRun_char_sound _ _ _ _ _ hs1
        simp only at hpre
        obtain ⟨p1, r1, c1⟩ := s1
        cases r1 with
        | nil => simp at hs2
        | cons y r2 =>
          by_cases hy : y = '\n'
          · subst hy
            simp only [run_lit_cons, if_true, List.mem_singleton] at hs2
            subst hs2
            refine ⟨pre, r2, hsp, ?_, by simp [hpre]⟩
            rw [← h]
            simp only at hpre ⊢
            rw [hpre]
            have : ('\n' :: (pre ++ '\n' :: r2)).length - r2.length = (pre.length + 2) := by
              simp; omega
            rw [this]
            have h2 : '\n' :: (pre ++ '\n' :: r2) = ('\n' :: (pre ++ ['\n'])) ++ r2 := by simp
            rw [h2, List.take_left' (by simp)]
          · simp [hy] at hs2
      · simp [blankLines_run_of_ne _ _ _ _ hc] at hs


theorem parasFrom_skip_blank (w : Str) (hw : ∀ x ∈ w, isSpace x = true) (cur Y : Str)
    (hcur : isBlank cur = true) : parasFrom cur (w ++ '\n' :: Y) = parasFrom [] Y := by
  induction w generalizing cur with
  | nil => simp [parasFrom, hcur]
  | cons c w ih =>
    have hc := hw c (List.mem_cons_self _ _)
    have hw1 : ∀ x ∈ w, isSpace x = true := fun x hx => hw x (List.mem_cons_of_mem _ hx)
    by_cases hn : c = '\n'
    · subst hn
      simp only [List.cons_append, parasFrom, beq_self_eq_true, if_true, hcur, List.nil_append]
      exact ih hw1 [] rfl
    · have hn2 : (c == '\n') = false := by simpa using hn
      simp only [List.cons_append, parasFrom, hn2, Bool.false_eq_true, if_false]
      exact ih hw1 (cur ++ [c]) (by simp_all [isBlank])

/-- The collapse of blank lines keeps the lines that are not blank. -/
theorem parasFrom_render_blankLines (R : Str) (k : Nat) (p : Option Char) (cur : Str) :
    parasFrom cur (render (fun _ => ['\n']) (blankLinesRegex.scan k p R))
      = parasFrom cur (R.drop k) := by
  induction R generalizing k p cur with
  | nil => simp [Regex.scan, exec_of_run_nil _ _ _ (blankLines_run_nil p []), render]
  | cons c cs ih =>
    cases k with
    | succ k => simpa [Regex.scan] using ih k (some c) cur
    | zero =>
      cases hexec : blankLinesRegex.exec p (c :: cs) with
      | none =>
        simp only [Regex.scan, hexec, render, List.drop_zero]
        by_cases hn : c = '\n'
        · subst hn
          simpa [parasFrom] using ih 0 (some '\n') []
        · have hn2 : (c == '\n') = false := by simpa using hn
          simpa [parasFrom, hn2] using ih 0 (some c) (cur ++ [c])
      | some m =>
        obtain ⟨w, R2, hw, hm, hR⟩ := blankLines_exec_some p _ m hexec
        simp only [List.cons.injEq] at hR
        obtain ⟨rfl, rfl⟩ := hR
        have hlen : m.text.length - 1 = (w ++ ['\n']).length := by simp [hm]
        have hlen0 : ¬ m.text.length = 0 := by simp [hm]
        have hdrop : List.drop (w ++ ['\n']).length (w ++ '\n' :: R2) = R2 := by
          have : w ++ '\n' :: R2 = (w ++ ['\n']) ++ R2 := by simp
          rw [this, List.drop_left]
        simp only [Regex.scan, hexec, render, hlen0, if_false, hlen, List.drop_zero,
          List.singleton_append]
        have h1 := ih (w ++ ['\n']).length (some '\n') []
        rw [hdrop] at h1
        simp only [parasFrom, beq_self_eq_true, if_true]
        rw [h1, parasFrom_skip_blank w hw [] R2 rfl]

theorem prefix_render_newline (r : Regex) (R : Str) (k : Nat) (p : Option Char) (w : Str)
    (hw : ∀ x ∈ w, x ≠ '\n') (h : w <+: render (fun _ => ['\n']) (r.scan k p R)) :
    w <+: R.drop k := by
  induction R generalizing k p w with
  | nil =>
    have hout : render (fun _ => ['\n']) (r.scan k p []) = [] ∨
        render (fun _ => ['\n']) (r.scan k p []) = ['\n'] := by
      cases hexec : r.exec p [] <;> simp [Regex.scan, hexec, render]
    cases w with
    | nil => exact List.nil_prefix
    | cons x w =>
      exfalso
      rcases hout with ho | ho
      · rw [ho] at h; simp at h
      · rw [ho] at h
        obtain ⟨rfl, _⟩ := List.cons_prefix_cons.mp h
        exact hw _ (by simp) rfl
  | cons c cs ih =>
    cases w with
    | nil => exact List.nil_prefix
    | cons x w =>
      have hx : x ≠ '\n' := hw x (by simp)
      have hw1 : ∀ y ∈ w, y ≠ '\n' := fun y hy => hw y (List.mem_cons_of_mem _ hy)
      cases k with
      | succ k => exact ih k (some c) _ hw (by simpa [Regex.scan] using h)
      | zero =>
        cases hexec : r.exec p (c :: cs) with
        | none =>
          simp only [Regex.scan, hexec, render] at h
          obtain ⟨rfl, h2⟩ := List.cons_prefix_cons.mp h
          have := ih 0 (some x) w hw1 h2
          simpa using this
        | some m =>
          exfalso
          simp only [Regex.scan, hexec, render, List.singleton_append] at h
          obtain ⟨rfl, _⟩ := List.cons_prefix_cons.mp h
          exact hx rfl

/-- A text without newline that occurs after the collapse of blank lines
occurs in the text before the collapse. -/
theorem infix_render_newline (r : Regex) (R : Str) (k : Nat) (p : Option Char) (w : Str)
    (hw : ∀ x ∈ w, x ≠ '\n') (h : w <:+: render (fun _ => ['\n']) (r.scan k p R)) :
    w <:+: R := by
  induction R generalizing k p with
  | nil =>
    cases w with
    | nil => exact List.nil_infix
    | cons x w =>
      exfalso
      have hout : render (fun _ => ['\n']) (r.scan k p []) = [] ∨
          render (fun _ => ['\n']) (r.scan k p []) = ['\n'] := by
        cases hexec : r.exec p [] <;> simp [Regex.scan, hexec, render]
      rcases hout with ho | ho
      · rw [ho] at h; simp at h
      · rw [ho] at h
        have hmem : x ∈ ['\n'] := h.subset (by simp)
        simp at hmem
        exact hw x (by simp) hmem
  | cons c cs ih =>
    cases k with
    | succ k =>
      have := ih k (some c) (by simpa [Regex.scan] using h)
      exact this.trans (List.suffix_cons c cs).isInfix
    | zero =>
      cases hexec : r.exec p (c :: cs) with
      | none =>
        have h0 := h
        simp only [Regex.scan, hexec, render] at h
        rcases List.infix_cons_iff.mp h with hpre | hin
        · have : w <+: render (fun _ => ['\n']) (r.scan 0 p (c :: cs)) := by
            simpa [Regex.scan, hexec, render] using hpre
          have h2 := prefix_render_newline r (c :: cs) 0 p w hw this
          simpa using h2.isInfix
        · exact (ih 0 (some c) hin).trans (List.suffix_cons c cs).isInfix
      | some m =>
        simp only [Regex.scan, hexec, render, List.singleton_append] at h
        rcases List.infix_cons_iff.mp h with hpre | hin
        · cases w with
          | nil => exact List.nil_infix
          | cons x w =>
            exfalso
            obtain ⟨rfl, _⟩ := List.cons_prefix_cons.mp hpre
            exact hw _ (by simp) rfl
        · by_cases hlen : m.text.length = 0
          · simp only [hlen, if_true, render] at hin
            rcases List.infix_cons_iff.mp hin with hpre2 | hin2
            · cases w with
              | nil => exact List.nil_infix
              | cons x w =>
                obtain ⟨rfl, h3⟩ := List.cons_prefix_cons.mp hpre2
                have h4 := prefix_render_newline r cs 0 (some x) w
                  (fun y hy => hw y (List.mem_cons_of_mem _ hy)) h3
                simp only [List.drop_zero] at h4
                exact (List.cons_prefix_cons.mpr ⟨rfl, h4⟩).isInfix
            · exact (ih 0 (some c) hin2).trans (List.suffix_cons c cs).isInfix
          · simp only [hlen, if_false] at hin
            exact (ih _ (some c) hin).trans (List.suffix_cons c cs).isInfix


/-! ## Lines that are not blank -/

theorem parasFrom_eq_filter (t cur : Str) :
    ∃ h tl, splitLines t = h :: tl
      ∧ parasFrom cur t = ((cur ++ h) :: tl).filter (fun l => !isBlank l) := by
  induction t generalizing cur with
  | nil =>
    refine ⟨[], [], rfl, ?_⟩
    by_cases hc : isBlank cur = true <;> simp [parasFrom, hc]
  | cons c cs ih =>
    by_cases hn : c = '\n'
    · subst hn
      obtain ⟨h, tl, hsplit, hp⟩ := ih []
      refine ⟨[], h :: tl, by simp [splitLines, hsplit], ?_⟩
      simp only [parasFrom, beq_self_eq_true, if_true, hp, List.nil_append, List.append_nil]
      by_cases hc : isBlank cur = true <;> simp [hc, List.filter_cons]
    · have hn2 : (c == '\n') = false := by simpa using hn
      obtain ⟨h, tl, hsplit, hp⟩ := ih (cur ++ [c])
      refine ⟨c :: h, tl, by simp [splitLines, hn2, hsplit], ?_⟩
      simp only [parasFrom, hn2, Bool.false_eq_true, if_false, hp]
      simp

theorem nonBlankLines_eq_parasFrom (t : Str) : nonBlankLines t = parasFrom [] t := by
  obtain ⟨h, tl, hsplit, hp⟩ := parasFrom_eq_filter t []
  simp [nonBlankLines, hsplit, hp]

theorem splitLines_append_newline (m Y : Str) (hm : ∀ x ∈ m, x ≠ '\n') :
    splitLines (m ++ '\n' :: Y) = m :: splitLines Y := by
  induction m with
  | nil => simp [splitLines]
  | cons c m ih =>
    have hc : (c == '\n') = false := by simpa using hm c (List.mem_cons_self _ _)
    have := ih (fun x hx => hm x (List.mem_cons_of_mem _ hx))
    simp [splitLines, hc, this]

theorem splitLines_of_no_newline (m : Str) (hm : ∀ x ∈ m, x ≠ '\n') : splitLines m = [m] := by
  induction m with
  | nil => rfl
  | cons c m ih =>
    have hc : (c == '\n') = false := by simpa using hm c (List.mem_cons_self _ _)
    have := ih (fun x hx => hm x (List.mem_cons_of_mem _ hx))
    simp [splitLines, hc, this]

theorem splitLines_joinLines (ms : List Str) (hne : ms ≠ [])
    (hms : ∀ m ∈ ms, ∀ x ∈ m, x ≠ '\n') : splitLines (joinLines ms) = ms := by
  induction ms with
  | nil => exact absurd rfl hne
  | cons m ms ih =>
    cases ms with
    | nil => simpa using splitLines_of_no_newline m (hms m (by simp))
    | cons m2 ms =>
      rw [joinLines_cons_cons, splitLines_append_newline m _ (hms m (by simp)),
        ih (by simp) (fun m hm => hms m (List.mem_cons_of_mem _ hm))]

/-! ## The tags of a text -/

theorem tagsOk_append (a b : Str) (ha : tagsOk a = true) (hb : tagsOk b = true) :
    tagsOk (a ++ b) = true := by
  induction a with
  | nil => simpa using hb
  | cons c a ih =>
    cases a with
    | nil =>
      have hc : (c == '<') = false := by simpa [tagsOk] using ha
      cases b with
      | nil => simpa using ha
      | cons y b => simp [tagsOk, hc, hb]
    | cons y a =>
      simp only [tagsOk, Bool.and_eq_true] at ha
      have := ih ha.2
      simp only [List.cons_append, tagsOk, Bool.and_eq_true] at this ⊢
      exact ⟨ha.1, this⟩

theorem tagsOk_of_plain (l : Str) (hl : ∀ x ∈ l, x ≠ '<') : tagsOk l = true := by
  induction l with
  | nil => rfl
  | cons c l ih =>
    have hc : (c == '<') = false := by simpa using hl c (List.mem_cons_self _ _)
    have := ih (fun x hx => hl x (List.mem_cons_of_mem _ hx))
    cases l with
    | nil => simp [tagsOk, hc]
    | cons y l => simp [tagsOk, hc, this]

theorem tagsOk_sound (t : Str) (h : tagsOk t = true) (y : Char) (hy : ['<', y] <:+: t) :
    y = 'p' ∨ y = '/' := by
  induction t with
  | nil => simp at hy
  | cons c t ih =>
    cases t with
    | nil =>
      have := hy.length_le
      simp at this
    | cons z t =>
      simp only [tagsOk, Bool.and_eq_true] at h
      rcases List.infix_cons_iff.mp hy with hpre | hin
      · obtain ⟨rfl, h2⟩ := List.cons_prefix_cons.mp hpre
        obtain ⟨rfl, _⟩ := List.cons_prefix_cons.mp h2
        simpa using h.1
      · exact ih h.2 hin

theorem tagsOk_joinLines (ms : List Str) (hms : ∀ m ∈ ms, tagsOk m = true) :
    tagsOk (joinLines ms) = true := by
  induction ms with
  | nil => rfl
  | cons m ms ih =>
    cases ms with
    | nil => simpa using hms m (by simp)
    | cons m2 ms =>
      rw [joinLines_cons_cons]
      have h1 := ih (fun m hm => hms m (List.mem_cons_of_mem _ hm))
      have h2 : tagsOk ('\n' :: joinLines (m2 :: ms)) = true := by
        have := tagsOk_append ['\n'] _ (by decide) h1
        simpa using this
      exact tagsOk_append _ _ (hms m (by simp)) h2

theorem tagsOk_pText (l : Str) (hl : ∀ x ∈ l, x ≠ '<') : tagsOk (pText l) = true :=
  tagsOk_append _ _ (tagsOk_append _ _ (by decide) (tagsOk_of_plain l hl)) (by decide)


/-! ## app.js: plain text becomes paragraphs -/

theorem isBlank_pText (l : Str) : isBlank (pText l) = false := by
  simp [isBlank, pText, show isSpace '<' = false by decide]

/-- The list passes leave a text without `<` and without Markdown syntax as
it is. -/
theorem early_passes_plain_text (t : Str) (hplain : ∀ x ∈ t, x ≠ '<')
    (hmd : hasMarkdown t = false) :
    convertOrdered (convertUnordered (convertHeadings t)) = t := by
  simp only [hasMarkdown, markdownRegexes, List.any_cons, List.any_nil, Bool.or_false,
    Bool.or_eq_false_iff] at hmd
  have hnone : ∀ {o : Option Match}, o.isSome = false → o = none := by
    intro o h
    cases o with
    | none => rfl
    | some _ => simp at h
  obtain ⟨h6, h5, h4, h3, h2, h1, hul, hol⟩ := hmd
  replace h6 := hnone h6
  replace h5 := hnone h5
  replace h4 := hnone h4
  replace h3 := hnone h3
  replace h2 := hnone h2
  replace h1 := hnone h1
  replace hul := hnone hul
  replace hol := hnone hol
  have hq : ∀ (r : Regex),
      (∀ p y u, y ≠ '<' → r.run { prev := p, rest := y :: u, caps := [] } = []) →
      Quiet r none t [] :=
    fun r hr => quiet_of_head r (fun y => y == '<')
      (fun p y u hy => hr p y u (by simpa using hy)) none _ []
      (fun y hy => by simpa using hplain y hy)
  have hconv : convertHeadings t = t := by
    unfold convertHeadings
    rw [replaceAll_of_find_none _ _ _ h6, replaceAll_of_find_none _ _ _ h5,
      replaceAll_of_find_none _ _ _ h4, replaceAll_of_find_none _ _ _ h3,
      replaceAll_of_find_none _ _ _ h2, replaceAll_of_find_none _ _ _ h1]
  have hun : convertUnordered t = t := by
    unfold convertUnordered
    rw [replaceAll_of_find_none _ _ _ hul,
      replaceFirst_quiet ulWrapRegex _ _
        (hq _ (fun p y u hy => ulWrap_run_of_ne p y u _ hy)) (ulWrap_run_nil _ _),
      replaceAll_quiet ulJoinRegex _ _
        (hq _ (fun p y u hy => ulJoin_run_of_ne p y u _ hy)) (ulJoin_run_nil _ _)]
  have hor : convertOrdered t = t := by
    unfold convertOrdered wrapOrdered
    rw [replaceAll_of_find_none _ _ _ hol,
      replaceAll_quiet olWrapRegex _ _
        (hq _ (fun p y u hy => olWrap_run_of_ne p y u _ hy)) (olWrap_run_nil _ _),
      replaceAll_quiet olJoinRegex _ _
        (hq _ (fun p y u hy => olJoin_run_of_ne p y u _ hy)) (olJoin_run_nil _ _)]
  rw [hconv, hun, hor]

/-- C6, amended: for a text that contains no `<`, no line terminator other
than the newline, and in which none of the heading and item patterns of the
converter matches, the lines of the result that are not blank are exactly the
lines of the text that are not blank, each wrapped in one paragraph element,
in order; and the result contains no heading, list container or list item
tag. -/
theorem markdownToHtml_plain_text (t : Str) (hplain : ∀ x ∈ t, x ≠ '<')
    (hlt : ∀ x ∈ t, isLineTerminator x = true → x = '\n') (hmd : hasMarkdown t = false) :
    nonBlankLines (markdownToHtml t)
      = (nonBlankLines t).map (fun l => "<p>".toList ++ l ++ "</p>".toList)
    ∧ ¬ "<h".toList <:+: markdownToHtml t ∧ ¬ "<ul".toList <:+: markdownToHtml t
    ∧ ¬ "<ol".toList <:+: markdownToHtml t ∧ ¬ "<li".toList <:+: markdownToHtml t := by
  have hne := splitLines_ne_nil t
  have hls : ∀ l ∈ splitLines t, ∀ x ∈ l, isLineTerminator x = false ∧ x ≠ '<' := by
    intro l hl x hx
    have hxt := mem_of_mem_splitLines t l hl x hx
    refine ⟨?_, hplain x hxt⟩
    cases h : isLineTerminator x
    · rfl
    · exact absurd (hlt x hxt h) (mem_splitLines_no_newline t l hl x hx)
  have hE : replaceAll emptyParagraphRegex (fun _ => [])
      (replaceAll paragraphRegex pTag t)
      = joinLines ((splitLines t).map (fun l => if isBlank l then [] else pText l)) := by
    conv_lhs => rw [← joinLines_splitLines t]
    rw [paragraph_pass_lines _ hne hls,
      emptyParagraph_pass_lines _ hne (fun l hl x hx => (hls l hl x hx).2)]
  have hout : markdownToHtml t = replaceAll blankLinesRegex (fun _ => ['\n'])
      (joinLines ((splitLines t).map (fun l => if isBlank l then [] else pText l))) := by
    unfold markdownToHtml
    rw [early_passes_plain_text t hplain hmd]
    unfold convertParagraphs
    rw [hE]
  have hlines : ∀ m ∈ (splitLines t).map (fun l => if isBlank l then [] else pText l),
      ∀ x ∈ m, x ≠ '\n' := by
    intro m hm x hx
    obtain ⟨l, hl, rfl⟩ := List.mem_map.mp hm
    split at hx
    · simp at hx
    · simp only [pText, List.mem_append] at hx
      rcases hx with (hx | hx) | hx
      · rintro rfl; revert hx; decide
      · exact mem_splitLines_no_newline t l hl x hx
      · rintro rfl; revert hx; decide
  have htags : tagsOk (joinLines ((splitLines t).map
      (fun l => if isBlank l then [] else pText l))) = true := by
    apply tagsOk_joinLines
    intro m hm
    obtain ⟨l, hl, rfl⟩ := List.mem_map.mp hm
    split
    · rfl
    · exact tagsOk_pText l (fun x hx => (hls l hl x hx).2)
  have hno : ∀ y, y ≠ '\n' → y ≠ 'p' → y ≠ '/' → ¬ ['<', y] <:+: markdownToHtml t := by
    intro y hy1 hy2 hy3 hin
    rw [hout] at hin
    have h1 := infix_render_newline blankLinesRegex _ 0 none ['<', y] (by
      intro x hx
      simp only [List.mem_cons, List.mem_singleton, List.not_mem_nil, or_false] at hx
      rcases hx with rfl | rfl
      · decide
      · exact hy1) hin
    rcases tagsOk_sound _ htags y h1 with h | h
    · exact hy2 h
    · exact hy3 h
  refine ⟨?_, hno 'h' (by decide) (by decide) (by decide), ?_, ?_, ?_⟩
  · rw [hout, nonBlankLines_eq_parasFrom, replaceAll, parasFrom_render_blankLines,
      List.drop_zero, ← nonBlankLines_eq_parasFrom, nonBlankLines,
      splitLines_joinLines _ (by simpa using hne) hlines, nonBlankLines, List.filter_map]
    have hfilter : (fun l => !isBlank l) ∘ (fun l => if isBlank l then [] else pText l)
        = fun l => !isBlank l := by
      funext l
      simp only [Function.comp]
      by_cases hb : isBlank l = true
      · rw [if_pos hb, hb]
        rfl
      · rw [if_neg hb, isBlank_pText]
        simp only [Bool.not_eq_true] at hb
        rw [hb]
    rw [hfilter]
    apply List.map_congr_left
    intro l hl
    have hb : isBlank l = false := by simpa using (List.mem_filter.mp hl).2
    simp [hb, pText]
  · intro h
    exact hno 'u' (by decide) (by decide) (by decide)
      ((show ['<', 'u'] <+: "<ul".toList from ⟨['l'], rfl⟩).isInfix.trans h)
  · intro h
    exact hno 'o' (by decide) (by decide) (by decide)
      ((show ['<', 'o'] <+: "<ol".toList from ⟨['l'], rfl⟩).isInfix.trans h)
  · intro h
    exact hno 'l' (by decide) (by decide) (by decide)
      ((show ['<', 'l'] <+: "<li".toList from ⟨['i'], rfl⟩).isInfix.trans h)


theorem markdownToHtml_plain_text_witness :
    (∀ x ∈ "hello\n \nbig world".toList, x ≠ '<')
    ∧ (∀ x ∈ "hello\n \nbig world".toList, isLineTerminator x = true → x = '\n')
    ∧ hasMarkdown "hello\n \nbig world".toList = false
    ∧ nonBlankLines (markdownToHtml "hello\n \nbig world".toList)
      = (nonBlankLines "hello\n \nbig world".toList).map
          (fun l => "<p>".toList ++ l ++ "</p>".toList)
    ∧ ¬ "<h".toList <:+: markdownToHtml "hello\n \nbig world".toList
    ∧ ¬ "<ul".toList <:+: markdownToHtml "hello\n \nbig world".toList
    ∧ ¬ "<ol".toList <:+: markdownToHtml "hello\n \nbig world".toList
    ∧ ¬ "<li".toList <:+: markdownToHtml "hello\n \nbig world".toList :=
  ⟨by decide, by decide, by decide,
   markdownToHtml_plain_text "hello\n \nbig world".toList (by decide) (by decide) (by decide)⟩

/-- C6 as stated fails: the text `<hr>` has no Markdown syntax, yet its line
is not wrapped in a paragraph, because the paragraph pattern skips every line
that starts with `<h`, `<u`, `<o` or `<li`; and the text `<li>a</li>` has no
Markdown syntax, yet the result contains a list container. -/
theorem markdownToHtml_plain_text_counterexample :
    hasMarkdown "<hr>".toList = false
    ∧ markdownToHtml "<hr>".toList = "<hr>".toList
    ∧ nonBlankLines (markdownToHtml "<hr>".toList)
      ≠ (nonBlankLines "<hr>".toList).map (fun l => "<p>".toList ++ l ++ "</p>".toList)
    ∧ hasMarkdown "<li>a</li>".toList = false
    ∧ markdownToHtml "<li>a</li>".toList = "<ul><li>a</li></ul>".toList
    ∧ "<ul".toList <:+: markdownToHtml "<li>a</li>".toList := by
  decide

/-! ## Numbers: integers below `2 ^ 53` are exact -/

theorem bitLengthFrom_zero (fuel : Nat) : bitLengthFrom fuel 0 = 0 := by
  cases fuel <;> simp [bitLengthFrom]

theorem bitLengthFrom_le (fuel : Nat) : ∀ n k, n < 2 ^ k → bitLengthFrom fuel n ≤ k := by
  induction fuel with
  | zero => intro n k _; simp [bitLengthFrom]
  | succ fuel ih =>
    intro n k h
    unfold bitLengthFrom
    split
    · omega
    · rename_i hn
      cases k with
      | zero => simp at h; omega
      | succ k =>
        have h2 : n / 2 < 2 ^ k := by
          rw [pow_succ] at h
          omega
        have := ih (n / 2) k h2
        omega

theorem lt_bitLengthFrom (fuel : Nat) : ∀ n k, n ≤ fuel → 2 ^ k ≤ n → k < bitLengthFrom fuel n := by
  induction fuel with
  | zero =>
    intro n k h1 h2
    have : 0 < 2 ^ k := Nat.two_pow_pos _
    omega
  | succ fuel ih =>
    intro n k h1 h2
    have hpos : 0 < 2 ^ k := Nat.two_pow_pos _
    unfold bitLengthFrom
    split
    · omega
    · cases k with
      | zero => omega
      | succ k =>
        have h3 : 2 ^ k ≤ n / 2 := by
          rw [pow_succ] at h2
          omega
        have hk : 0 < 2 ^ k := Nat.two_pow_pos _
        have := ih (n / 2) k (by omega) h3
        omega

theorem pow_bitLengthFrom_le (fuel : Nat) : ∀ n, 0 < n → 2 ^ (bitLengthFrom fuel n - 1) ≤ n := by
  induction fuel with
  | zero => intro n h; simpa [bitLengthFrom] using h
  | succ fuel ih =>
    intro n h
    unfold bitLengthFrom
    split
    · omega
    · simp only [Nat.add_sub_cancel]
      by_cases h0 : n / 2 = 0
      · rw [h0, bitLengthFrom_zero]
        simpa using h
      · have h1 := ih (n / 2) (by omega)
        by_cases hb : bitLengthFrom fuel (n / 2) = 0
        · rw [hb]; simpa using h
        · obtain ⟨b, hb2⟩ := Nat.exists_eq_succ_of_ne_zero hb
          rw [hb2] at h1 ⊢
          simp only [Nat.succ_eq_add_one, Nat.add_sub_cancel] at h1
          rw [pow_succ]
          omega

/-- An integer below `2 ^ 53` is its own Number value. -/
theorem toNumber_of_lt (n : Nat) (h : n < 2 ^ 53) : toNumber n = .int n := by
  have h1 : bitLength n ≤ 53 := bitLengthFrom_le n n 53 h
  have he : bitLength n - 53 = 0 := by omega
  have h2 : bitLength n ≤ 1024 := by omega
  simp [toNumber, he, h2, Nat.mod_one]

theorem toNumber_cases (n : Nat) :
    toNumber n = .infinity ∨ ∃ q1, n / 2 ^ (bitLength n - 53) ≤ q1
      ∧ toNumber n = .int (q1 * 2 ^ (bitLength n - 53)) := by
  unfold toNumber
  simp only []
  split_ifs
  all_goals first
    | exact Or.inl rfl
    | exact Or.inr ⟨_, Nat.le_succ _, rfl⟩
    | exact Or.inr ⟨_, le_rfl, rfl⟩

/-- From `2 ^ 53` on, the Number value of an integer is at least `2 ^ 53`. -/
theorem toNumber_of_ge (m v : Nat) (h : 2 ^ 53 ≤ m) (hv : toNumber m = .int v) : 2 ^ 53 ≤ v := by
  have h1 : 53 < bitLength m := lt_bitLengthFrom m m 53 le_rfl h
  have h2 : 2 ^ (bitLength m - 1) ≤ m := pow_bitLengthFrom_le m m (by
    have : 0 < 2 ^ 53 := by norm_num
    omega)
  obtain ⟨e, he⟩ : ∃ e, bitLength m = 53 + (e + 1) := ⟨bitLength m - 54, by omega⟩
  have he1 : bitLength m - 53 = e + 1 := by omega
  have he2 : bitLength m - 1 = 52 + (e + 1) := by omega
  rw [he2, pow_add] at h2
  have hq : 2 ^ 52 ≤ m / 2 ^ (e + 1) :=
    (Nat.le_div_iff_mul_le (Nat.two_pow_pos _)).mpr h2
  have hpe : 2 ≤ 2 ^ (e + 1) := by
    have : 1 ≤ 2 ^ e := Nat.one_le_two_pow
    rw [pow_succ]
    omega
  rcases toNumber_cases m with hinf | ⟨q1, hq1, hint⟩
  · rw [hinf] at hv
    simp at hv
  · rw [hint, he1] at hv
    simp only [Num.int.injEq] at hv
    rw [he1] at hq1
    rw [← hv]
    calc 2 ^ 53 = 2 ^ 52 * 2 := by norm_num
      _ ≤ q1 * 2 ^ (e + 1) := Nat.mul_le_mul (le_trans hq hq1) hpe

theorem toNumber_eq_self (m x : Nat) (hx : x < 2 ^ 53) (h : toNumber m = .int x) : m = x := by
  by_cases hm : m < 2 ^ 53
  · rw [toNumber_of_lt m hm] at h
    simpa using h
  · have := toNumber_of_ge m x (by omega) h
    omega

theorem shortestAt_eq (x j m : Nat) (hx : x < 2 ^ 53) (h : shortestAt x j = some m) : m = x := by
  simp only [shortestAt] at h
  split at h
  · rename_i hboth
    simp only [Bool.and_eq_true, decide_eq_true_eq] at hboth
    simp only [Option.some.injEq] at h
    have h1 := toNumber_eq_self _ x hx hboth.1
    have h2 := toNumber_eq_self _ x hx hboth.2
    rw [← h]
    split <;> assumption
  · split at h
    · rename_i _ hlo
      simp only [decide_eq_true_eq] at hlo
      simp only [Option.some.injEq] at h
      rw [← h]
      exact toNumber_eq_self _ x hx hlo
    · split at h
      · rename_i _ _ hhi
        simp only [decide_eq_true_eq] at hhi
        simp only [Option.some.injEq] at h
        rw [← h]
        exact toNumber_eq_self _ x hx hhi
      · simp at h

theorem shortestFrom_eq (x : Nat) (hx : x < 2 ^ 53) (j : Nat) : shortestFrom x j = x := by
  induction j with
  | zero => rfl
  | succ j ih =>
    have hstep : shortestFrom x (j + 1)
        = (match shortestAt x (j + 1) with
          | some m => m
          | none => shortestFrom x j) := rfl
    rw [hstep]
    cases hm : shortestAt x (j + 1) with
    | none => exact ih
    | some m => exact shortestAt_eq x (j + 1) m hx hm

/-- A Number below `2 ^ 53` is written with its decimal digits. -/
theorem toStr_of_lt (x : Nat) (hx : x < 2 ^ 53) : (Num.int x).toStr = (Nat.repr x).toList := by
  have h21 : x < 10 ^ 21 := lt_trans hx (by norm_num)
  simp only [Num.toStr, shortestFrom_eq x hx]
  rw [if_pos h21]

/-- The number of an item up to `2 ^ 53 - 1` is incremented exactly. -/
theorem toStr_succ_parseInt (digits : Str) (h : parseDigits digits < 2 ^ 53) :
    (parseInt digits).succ.toStr = (Nat.repr (parseDigits digits + 1)).toList := by
  rw [parseInt, toNumber_of_lt _ h, Num.succ]
  by_cases h1 : parseDigits digits + 1 < 2 ^ 53
  · rw [toNumber_of_lt _ h1, toStr_of_lt _ h1]
  · have h2 : parseDigits digits + 1 = 9007199254740992 := by
      have : (2 : Nat) ^ 53 = 9007199254740992 := by norm_num
      omega
    rw [h2]
    decide

/-! ## lists.js: the continuation of a list at a newline -/

theorem findFrom_bol_some (r : Regex) (c : Char) (t : Str) :
    (Regex.seq (.bol false) r).findFrom (some c) t = none := by
  have he : ∀ (d : Char) (u : Str), (Regex.seq (.bol false) r).exec (some d) u = none :=
    fun d u => (exec_eq_none_iff _ _ _).mpr (by rw [run_seq_bol]; simp [lineStart])
  induction t generalizing c with
  | nil => simp [Regex.findFrom, he]
  | cons x t ih => simp [Regex.findFrom, he, ih]

/-- A pattern that starts with `^` (no `m` flag) is only tried at the start. -/
theorem find_bol (r : Regex) (t : Str) :
    (Regex.seq (.bol false) r).find t = (Regex.seq (.bol false) r).exec none t := by
  cases t with
  | nil => rfl
  | cons x t =>
    simp only [Regex.find, Regex.findFrom]
    cases h : (Regex.seq (.bol false) r).exec none (x :: t) with
    | none => simp [findFrom_bol_some]
    | some m => rfl

theorem find_of_heads (r : Regex) (t : Str) (p : Option Char) (caps : List (Nat × Str))
    (h : Heads (.seq (.bol false) r) { prev := none, rest := t, caps := [] }
      { prev := p, rest := [], caps := caps }) :
    (Regex.seq (.bol false) r).find t = some { text := t, caps := caps } := by
  rw [find_bol, exec_of_heads _ _ _ _ h]
  simp

theorem splitLines_append_newline_shape (a l : Str) :
    ∃ ls, ls ≠ [] ∧ splitLines (a ++ '\n' :: l) = ls ++ splitLines l := by
  induction a with
  | nil => exact ⟨[[]], by simp, by simp [splitLines]⟩
  | cons c a ih =>
    obtain ⟨ls, hne, h⟩ := ih
    by_cases hc : c = '\n'
    · subst hc
      exact ⟨[] :: ls, by simp, by simp [splitLines, h]⟩
    · obtain ⟨l0, ls0, rfl⟩ := List.exists_cons_of_ne_nil hne
      have hc2 : (c == '\n') = false := by simpa using hc
      exact ⟨(c :: l0) :: ls0, by simp, by simp [splitLines, hc2, h]⟩

/-- The current line: the text after the last newline before the cursor. -/
theorem getLastD_splitLines (before line : Str) (hb : ∀ c ∈ before.getLast?, c = '\n')
    (hl : ∀ x ∈ line, x ≠ '\n') : (splitLines (before ++ line)).getLastD [] = line := by
  rcases List.eq_nil_or_concat before with rfl | ⟨b, c, rfl⟩
  · simp [splitLines_of_no_newline line hl]
  · have hc : c = '\n' := hb c (by simp [List.concat_eq_append])
    subst hc
    obtain ⟨ls, _, h⟩ := splitLines_append_newline_shape b line
    simp only [List.concat_eq_append, List.append_assoc, List.singleton_append]
    rw [h, splitLines_of_no_newline line hl]
    simp

theorem substring_initial (u v : Str) : substring (u ++ v) 0 u.length = u := by
  simp [substring]

theorem trim_ne_nil (c : Str) (hne : c ≠ []) (h0 : ∀ x ∈ c.head?, isSpace x = false) :
    (trim c).isEmpty = false := by
  obtain ⟨x, t, rfl⟩ := List.exists_cons_of_ne_nil hne
  have hx : isSpace x = false := h0 x (by simp)
  have h1 : (x :: t).dropWhile isSpace = x :: t := by simp [List.dropWhile, hx]
  have h2 : ((x :: t).reverse.dropWhile isSpace) ≠ [] := by
    intro h
    have := List.dropWhile_eq_nil_iff.mp h x (by simp)
    simp [hx] at this
  simp only [trim, h1]
  cases h3 : List.dropWhile isSpace (x :: t).reverse with
  | nil => exact absurd h3 h2
  | cons y u => simp

/-- The end of both continuation patterns: `\s+` reads the white space after
the marker, `(.*)` the content, and `$` holds at the end of the line. -/
theorem heads_tail_content (p : Option Char) (ws content : Str) (caps : List (Nat × Str))
    (hws : ws ≠ []) (hsp : ∀ x ∈ ws, isSpace x = true)
    (hc0 : ∀ x ∈ content.head?, isSpace x = false)
    (hcl : ∀ x ∈ content, isLineTerminator x = false) :
    ∃ q, Heads (.seq (Regex.plus (.char isSpace))
        (.seq (.group 3 (.star true (.char isDot))) (.eol false)))
      { prev := p, rest := ws ++ content, caps := caps }
      { prev := q, rest := [], caps := (3, content) :: caps } := by
  have h4 := heads_plus_char isSpace p ws content caps hws hsp (by
    intro y t h
    exact hc0 y (by simp [h]))
  have h5 := heads_star_char isDot (prevAfter p ws) content [] caps
    (fun x hx => by simp [isDot, hcl x hx]) (by simp)
  have h5g : Heads (.group 3 (.star true (.char isDot)))
      { prev := prevAfter p ws, rest := content, caps := caps }
      { prev := prevAfter (prevAfter p ws) content, rest := [], caps := (3, content) :: caps } := by
    have := Heads.group 3 h5
    simpa using this
  exact ⟨_, Heads.seq h4 (Heads.seq h5g (heads_eol_nil _ _ _))⟩

theorem heads_indent (indent suf : Str) (hindent : ∀ x ∈ indent, isSpace x = true)
    (hsuf : ∀ y t, suf = y :: t → isSpace y = false) :
    Heads (.group 1 (.star true (.char isSpace)))
      { prev := none, rest := indent ++ suf, caps := [] }
      { prev := prevAfter none indent, rest := suf, caps := [(1, indent)] } := by
  have h1 := Heads.group 1 (heads_star_char isSpace none indent suf [] hindent hsuf)
  simpa only [take_sub_length] using h1

/-- An ordered item line of the editor: the pattern of lists.js 202 matches
the whole line and captures the indentation, the digits and the content. -/
theorem find_orderedContinuation (indent digits ws content : Str)
    (hindent : ∀ x ∈ indent, isSpace x = true) (hd : ItemNumber digits)
    (hws : ws ≠ []) (hsp : ∀ x ∈ ws, isSpace x = true)
    (hc0 : ∀ x ∈ content.head?, isSpace x = false)
    (hcl : ∀ x ∈ content, isLineTerminator x = false) :
    orderedContinuationRegex.find (indent ++ (digits ++ ['.']) ++ ws ++ content)
      = some { text := indent ++ (digits ++ ['.']) ++ ws ++ content,
               caps := [(3, content), (2, digits), (1, indent)] } := by
  obtain ⟨d, n1, rfl⟩ := List.exists_cons_of_ne_nil hd.1
  have hdd : isDigit d = true := hd.2 d (List.mem_cons_self _ _)
  have h1 := heads_indent indent ((d :: n1) ++ '.' :: (ws ++ content)) hindent (by
    intro y t h
    simp only [List.cons_append, List.cons.injEq] at h
    obtain ⟨rfl, _⟩ := h
    exact isSpace_false_of_digit _ hdd)
  have h2 := Heads.group 2 (heads_plus_char isDigit (prevAfter none indent) (d :: n1)
    ('.' :: (ws ++ content)) [(1, indent)] (by simp) hd.2 (by
      intro y t h
      simp only [List.cons.injEq] at h
      obtain ⟨rfl, _⟩ := h
      decide))
  simp only [take_sub_length] at h2
  obtain ⟨q, h3⟩ := heads_tail_content (some '.') ws content [(2, d :: n1), (1, indent)]
    hws hsp hc0 hcl
  have h := Heads.seq (heads_bol_none false _ _) (Heads.seq h1 (Heads.seq h2
    (Heads.seq (heads_lit '.' _ _ _) h3)))
  have hf := find_of_heads _ _ _ _ h
  simpa [orderedContinuationRegex, Regex.cat] using hf

/-- An unordered item line of the editor: the pattern of lists.js 234 matches
the whole line and captures the indentation, the bullet and the content. -/
theorem find_unorderedContinuation (indent : Str) (b : Char) (ws content : Str)
    (hindent : ∀ x ∈ indent, isSpace x = true) (hb : isBullet b = true)
    (hws : ws ≠ []) (hsp : ∀ x ∈ ws, isSpace x = true)
    (hc0 : ∀ x ∈ content.head?, isSpace x = false)
    (hcl : ∀ x ∈ content, isLineTerminator x = false) :
    unorderedContinuationRegex.find (indent ++ [b] ++ ws ++ content)
      = some { text := indent ++ [b] ++ ws ++ content,
               caps := [(3, content), (2, [b]), (1, indent)] } := by
  have hbs : isSpace b = false := by
    simp only [isBullet, Bool.or_eq_true, beq_iff_eq] at hb
    rcases hb with (rfl | rfl) | rfl <;> decide
  have h1 := heads_indent indent (b :: (ws ++ content)) hindent (by
    intro y t h
    simp only [List.cons.injEq] at h
    obtain ⟨rfl, _⟩ := h
    exact hbs)
  have h2 : Heads (.group 2 (.char (fun c => c == '-' || c == '*' || c == '+')))
      { prev := prevAfter none indent, rest := b :: (ws ++ content), caps := [(1, indent)] }
      { prev := some b, rest := ws ++ content, caps := [(2, [b]), (1, indent)] } := by
    have hb2 : (b == '-' || b == '*' || b == '+') = true := hb
    exact ⟨[], by simp [Regex.run, hb2]⟩
  obtain ⟨q, h3⟩ := heads_tail_content (some b) ws content [(2, [b]), (1, indent)]
    hws hsp hc0 hcl
  have h := Heads.seq (heads_bol_none false _ _) (Heads.seq h1 (Heads.seq h2 h3))
  have hf := find_of_heads _ _ _ _ h
  simpa [unorderedContinuationRegex, Regex.cat] using hf

/-- A bullet line is not an ordered item: after the indentation, however much
of it the pattern gives back, there is no digit. -/
theorem find_ordered_of_bullet (indent : Str) (b : Char) (rest : Str)
    (hindent : ∀ x ∈ indent, isSpace x = true) (hb : isBullet b = true) :
    orderedContinuationRegex.find (indent ++ [b] ++ rest) = none := by
  have hbd : isDigit b = false := by
    simp only [isBullet, Bool.or_eq_true, beq_iff_eq] at hb
    rcases hb with (rfl | rfl) | rfl <;> decide
  have hbs : isSpace b = false := by
    simp only [isBullet, Bool.or_eq_true, beq_iff_eq] at hb
    rcases hb with (rfl | rfl) | rfl <;> decide
  have hrun : (Regex.star true (.char isSpace)).run
      { prev := none, rest := indent ++ (b :: rest), caps := [] }
      = unwind [] none indent (b :: rest) := by
    rw [run_star]
    exact starRun_greedy_char isSpace none indent (b :: rest) [] hindent (by
      intro y t h
      simp only [List.cons.injEq] at h
      obtain ⟨rfl, _⟩ := h
      exact hbs)
  have hnd : ∀ y, y ∈ indent ∨ y = b → isDigit y = false := by
    rintro y (hy | rfl)
    · cases hyd : isDigit y with
      | false => rfl
      | true =>
        have := isSpace_false_of_digit y hyd
        rw [hindent y hy] at this
        exact absurd this (by simp)
    · exact hbd
  simp only [orderedContinuationRegex, Regex.cat]
  rw [find_bol, exec_eq_none_iff, run_seq_bol]
  simp only [lineStart, if_true, List.append_assoc, List.singleton_append, run_seq, run_group,
    hrun, List.flatMap_eq_nil_iff, List.mem_map, forall_exists_index, and_imp]
  intro s1 s hs hs1
  obtain ⟨y, u, hyu, hy⟩ := unwind_rest_head [] none indent b rest s hs
  subst hs1
  simp [Regex.plus, Regex.run, hyu, hnd y hy]

theorem isDigit_ne_newline (x : Char) (h : isDigit x = true) : x ≠ '\n' := by
  rintro rfl
  exact absurd h (by decide)

theorem isBullet_ne_newline (b : Char) (h : isBullet b = true) : b ≠ '\n' := by
  rintro rfl
  exact absurd h (by decide)

/-- What the handler reads: the text before the cursor and its last line. -/
theorem currentLine_eq (before line after : Str) (hb : ∀ c ∈ before.getLast?, c = '\n')
    (hl : ∀ x ∈ line, x ≠ '\n') :
    (splitLines (substring (before ++ line ++ after) 0 (before ++ line).length)).getLastD []
      = line := by
  rw [substring_initial, getLastD_splitLines before line hb hl]

/-- The textarea after an insertion at the cursor. -/
theorem setSelectionRange_insert (u ins v : Str) :
    setSelectionRange (substring (u ++ v) 0 u.length ++ ins ++ (u ++ v).drop u.length)
        (u.length + ins.length) (u.length + ins.length)
      = { value := u ++ ins ++ v, selectionStart := (u ++ ins).length,
          selectionEnd := (u ++ ins).length } := by
  rw [substring_initial, List.drop_left]
  simp [setSelectionRange]

/-- The textarea after the deletion of the current line. -/
theorem setSelectionRange_delete (before line after : Str) :
    setSelectionRange
        (substring (before ++ line ++ after) 0 ((before ++ line).length - line.length)
          ++ (before ++ line ++ after).drop (before ++ line).length)
        ((before ++ line).length - line.length) ((before ++ line).length - line.length)
      = { value := before ++ after, selectionStart := before.length,
          selectionEnd := before.length } := by
  have h1 : (before ++ line).length - line.length = before.length := by simp
  rw [h1, List.drop_left, List.append_assoc, substring_initial]
  simp [setSelectionRange]

/-- The ordered branch of the handler, once the current line and its match
are known. -/
theorem handleListContinuation_ordered (u v line : Str) (selectionEnd : Nat) (m : Match)
    (hline : (splitLines (substring (u ++ v) 0 u.length)).getLastD [] = line)
    (hfind : orderedContinuationRegex.find line = some m) :
    handleListContinuation { value := u ++ v, selectionStart := u.length,
                             selectionEnd := selectionEnd }
      = if (trim (m.cap 3)).isEmpty then
          { textarea := setSelectionRange
              (substring (u ++ v) 0 (u.length - line.length) ++ (u ++ v).drop u.length)
              (u.length - line.length) (u.length - line.length)
            defaultPrevented := true }
        else
          { textarea := setSelectionRange
              (substring (u ++ v) 0 u.length
                ++ ('\n' :: (m.cap 1 ++ (parseInt (m.cap 2)).succ.toStr ++ ". ".toList))
                ++ (u ++ v).drop u.length)
              (u.length + ('\n' :: (m.cap 1 ++ (parseInt (m.cap 2)).succ.toStr
                ++ ". ".toList)).length)
              (u.length + ('\n' :: (m.cap 1 ++ (parseInt (m.cap 2)).succ.toStr
                ++ ". ".toList)).length)
            defaultPrevented := true } := by
  simp only [handleListContinuation, hline, hfind]

/-- The unordered branch of the handler, once the current line and its match
are known. -/
theorem handleListContinuation_unordered (u v line : Str) (selectionEnd : Nat) (m : Match)
    (hline : (splitLines (substring (u ++ v) 0 u.length)).getLastD [] = line)
    (hnone : orderedContinuationRegex.find line = none)
    (hfind : unorderedContinuationRegex.find line = some m) :
    handleListContinuation { value := u ++ v, selectionStart := u.length,
                             selectionEnd := selectionEnd }
      = if (trim (m.cap 3)).isEmpty then
          { textarea := setSelectionRange
              (substring (u ++ v) 0 (u.length - line.length) ++ (u ++ v).drop u.length)
              (u.length - line.length) (u.length - line.length)
            defaultPrevented := true }
        else
          { textarea := setSelectionRange
              (substring (u ++ v) 0 u.length
                ++ ('\n' :: (m.cap 1 ++ m.cap 2 ++ " ".toList))
                ++ (u ++ v).drop u.length)
              (u.length + ('\n' :: (m.cap 1 ++ m.cap 2 ++ " ".toList)).length)
              (u.length + ('\n' :: (m.cap 1 ++ m.cap 2 ++ " ".toList)).length)
            defaultPrevented := true } := by
  simp only [handleListContinuation, hline, hnone, hfind]

theorem cap_three (t c d i : Str) :
    (Match.mk t [(3, c), (2, d), (1, i)]).cap 3 = c
      ∧ (Match.mk t [(3, c), (2, d), (1, i)]).cap 2 = d
      ∧ (Match.mk t [(3, c), (2, d), (1, i)]).cap 1 = i :=
  ⟨rfl, rfl, rfl⟩

/-- C11 (amended): at a newline typed at the end of an item line with content,
the handler cancels the default newline and inserts, at the cursor, a newline,
the indentation of the line, the next marker and a space, and puts the cursor
after them; the next marker is the number plus one and a dot for an ordered
item whose number is below `2 ^ 53`, and the same bullet for an unordered item.
The current line is `indent ++ marker ++ ws ++ content`, after a text `before`
that is empty or ends with a newline. -/
theorem handleListContinuation_continues
    (before indent marker next ws content after : Str) (selectionEnd : Nat)
    (hbefore : ∀ c ∈ before.getLast?, c = '\n')
    (hindent : ∀ x ∈ indent, isSpace x = true ∧ x ≠ '\n')
    (hmarker : Continues marker next) (hws : Blanks ws) (hcontent : LineContent content) :
    handleListContinuation
        { value := before ++ (indent ++ marker ++ ws ++ content) ++ after
          selectionStart := (before ++ (indent ++ marker ++ ws ++ content)).length
          selectionEnd := selectionEnd }
      = { textarea :=
            { value := before ++ (indent ++ marker ++ ws ++ content)
                ++ ('\n' :: (indent ++ next ++ [' '])) ++ after
              selectionStart := (before ++ (indent ++ marker ++ ws ++ content)
                ++ ('\n' :: (indent ++ next ++ [' ']))).length
              selectionEnd := (before ++ (indent ++ marker ++ ws ++ content)
                ++ ('\n' :: (indent ++ next ++ [' ']))).length }
          defaultPrevented := true } := by
  have hi : ∀ x ∈ indent, isSpace x = true := fun x hx => (hindent x hx).1
  have hsp : ∀ x ∈ ws, isSpace x = true := fun x hx => (hws.2 x hx).1
  have htrim : (trim content).isEmpty = false := trim_ne_nil content hcontent.1 hcontent.2.1
  have hcn : ∀ x ∈ content, x ≠ '\n' := by
    rintro x hx rfl
    exact absurd (hcontent.2.2 _ hx) (by decide)
  rcases hmarker with ⟨digits, hd, hlt, rfl, rfl⟩ | ⟨b, hb, rfl, rfl⟩
  · have hline : ∀ x ∈ indent ++ (digits ++ ['.']) ++ ws ++ content, x ≠ '\n' := by
      intro x hx
      simp only [List.mem_append, List.mem_singleton] at hx
      rcases hx with ((hx | hx | rfl) | hx) | hx
      · exact (hindent x hx).2
      · exact isDigit_ne_newline x (hd.2 x hx)
      · decide
      · exact (hws.2 x hx).2
      · exact hcn x hx
    have hfind := find_orderedContinuation indent digits ws content hi hd hws.1 hsp
      hcontent.2.1 hcontent.2.2
    have hnum := toStr_succ_parseInt digits hlt
    rw [handleListContinuation_ordered _ after _ selectionEnd _
      (currentLine_eq before _ after hbefore hline) hfind]
    simp only [cap_three, htrim, hnum, Bool.false_eq_true, if_false]
    rw [setSelectionRange_insert]
    simp
  · have hline : ∀ x ∈ indent ++ [b] ++ ws ++ content, x ≠ '\n' := by
      intro x hx
      simp only [List.mem_append, List.mem_singleton] at hx
      rcases hx with ((hx | rfl) | hx) | hx
      · exact (hindent x hx).2
      · exact isBullet_ne_newline x hb
      · exact (hws.2 x hx).2
      · exact hcn x hx
    have hnone : orderedContinuationRegex.find (indent ++ [b] ++ ws ++ content) = none := by
      have := find_ordered_of_bullet indent b (ws ++ content) hi hb
      simpa using this
    have hfind := find_unorderedContinuation indent b ws content hi hb hws.1 hsp
      hcontent.2.1 hcontent.2.2
    rw [handleListContinuation_unordered _ after _ selectionEnd _
      (currentLine_eq before _ after hbefore hline) hnone hfind]
    simp only [cap_three, htrim, Bool.false_eq_true, if_false]
    rw [setSelectionRange_insert]
    simp

theorem handleListContinuation_continues_witness :
    handleListContinuation
        { value := "3. item".toList, selectionStart := 7, selectionEnd := 7 }
      = { textarea := { value := "3. item\n4. ".toList, selectionStart := 11,
                        selectionEnd := 11 }
          defaultPrevented := true } :=
  handleListContinuation_continues [] [] "3.".toList "4.".toList " ".toList "item".toList [] 7
    (by simp) (by simp)
    (Or.inl ⟨"3".toList, ⟨by simp, by decide⟩, by decide, rfl, rfl⟩)
    ⟨by simp, by decide⟩ ⟨by simp, by decide, by decide⟩

/-- C11, as stated, fails for the item number `2 ^ 53`: the sum
`9007199254740992 + 1` of Numbers is `9007199254740992` again, so the inserted
marker repeats the number instead of showing the number plus one. -/
theorem handleListContinuation_continues_counterexample :
    (handleListContinuation
        { value := "9007199254740992. a".toList, selectionStart := 19,
          selectionEnd := 19 }).textarea.value
      = "9007199254740992. a\n9007199254740992. ".toList
    ∧ (handleListContinuation
        { value := "9007199254740992. a".toList, selectionStart := 19,
          selectionEnd := 19 }).textarea.value
      ≠ "9007199254740992. a".toList ++ '\n'
          :: ((Nat.repr (parseDigits "9007199254740992".toList + 1)).toList ++ ". ".toList) := by
  decide

/-- C12: at a newline typed at the end of an item line without content (an
indentation, a marker and white space), the handler cancels the default
newline, deletes the characters of that line and puts the cursor where the
line began: with the cursor at offset `p` and a current line of length `len`,
the new text is `text[0..p-len] ++ text[p..]`, that is the text before the
line followed by the text after the cursor. -/
theorem handleListContinuation_empty_item
    (before indent marker ws after : Str) (selectionEnd : Nat)
    (hbefore : ∀ c ∈ before.getLast?, c = '\n')
    (hindent : ∀ x ∈ indent, isSpace x = true ∧ x ≠ '\n')
    (hmarker : IsMarker marker) (hws : Blanks ws) :
    handleListContinuation
        { value := before ++ (indent ++ marker ++ ws) ++ after
          selectionStart := (before ++ (indent ++ marker ++ ws)).length
          selectionEnd := selectionEnd }
      = { textarea := { value := before ++ after, selectionStart := before.length,
                        selectionEnd := before.length }
          defaultPrevented := true }
    ∧ before ++ after
      = (before ++ (indent ++ marker ++ ws) ++ after).take
          ((before ++ (indent ++ marker ++ ws)).length - (indent ++ marker ++ ws).length)
        ++ (before ++ (indent ++ marker ++ ws) ++ after).drop
          (before ++ (indent ++ marker ++ ws)).length
    ∧ before.length
      = (before ++ (indent ++ marker ++ ws)).length - (indent ++ marker ++ ws).length := by
  have hi : ∀ x ∈ indent, isSpace x = true := fun x hx => (hindent x hx).1
  have hsp : ∀ x ∈ ws, isSpace x = true := fun x hx => (hws.2 x hx).1
  have hlen : (before ++ (indent ++ marker ++ ws)).length - (indent ++ marker ++ ws).length
      = before.length := by simp
  refine ⟨?_, ?_, hlen.symm⟩
  · rcases hmarker with ⟨digits, hd, rfl⟩ | ⟨b, hb, rfl⟩
    · have hline : ∀ x ∈ indent ++ (digits ++ ['.']) ++ ws, x ≠ '\n' := by
        intro x hx
        simp only [List.mem_append, List.mem_singleton] at hx
        rcases hx with (hx | hx | rfl) | hx
        · exact (hindent x hx).2
        · exact isDigit_ne_newline x (hd.2 x hx)
        · decide
        · exact (hws.2 x hx).2
      have hfind := find_orderedContinuation indent digits ws [] hi hd hws.1 hsp
        (by simp) (by simp)
      rw [List.append_nil] at hfind
      rw [handleListContinuation_ordered _ after _ selectionEnd _
        (currentLine_eq before _ after hbefore hline) hfind]
      have htrim : (trim ([] : Str)).isEmpty = true := rfl
      simp only [cap_three, htrim, if_true]
      rw [setSelectionRange_delete]
    · have hline : ∀ x ∈ indent ++ [b] ++ ws, x ≠ '\n' := by
        intro x hx
        simp only [List.mem_append, List.mem_singleton] at hx
        rcases hx with (hx | rfl) | hx
        · exact (hindent x hx).2
        · exact isBullet_ne_newline x hb
        · exact (hws.2 x hx).2
      have hnone : orderedContinuationRegex.find (indent ++ [b] ++ ws) = none :=
        find_ordered_of_bullet indent b ws hi hb
      have hfind := find_unorderedContinuation indent b ws [] hi hb hws.1 hsp
        (by simp) (by simp)
      rw [List.append_nil] at hfind
      rw [handleListContinuation_unordered _ after _ selectionEnd _
        (currentLine_eq before _ after hbefore hline) hnone hfind]
      have htrim : (trim ([] : Str)).isEmpty = true := rfl
      simp only [cap_three, htrim, if_true]
      rw [setSelectionRange_delete]
  · rw [hlen, List.drop_left, List.append_assoc, List.take_left]

theorem handleListContinuation_empty_item_witness :
    handleListContinuation
        { value := "x\n  - \nrest".toList, selectionStart := 6, selectionEnd := 6 }
      = { textarea := { value := "x\n\nrest".toList, selectionStart := 2, selectionEnd := 2 }
          defaultPrevented := true } :=
  (handleListContinuation_empty_item "x\n".toList "  ".toList "-".toList " ".toList
    "\nrest".toList 6 (by simp) (by decide)
    (Or.inr ⟨'-', by decide, rfl⟩) ⟨by simp, by decide⟩).1

/-! ## The matcher only moves forward -/

theorem starRun_consumes (g : Bool) (f : MState → List MState)
    (hf : ∀ s s1, s1 ∈ f s → ∃ w, s.rest = w ++ s1.rest) :
    ∀ n s s1, s1 ∈ starRun g f n s → ∃ w, s.rest = w ++ s1.rest := by
  intro n
  induction n with
  | zero =>
    intro s s1 h
    simp only [starRun, List.mem_singleton] at h
    subst h
    exact ⟨[], rfl⟩
  | succ n ih =>
    intro s s1 h
    have hcases : s1 = s ∨ s1 ∈ ((f s).filter
        (fun s2 => s2.rest.length < s.rest.length)).flatMap (starRun g f n) := by
      cases g <;> simp [starRun] at h ⊢ <;> tauto
    rcases hcases with rfl | hmore
    · exact ⟨[], rfl⟩
    · obtain ⟨s2, hs2, h2⟩ := List.mem_flatMap.mp hmore
      obtain ⟨w1, hw1⟩ := hf s s2 (List.mem_filter.mp hs2).1
      obtain ⟨w2, hw2⟩ := ih s2 s1 h2
      exact ⟨w1 ++ w2, by rw [hw1, hw2, List.append_assoc]⟩

/-- Every way a pattern matches ends at a later position of the same input:
the state reached has a suffix of the input left to read. -/
theorem run_consumes (r : Regex) : ∀ s s1, s1 ∈ r.run s → ∃ w, s.rest = w ++ s1.rest := by
  induction r with
  | empty =>
    intro s s1 h
    simp only [Regex.run, List.mem_singleton] at h
    subst h
    exact ⟨[], rfl⟩
  | char p =>
    intro s s1 h
    obtain ⟨pv, rest, caps⟩ := s
    cases rest with
    | nil => simp [Regex.run] at h
    | cons c cs =>
      by_cases hp : p c = true
      · simp only [Regex.run, hp, if_true, List.mem_singleton] at h
        subst h
        exact ⟨[c], rfl⟩
      · simp [Regex.run, hp] at h
  | seq a b iha ihb =>
    intro s s1 h
    obtain ⟨s2, hs2, h2⟩ := List.mem_flatMap.mp (by simpa [Regex.run] using h)
    obtain ⟨w1, hw1⟩ := iha s s2 hs2
    obtain ⟨w2, hw2⟩ := ihb s2 s1 h2
    exact ⟨w1 ++ w2, by rw [hw1, hw2, List.append_assoc]⟩
  | alt a b iha ihb =>
    intro s s1 h
    rcases List.mem_append.mp (by simpa [Regex.run] using h) with h | h
    · exact iha s s1 h
    · exact ihb s s1 h
  | star g r ih =>
    intro s s1 h
    exact starRun_consumes g r.run ih _ s s1 h
  | group i r ih =>
    intro s s1 h
    rw [run_group] at h
    obtain ⟨s2, hs2, rfl⟩ := List.mem_map.mp h
    exact ih s s2 hs2
  | bol m =>
    intro s s1 h
    rw [run_bol] at h
    split at h
    · simp only [List.mem_singleton] at h
      subst h
      exact ⟨[], rfl⟩
    · simp at h
  | eol m =>
    intro s s1 h
    obtain ⟨pv, rest, caps⟩ := s
    cases rest with
    | nil =>
      simp only [Regex.run, List.mem_singleton] at h
      subst h
      exact ⟨[], rfl⟩
    | cons c cs =>
      by_cases hc : (m && isLineTerminator c) = true
      · simp only [Regex.run, hc, if_true, List.mem_singleton] at h
        subst h
        exact ⟨[], rfl⟩
      · simp [Regex.run, hc] at h
  | notAhead r _ =>
    intro s s1 h
    by_cases he : (r.run s).isEmpty = true
    · simp only [Regex.run, he, if_true, List.mem_singleton] at h
      subst h
      exact ⟨[], rfl⟩
    · simp [Regex.run, he] at h

/-- A literal string matches only what it spells. -/
theorem run_str_mem (w : Str) (s s1 : MState) (h : s1 ∈ (Regex.str w).run s) :
    s.rest = w ++ s1.rest := by
  obtain ⟨pv, rest, caps⟩ := s
  by_cases hp : w <+: rest
  · obtain ⟨t, rfl⟩ := hp
    rw [run_str_append] at h
    simp only [List.mem_singleton] at h
    subst h
    rfl
  · rw [ run_str_of_not_prefix w rest pv caps hp] at h
    simp at h

theorem mem_run_seq (a b : Regex) (s s1 : MState) (h : s1 ∈ (Regex.seq a b).run s) :
    ∃ s2, s2 ∈ a.run s ∧ s1 ∈ b.run s2 := by
  obtain ⟨s2, hs2, h2⟩ := List.mem_flatMap.mp (by simpa [Regex.run] using h)
  exact ⟨s2, hs2, h2⟩

theorem run_ends_str (w : Str) (s s1 : MState) (h : s1 ∈ (Regex.str w).run s) :
    ∃ u, s.rest = u ++ w ++ s1.rest :=
  ⟨[], by simpa using run_str_mem w s s1 h⟩

theorem run_ends_seq (a b : Regex) (w : Str)
    (hb : ∀ s s1, s1 ∈ b.run s → ∃ u, s.rest = u ++ w ++ s1.rest) (s s1 : MState)
    (h : s1 ∈ (Regex.seq a b).run s) : ∃ u, s.rest = u ++ w ++ s1.rest := by
  obtain ⟨s2, hs2, h2⟩ := mem_run_seq a b s s1 h
  obtain ⟨u1, hu1⟩ := run_consumes a s s2 hs2
  obtain ⟨u2, hu2⟩ := hb s2 s1 h2
  exact ⟨u1 ++ u2, by rw [hu1, hu2]; simp⟩

/-- A match of a pattern whose every match ends with the string `w` ends
with `w`. -/
theorem exec_ends (r : Regex) (w : Str)
    (hr : ∀ s s1, s1 ∈ r.run s → ∃ u, s.rest = u ++ w ++ s1.rest)
    (p : Option Char) (t : Str) (m : Match) (h : r.exec p t = some m) :
    ∃ u, m.text = u ++ w := by
  unfold Regex.exec at h
  split at h
  · simp at h
  · rename_i s tl hrun
    simp only [Option.some.injEq] at h
    have hs : s ∈ r.run { prev := p, rest := t, caps := [] } := by
      rw [hrun]; exact List.mem_cons_self _ _
    obtain ⟨u, hu⟩ := hr _ s hs
    simp only at hu
    refine ⟨u, ?_⟩
    rw [← h]
    simp only
    rw [hu, take_sub_length]

/-- Every match that a scan reports is the result of a match attempt. -/
theorem hits_scan_exec (r : Regex) (t : Str) : ∀ (k : Nat) (p : Option Char),
    ∀ m ∈ hits (r.scan k p t), ∃ q u, r.exec q u = some m := by
  induction t with
  | nil =>
    intro k p m hm
    cases he : r.exec p [] with
    | none => simp [Regex.scan, he, hits] at hm
    | some m1 =>
      simp only [Regex.scan, he, hits, List.mem_singleton] at hm
      subst hm
      exact ⟨p, [], he⟩
  | cons c cs ih =>
    intro k p m hm
    cases k with
    | succ k => exact ih k (some c) m (by simpa [Regex.scan] using hm)
    | zero =>
      cases he : r.exec p (c :: cs) with
      | none => exact ih 0 (some c) m (by simpa [Regex.scan, he, hits] using hm)
      | some m1 =>
        simp only [Regex.scan, he, hits, List.mem_cons] at hm
        rcases hm with rfl | hm
        · exact ⟨p, c :: cs, he⟩
        · split at hm
          · exact ih 0 (some c) m (by simpa [hits] using hm)
          · exact ih _ (some c) m hm

theorem hitsAt_map_snd (segs : List Seg) : ∀ i, (hitsAt i segs).map Prod.snd = hits segs := by
  induction segs with
  | nil => intro i; rfl
  | cons seg segs ih =>
    intro i
    cases seg with
    | lit c => simpa [hitsAt, hits] using ih (i + 1)
    | hit m => simpa [hitsAt, hits] using ih (i + m.text.length)

/-! ## block.js: the code detector -/

/-- Every match of the fence pattern ends with a closing fence. -/
theorem codeBlockRegex_ends (s s1 : MState) (h : s1 ∈ codeBlockRegex.run s) :
    ∃ u, s.rest = u ++ "```".toList ++ s1.rest := by
  simp only [codeBlockRegex, Regex.cat] at h
  exact run_ends_seq _ _ _ (run_ends_seq _ _ _ (run_ends_seq _ _ _
    (run_ends_seq _ _ _ (run_ends_str _)))) s s1 h

theorem detectBlock_isComplete (text : Str) :
    ∀ b ∈ (createCodeDetector text).blocks, b.isComplete = true := by
  intro b hb
  simp only [createCodeDetector, List.mem_map] at hb
  obtain ⟨⟨i, m⟩, him, rfl⟩ := hb
  have hm : m ∈ hits (codeBlockRegex.scan 0 none text) := by
    rw [← hitsAt_map_snd _ 0]
    exact List.mem_map.mpr ⟨(i, m), him, rfl⟩
  obtain ⟨q, u, he⟩ := hits_scan_exec codeBlockRegex text 0 none m hm
  obtain ⟨v, hv⟩ := exec_ends codeBlockRegex _ codeBlockRegex_ends q u m he
  simp only [detectBlock]
  rw [endsWith_iff, hv]
  exact List.suffix_append _ _

/-- C13: the code detector never reports an unterminated fence. For every
text, each detected block has `isComplete` true and `hasIncompleteBlocks` is
false, because the fence pattern only matches with the closing fence present.
On the text of the claim, with the opening fence and no closing fence, the
detector returns no block at all; with the closing fence it returns the one
complete block. -/
theorem createCodeDetector_never_incomplete :
    (∀ text, (createCodeDetector text).hasIncompleteBlocks = false
      ∧ ∀ b ∈ (createCodeDetector text).blocks, b.isComplete = true)
    ∧ createCodeDetector "```js\nconst x = 1;\n".toList
      = { blocks := [], count := 0, hasIncompleteBlocks := false }
    ∧ createCodeDetector "```js\nconst x = 1;\n```".toList
      = { blocks := [{ fullMatch := "```js\nconst x = 1;\n```".toList, language := "js".toList,
                       content := "const x = 1;".toList, startIndex := 0, endIndex := 22,
                       isComplete := true }],
          count := 1, hasIncompleteBlocks := false } := by
  refine ⟨fun text => ⟨?_, detectBlock_isComplete text⟩, by decide, by decide⟩
  have h := detectBlock_isComplete text
  have h2 : (createCodeDetector text).hasIncompleteBlocks
      = (createCodeDetector text).blocks.any (fun block => !block.isComplete) := rfl
  rw [h2, List.any_eq_false]
  intro b hb
  simp [h b hb]

/-! ## block.js: the records of the multi-code processor -/

theorem recordBlocks_length (transformer : Str → Str → Transformed) (text : Str)
    (ms : List Match) : ∀ k, (recordBlocks transformer text k ms).length = ms.length := by
  induction ms with
  | nil => intro k; rfl
  | cons m ms ih => intro k; simp [recordBlocks, ih]

theorem recordBlocks_index (transformer : Str → Str → Transformed) (text : Str)
    (ms : List Match) :
    ∀ k, (recordBlocks transformer text k ms).map (fun b => b.index)
      = List.range' k ms.length := by
  induction ms with
  | nil => intro k; rfl
  | cons m ms ih => intro k; simp [recordBlocks, ih, List.range']

/-- C15: the records of the multi-code processor are numbered 0, 1, ... in
order and `totalBlocks` is their number, for every text and transformer; but
`position` is the offset of the first occurrence of the block's text in the
input, not the offset of the block: on two equal blocks, at offsets 0 and 8,
both records have position 0. -/
theorem createMultiCodeProcessor_positions :
    (∀ (transformer : Str → Str → Transformed) (text : Str),
      (createMultiCodeProcessor transformer text).totalBlocks
          = (createMultiCodeProcessor transformer text).codeBlocks.length
        ∧ (createMultiCodeProcessor transformer text).codeBlocks.map (fun b => b.index)
          = List.range (createMultiCodeProcessor transformer text).totalBlocks)
    ∧ (createMultiCodeProcessor transformCodeBlock "```a```\n```a```".toList).codeBlocks.map
        (fun b => (b.index, b.original, b.position))
      = [(0, "```a```".toList, 0), (1, "```a```".toList, 0)]
    ∧ (hitsAt 0 (codeBlockRegex.scan 0 none "```a```\n```a```".toList)).map
        (fun im => (im.1, im.2.text))
      = [(0, "```a```".toList), (8, "```a```".toList)] := by
  refine ⟨fun transformer text => ⟨?_, ?_⟩, by decide, by decide⟩
  · simp [createMultiCodeProcessor, recordBlocks_length]
  · simp [createMultiCodeProcessor, recordBlocks_index, List.range_eq_range']

/-! ## block.js: the enhanced converter -/

/-- The replacement of every match is part of the rendered text. -/
theorem render_hit_part (f : Match → Str) (segs : List Seg) :
    ∀ m ∈ hits segs, f m <:+: render f segs := by
  induction segs with
  | nil => intro m hm; simp [hits] at hm
  | cons seg segs ih =>
    intro m hm
    cases seg with
    | lit c =>
      simp only [hits] at hm
      exact (ih m hm).trans (List.suffix_cons c _).isInfix
    | hit m1 =>
      simp only [hits, List.mem_cons] at hm
      rcases hm with rfl | hm
      · exact (List.prefix_append _ _).isInfix
      · exact (ih m hm).trans (List.suffix_append _ _).isInfix

theorem recordBlocks_transformed (transformer : Str → Str → Transformed) (text : Str)
    (ms : List Match) :
    ∀ k, ∀ b ∈ recordBlocks transformer text k ms,
      ∃ m ∈ ms, b.transformed = transformMatch transformer m := by
  induction ms with
  | nil => intro k b hb; simp [recordBlocks] at hb
  | cons m ms ih =>
    intro k b hb
    simp only [recordBlocks, List.mem_cons] at hb
    rcases hb with rfl | hb
    · exact ⟨m, List.mem_cons_self _ _, rfl⟩
    · obtain ⟨m2, hm2, h⟩ := ih (k + 1) b hb
      exact ⟨m2, List.mem_cons_of_mem _ hm2, h⟩

/-- The html of every recorded block stands in the processed text. -/
theorem codeBlocks_html_part (transformer : Str → Str → Transformed) (text : Str) :
    ∀ b ∈ (createMultiCodeProcessor transformer text).codeBlocks,
      b.transformed.html <:+: (createMultiCodeProcessor transformer text).processedText := by
  intro b hb
  obtain ⟨m, hm, h⟩ := recordBlocks_transformed transformer text _ 0 b hb
  rw [h]
  exact render_hit_part (fun m => (transformMatch transformer m).html) _ m hm

theorem isInline_of_toNat (x : Char) (h : 48 ≤ x.toNat ∧ x.toNat ≤ 122 ∧ x.toNat ≠ 60) :
    isInline x = true := by
  have hne : ∀ (c : Char), (c.toNat < 48 ∨ 122 < c.toNat ∨ c.toNat = 60) → x ≠ c := by
    rintro c hc rfl
    omega
  simp only [isInline, isLineTerminator, Bool.and_eq_true, Bool.not_eq_true', Bool.or_eq_false_iff,
    beq_eq_false_iff_ne, ne_eq, beq_iff_eq]
  refine ⟨?_, ⟨⟨?_, ?_⟩, ?_⟩, ?_⟩
  any_goals (apply hne; decide)
  all_goals omega

theorem toNat_of_isWord (x : Char) (h : isWord x = true) :
    (97 ≤ x.toNat ∧ x.toNat ≤ 122) ∨ (65 ≤ x.toNat ∧ x.toNat ≤ 90)
      ∨ (48 ≤ x.toNat ∧ x.toNat ≤ 57) ∨ x.toNat = 95 := by
  simp only [isWord, Bool.or_eq_true, Bool.and_eq_true, decide_eq_true_eq, beq_iff_eq] at h
  rcases h with ((⟨a, b⟩ | ⟨a, b⟩) | ⟨a, b⟩) | rfl
  · exact Or.inl ⟨a, b⟩
  · exact Or.inr (Or.inl ⟨a, b⟩)
  · exact Or.inr (Or.inr (Or.inl ⟨a, b⟩))
  · exact Or.inr (Or.inr (Or.inr rfl))

/-- The lower case of a word character is an inline character. -/
theorem isInline_toLower (x : Char) (h : isWord x = true) : isInline x.toLower = true := by
  have hw := toNat_of_isWord x h
  by_cases hup : 65 ≤ x.toNat ∧ x.toNat ≤ 90
  · have hx : x = Char.ofNat x.toNat := (Char.ofNat_toNat x).symm
    obtain ⟨h1, h2⟩ := hup
    generalize x.toNat = n at hx h1 h2
    subst hx
    interval_cases n <;> decide
  · have hlow : x.toLower = x := by
      simp only [Char.toLower]
      rw [if_neg]
      exact hup
    rw [hlow]
    apply isInline_of_toNat
    omega

theorem entity_inline (c x : Char) (hc : isLineTerminator c = false) (hx : x ∈ entity c) :
    isInline x = true := by
  unfold entity at hx
  split_ifs at hx with h1 h2 h3 h4 h5
  · revert x; decide
  · revert x; decide
  · revert x; decide
  · revert x; decide
  · revert x; decide
  · simp only [List.mem_singleton] at hx
    subst hx
    simp [isInline, h2, hc]

theorem isInline_ne (x : Char) (h : isInline x = true) : x ≠ '<' := by
  rintro rfl
  exact absurd h (by decide)

theorem isInline_line (x : Char) (h : isInline x = true) : isLineTerminator x = false := by
  simp only [isInline, Bool.and_eq_true, Bool.not_eq_true'] at h
  exact h.2

/-- The html of a code block with inline parts has no line terminator. -/
theorem codeHtml_line (cls e : Str) (hcls : ∀ x ∈ cls, isInline x = true)
    (he : ∀ x ∈ e, isInline x = true) :
    ∀ x ∈ codeHtml cls e, isLineTerminator x = false := by
  intro x hx
  simp only [codeHtml, List.mem_append] at hx
  rcases hx with (((hx | hx) | hx) | hx) | hx
  · revert x; decide
  · exact isInline_line x (hcls x hx)
  · revert x; decide
  · exact isInline_line x (he x hx)
  · revert x; decide

/-- A pattern that needs `<` and then something other than `pr`, `c`, `/c` or
`/p` finds nothing in the html of a code block. -/
theorem quiet_codeHtml (r : Regex)
    (h1 : ∀ p x t, x ≠ '<' → r.run { prev := p, rest := x :: t, caps := [] } = [])
    (hpre : ∀ p t, r.run { prev := p, rest := '<' :: 'p' :: 'r' :: t, caps := [] } = [])
    (hcode : ∀ p t, r.run { prev := p, rest := '<' :: 'c' :: t, caps := [] } = [])
    (hc1 : ∀ p t, r.run { prev := p, rest := '<' :: '/' :: 'c' :: t, caps := [] } = [])
    (hc2 : ∀ p t, r.run { prev := p, rest := '<' :: '/' :: 'p' :: t, caps := [] } = [])
    (cls e : Str) (hcls : ∀ x ∈ cls, isInline x = true) (he : ∀ x ∈ e, isInline x = true)
    (p : Option Char) (suf : Str) : Quiet r p (codeHtml cls e) suf := by
  have hq : ∀ (a : Str), (∀ x ∈ a, isInline x = true) → ∀ q suf2, Quiet r q a suf2 :=
    fun a ha q suf2 => quiet_of_head r (fun y => y == '<')
      (fun p y t hy => h1 p y t (by simpa using hy)) q a suf2
      (fun y hy => by simpa using isInline_ne y (ha y hy))
  simp only [codeHtml, quiet_append]
  refine ⟨⟨⟨⟨?_, hq cls hcls _ _⟩, ?_⟩, hq e he _ _⟩, ?_⟩
  all_goals
    simp only [String.toList, Quiet, List.cons_append, List.nil_append, and_true]
    repeat' constructor
    all_goals first
      | exact hpre _ _
      | exact hcode _ _
      | exact hc1 _ _
      | exact hc2 _ _
      | exact h1 _ _ _ (by decide)

theorem emptyParagraph_run_of_ne3 (p : Option Char) (x y z : Char) (t : Str)
    (caps : List (Nat × Str)) (hz : z ≠ '>') :
    emptyParagraphRegex.run { prev := p, rest := x :: y :: z :: t, caps := caps } = [] := by
  by_cases hx : x = '<' <;> by_cases hy : y = 'p' <;>
    simp [emptyParagraphRegex, Regex.cat, Regex.str, hx, hy, hz]

/-- The pattern of the empty paragraph on `<p>` followed by a tag that is not
a closing tag. -/
theorem emptyParagraph_run_open (p : Option Char) (y : Char) (t : Str) (hy : y ≠ '/') :
    emptyParagraphRegex.run
      { prev := p, rest := '<' :: 'p' :: '>' :: '<' :: y :: t, caps := [] } = [] := by
  simp [emptyParagraphRegex, Regex.cat, Regex.str,
    run_star_char_of_not _ _ _ _ _ _ (show isSpace '<' = false by decide), hy]

/-- The paragraph pattern on a line that starts with `<p`: the guard lets it
through, and the whole line is matched and captured. -/
theorem heads_paragraph_pre (l : Str) (hl : ∀ z ∈ '<' :: 'p' :: l, isLineTerminator z = false) :
    Heads paragraphRegex { prev := none, rest := '<' :: 'p' :: l, caps := [] }
      { prev := prevAfter none ('<' :: 'p' :: l), rest := [], caps := [(1, '<' :: 'p' :: l)] } := by
  have ht := heads_line_tail none ('<' :: 'p' :: l) [] [] (by simp) hl (by simp)
  simp only [List.append_nil] at ht
  refine Heads.seq (heads_bol_none true _ _) (Heads.seq (heads_notAhead _ _ ?_) ht)
  simp [Regex.run, Regex.str, Regex.lit]

/-- The converter on the html of a code block of one line: every pass leaves
it as it is, except the paragraph pass, which wraps it. -/
theorem markdownToHtml_codeHtml (cls e : Str) (hcls : ∀ x ∈ cls, isInline x = true)
    (he : ∀ x ∈ e, isInline x = true) :
    markdownToHtml (codeHtml cls e) = "<p>".toList ++ codeHtml cls e ++ "</p>".toList := by
  obtain ⟨rest, hshape⟩ : ∃ rest, codeHtml cls e = '<' :: 'p' :: 'r' :: rest := ⟨_, rfl⟩
  have hlt := codeHtml_line cls e hcls he
  have hhead : ∀ j, 1 ≤ j → ∀ f, replaceAll (headingRegex j) f (codeHtml cls e)
      = codeHtml cls e := fun j hj f =>
    replaceAll_line_quiet (headingRegex j) (anchored_heading j) f _ hlt
      (by rw [hshape]; exact heading_run_of_ne j _ _ _ _ (by decide) hj)
  have hconv : convertHeadings (codeHtml cls e) = codeHtml cls e := by
    unfold convertHeadings
    rw [hhead 6 (by decide), hhead 5 (by decide), hhead 4 (by decide), hhead 3 (by decide),
      hhead 2 (by decide), hhead 1 (by decide)]
  have hul : convertUnordered (codeHtml cls e) = codeHtml cls e := by
    unfold convertUnordered
    rw [replaceAll_line_quiet ulItemRegex anchored_ulItem _ _ hlt
        (by rw [hshape]; exact ulItem_run_of_ne _ _ _ _ (by decide) (by decide)),
      replaceFirst_quiet ulWrapRegex _ _
        (quiet_codeHtml ulWrapRegex (fun p x t hx => ulWrap_run_of_ne p x t _ hx)
          (fun p t => ulWrap_run_of_ne2 p _ _ _ _ (by decide))
          (fun p t => ulWrap_run_of_ne2 p _ _ _ _ (by decide))
          (fun p t => ulWrap_run_of_ne2 p _ _ _ _ (by decide))
          (fun p t => ulWrap_run_of_ne2 p _ _ _ _ (by decide)) cls e hcls he _ _)
        (ulWrap_run_nil _ _),
      replaceAll_quiet ulJoinRegex _ _
        (quiet_codeHtml ulJoinRegex (fun p x t hx => ulJoin_run_of_ne p x t _ hx)
          (fun p t => ulJoin_run_of_ne2 p _ _ _ _ (by decide))
          (fun p t => ulJoin_run_of_ne2 p _ _ _ _ (by decide))
          (fun p t => ulJoin_run_of_ne3 p _ _ _ _ _ (by decide))
          (fun p t => ulJoin_run_of_ne3 p _ _ _ _ _ (by decide)) cls e hcls he _ _)
        (ulJoin_run_nil _ _)]
  have hol : convertOrdered (codeHtml cls e) = codeHtml cls e := by
    unfold convertOrdered wrapOrdered
    rw [replaceAll_line_quiet olItemRegex anchored_olItem _ _ hlt
        (by rw [hshape]; exact olItem_run_of_ne _ _ _ _ (by decide) (by decide)),
      replaceAll_quiet olWrapRegex _ _
        (quiet_codeHtml olWrapRegex (fun p x t hx => olWrap_run_of_ne p x t _ hx)
          (fun p t => olWrap_run_of_ne2 p _ _ _ _ (by decide))
          (fun p t => olWrap_run_of_ne2 p _ _ _ _ (by decide))
          (fun p t => olWrap_run_of_ne2 p _ _ _ _ (by decide))
          (fun p t => olWrap_run_of_ne2 p _ _ _ _ (by decide)) cls e hcls he _ _)
        (olWrap_run_nil _ _),
      replaceAll_quiet olJoinRegex _ _
        (quiet_codeHtml olJoinRegex (fun p x t hx => olJoin_run_of_ne p x t _ hx)
          (fun p t => olJoin_run_of_ne2 p _ _ _ _ (by decide))
          (fun p t => olJoin_run_of_ne2 p _ _ _ _ (by decide))
          (fun p t => olJoin_run_of_ne3 p _ _ _ _ _ (by decide))
          (fun p t => olJoin_run_of_ne3 p _ _ _ _ _ (by decide)) cls e hcls he _ _)
        (olJoin_run_nil _ _)]
  have hpar : replaceAll paragraphRegex pTag (codeHtml cls e)
      = "<p>".toList ++ codeHtml cls e ++ "</p>".toList := by
    have hh := heads_paragraph_pre ('r' :: rest) (by rw [← hshape]; exact hlt)
    rw [← hshape] at hh
    rw [replaceAll_line_hit _ anchored_paragraph _ _ (by rw [hshape]; simp) hlt _ hh rfl]
    simp [pTag, Match.cap, List.lookup]
  have hempty : replaceAll emptyParagraphRegex (fun _ => [])
      ("<p>".toList ++ codeHtml cls e ++ "</p>".toList)
      = "<p>".toList ++ codeHtml cls e ++ "</p>".toList := by
    apply replaceAll_quiet _ _ _ _ (emptyParagraph_run_nil _ _)
    have h1 := quiet_codeHtml emptyParagraphRegex
      (fun p x t hx => emptyParagraph_run_of_ne p x t _ hx)
      (fun p t => emptyParagraph_run_of_ne3 p _ _ _ _ _ (by decide))
      (fun p t => emptyParagraph_run_of_ne2 p _ _ _ _ (by decide))
      (fun p t => emptyParagraph_run_of_ne2 p _ _ _ _ (by decide))
      (fun p t => emptyParagraph_run_of_ne2 p _ _ _ _ (by decide)) cls e hcls he
      (some '>') ("</p>".toList ++ [])
    have h2 : Quiet emptyParagraphRegex (prevAfter (some '>') (codeHtml cls e))
        "</p>".toList [] := by
      simp only [String.toList, Quiet]
      exact ⟨emptyParagraph_run_of_ne2 _ _ _ _ _ (by decide),
        emptyParagraph_run_of_ne _ _ _ _ (by decide),
        emptyParagraph_run_of_ne _ _ _ _ (by decide),
        emptyParagraph_run_of_ne _ _ _ _ (by decide), trivial⟩
    have h3 : Quiet emptyParagraphRegex none "<p>".toList
        (codeHtml cls e ++ "</p>".toList ++ []) := by
      simp only [String.toList, Quiet, hshape]
      exact ⟨emptyParagraph_run_open _ _ _ (by decide),
        emptyParagraph_run_of_ne _ _ _ _ (by decide),
        emptyParagraph_run_of_ne _ _ _ _ (by decide), trivial⟩
    rw [List.append_assoc, quiet_append, quiet_append]
    exact ⟨h3, by simpa using h1, by simpa [prevAfter_append] using h2⟩
  have hblank : replaceAll blankLinesRegex (fun _ => ['\n'])
      ("<p>".toList ++ codeHtml cls e ++ "</p>".toList)
      = "<p>".toList ++ codeHtml cls e ++ "</p>".toList := by
    apply replaceAll_quiet _ _ _ _ (blankLines_run_nil _ _)
    apply quiet_of_head _ (fun y => y == '\n')
      (fun p y t hy => blankLines_run_of_ne p y t _ (by simpa using hy))
    intro y hy
    simp only [List.mem_append] at hy
    simp only [beq_eq_false_iff_ne, ne_eq]
    rintro rfl
    rcases hy with (hy | hy) | hy
    · revert hy; decide
    · have := hlt _ hy
      revert this; decide
    · revert hy; decide
  unfold markdownToHtml
  rw [hconv, hul, hol]
  unfold convertParagraphs
  rw [hpar, hempty, hblank]

/-- The html that the code transformer returns, for a language token of word
characters. -/
theorem transformCodeBlock_html (code L : Str) (hL : L ≠ []) :
    (transformCodeBlock code L).html
      = codeHtml (" language-".toList ++ toLowerCase L) (code.flatMap entity) := by
  have hne : L.isEmpty = false := by
    cases L with
    | nil => exact absurd rfl hL
    | cons x L1 => rfl
  simp [transformCodeBlock, codeHtml, hne, escapeCode_eq]

/-- The processed text of a single fenced block is the html of the block. -/
theorem processedText_single_block (L c : Str) (hL : L ≠ [])
    (hw : ∀ x ∈ L, isWord x = true) (hc : ¬ "```".toList <:+: c) :
    (createMultiCodeProcessor transformCodeBlock
        ("```".toList ++ L ++ "\n".toList ++ c ++ "\n```".toList)).processedText
      = (transformCodeBlock (trim c) L).html
    ∧ (createMultiCodeProcessor transformCodeBlock
        ("```".toList ++ L ++ "\n".toList ++ c ++ "\n```".toList)).codeBlocks.map
          (fun b => b.transformed.html)
      = [(transformCodeBlock (trim c) L).html] := by
  have ht : trim (c ++ ['\n']) = trim c := trim_append_space c '\n' (by decide)
  simp only [createMultiCodeProcessor, codeBlockRegex_scan_block L c hL hw hc, hits, render,
    recordBlocks, transformMatch, Match.cap, List.lookup, List.map, List.append_nil]
  constructor <;> simp [ht]

theorem enhance_html (f : Str → Str) (text : Str) :
    (enhanceMarkdownWithCodeHighlight f text).html
      = f (createMultiCodeProcessor transformCodeBlock text).processedText := rfl

theorem enhance_blocks (f : Str → Str) (text : Str) :
    (enhanceMarkdownWithCodeHighlight f text).codeInfo.blocks
      = (createMultiCodeProcessor transformCodeBlock text).codeBlocks := rfl

/-- The enhanced converter replaces each fenced block in place by its html
and then runs the block-level conversion over the whole processed text. For
every text, the html of every recorded block stands in the processed text.
For an input made of one fenced block with a language token `L` and a content
`c` whose trimmed text is one line, the html of the block also stands in the
final html, wrapped in a paragraph: a block of one line survives every pass. -/
theorem enhanceMarkdownWithCodeHighlight_single_line (L c : Str) (hL : L ≠ [])
    (hw : ∀ x ∈ L, isWord x = true) (hc : ¬ "```".toList <:+: c)
    (hline : ∀ x ∈ trim c, isLineTerminator x = false) :
    (∀ text : Str,
      ∀ b ∈ (enhanceMarkdownWithCodeHighlight markdownToHtml text).codeInfo.blocks,
        b.transformed.html
          <:+: (createMultiCodeProcessor transformCodeBlock text).processedText)
    ∧ (enhanceMarkdownWithCodeHighlight markdownToHtml
        ("```".toList ++ L ++ "\n".toList ++ c ++ "\n```".toList)).html
      = "<p>".toList ++ (transformCodeBlock (trim c) L).html ++ "</p>".toList
    ∧ (enhanceMarkdownWithCodeHighlight markdownToHtml
        ("```".toList ++ L ++ "\n".toList ++ c ++ "\n```".toList)).codeInfo.blocks.map
          (fun b => b.transformed.html)
      = [(transformCodeBlock (trim c) L).html] := by
  obtain ⟨h1, h2⟩ := processedText_single_block L c hL hw hc
  simp only [enhance_html, enhance_blocks]
  refine ⟨fun text => codeBlocks_html_part transformCodeBlock text, ?_, h2⟩
  have hcls : ∀ x ∈ " language-".toList ++ toLowerCase L, isInline x = true := by
    intro x hx
    rcases List.mem_append.mp hx with h | h
    · clear hx
      revert x
      decide
    · obtain ⟨y, hy, rfl⟩ := List.mem_map.mp h
      exact isInline_toLower y (hw y hy)
  have he : ∀ x ∈ (trim c).flatMap entity, isInline x = true := by
    intro x hx
    obtain ⟨y, hy, hxy⟩ := List.mem_flatMap.mp hx
    exact entity_inline y x (hline y hy) hxy
  rw [h1, transformCodeBlock_html _ L hL, markdownToHtml_codeHtml _ _ hcls he]

theorem enhanceMarkdownWithCodeHighlight_single_line_example :
    (enhanceMarkdownWithCodeHighlight markdownToHtml
        ("```".toList ++ "js".toList ++ "\n".toList ++ "const x = 1;".toList
          ++ "\n```".toList)).html
      = "<p>".toList ++ (transformCodeBlock (trim "const x = 1;".toList) "js".toList).html
          ++ "</p>".toList :=
  (enhanceMarkdownWithCodeHighlight_single_line "js".toList "const x = 1;".toList
    (by decide) (by decide) (by decide) (by decide)).2.1

set_option maxRecDepth 4000 in
/-- C16: the enhanced converter does not keep the code of a fenced block out
of the block-level passes. On a block of two code lines `a` and `# b`, the
paragraph pass wraps the first line of the generated html and the heading pass
turns the code line `# b` into a heading, so the html generated for the block
is not in the final html. -/
theorem enhanceMarkdownWithCodeHighlight_rewrites_code :
    (enhanceMarkdownWithCodeHighlight markdownToHtml
        "```\na\n# b\n```".toList).codeInfo.blocks.map (fun b => b.transformed.html)
      = ["<pre class=\"code-highlight\"><code class=\"code-block\">a\n# b</code></pre>".toList]
    ∧ (enhanceMarkdownWithCodeHighlight markdownToHtml "```\na\n# b\n```".toList).html
      = ("<p><pre class=\"code-highlight\"><code class=\"code-block\">a</p>\n"
          ++ "<h1>b</code></pre></h1>").toList
    ∧ ¬ "<pre class=\"code-highlight\"><code class=\"code-block\">a\n# b</code></pre>".toList
        <:+: (enhanceMarkdownWithCodeHighlight markdownToHtml "```\na\n# b\n```".toList).html := by
  decide

/-! ## lists.js: texts without list lines -/

/-- A pattern that needs the string `w` at its start finds nothing in a text
that does not contain `w`. -/
theorem findFrom_none_of_absent (r : Regex) (w : Str)
    (hr : ∀ p t, ¬ w <+: t → r.run { prev := p, rest := t, caps := [] } = [])
    (t : Str) (h : ¬ w <:+: t) : ∀ p, r.findFrom p t = none := by
  induction t with
  | nil =>
    intro p
    exact (exec_eq_none_iff r p []).mpr (hr p [] (fun hp => h hp.isInfix))
  | cons c cs ih =>
    intro p
    have h1 : r.exec p (c :: cs) = none :=
      (exec_eq_none_iff r p _).mpr (hr p _ (fun hp => h hp.isInfix))
    have h2 : ¬ w <:+: cs := fun hi => h (hi.trans (List.suffix_cons c cs).isInfix)
    simp only [Regex.findFrom, h1]
    exact ih h2 (some c)

theorem replaceAll_of_absent (r : Regex) (w : Str) (f : Match → Str)
    (hr : ∀ p t, ¬ w <+: t → r.run { prev := p, rest := t, caps := [] } = [])
    (t : Str) (h : ¬ w <:+: t) : replaceAll r f t = t :=
  replaceAll_of_find_none r f t (findFrom_none_of_absent r w hr t h none)

theorem run_seq_str_of_not_start (w : Str) (b : Regex) (p : Option Char) (t : Str)
    (caps : List (Nat × Str)) (h : ¬ w <+: t) :
    (Regex.seq (.str w) b).run { prev := p, rest := t, caps := caps } = [] :=
  run_seq_nil_left _ _ _ ( run_str_of_not_prefix w t p caps h)

theorem numberedRun_run_of_not_start (p : Option Char) (t : Str)
    (h : ¬ "<li".toList <+: t) :
    numberedRunRegex.run { prev := p, rest := t, caps := [] } = [] := by
  have h1 : ¬ "<li data-number=\"".toList <+: t := by
    intro hp
    exact h (List.IsPrefix.trans (by decide) hp)
  simp only [numberedRunRegex, numberedItemRegex, Regex.cat]
  apply run_seq_nil_left
  rw [run_group, run_seq_str_of_not_start _ _ _ _ _ h1]
  rfl

theorem plainRun_run_of_not_start (p : Option Char) (t : Str)
    (h : ¬ "<li".toList <+: t) :
    plainRunRegex.run { prev := p, rest := t, caps := [] } = [] := by
  simp only [plainRunRegex, plainItemRegex, Regex.cat]
  apply run_seq_nil_left
  rw [run_group, run_seq_str_of_not_start _ _ _ _ _ h]
  rfl

theorem olJoin_run_of_not_start (p : Option Char) (t : Str)
    (h : ¬ "</ol>".toList <+: t) :
    olJoinRegex.run { prev := p, rest := t, caps := [] } = [] := by
  simp only [olJoinRegex, Regex.cat]
  exact run_seq_str_of_not_start _ _ _ _ _ h

theorem ulJoin_run_of_not_start (p : Option Char) (t : Str)
    (h : ¬ "</ul>".toList <+: t) :
    ulJoinRegex.run { prev := p, rest := t, caps := [] } = [] := by
  simp only [ulJoinRegex, Regex.cat]
  exact run_seq_str_of_not_start _ _ _ _ _ h

/-- The grouper leaves a text without item tags and closing list tags as it
is. -/
theorem listItemGrouper_of_no_tags (t : Str) (hli : ¬ "<li".toList <:+: t)
    (hol : ¬ "</ol>".toList <:+: t) (hul : ¬ "</ul>".toList <:+: t) :
    listItemGrouper t = t := by
  simp only [listItemGrouper]
  rw [replaceAll_of_absent numberedRunRegex _ _ numberedRun_run_of_not_start t hli,
    replaceAll_of_absent plainRunRegex _ _ plainRun_run_of_not_start t hli,
    replaceAll_of_absent olJoinRegex _ _ olJoin_run_of_not_start t hol,
    replaceAll_of_absent ulJoinRegex _ _ ulJoin_run_of_not_start t hul]

/-- A line that the line processor classifies as no item is passed on as it
is. -/
theorem listLineProcessor_of_none (line : Str)
    (h : (listLineProcessor line).isOrderedList = false
      ∧ (listLineProcessor line).isUnorderedList = false) :
    (listLineProcessor line).processedLine = line := by
  unfold listLineProcessor at h ⊢
  simp only at h ⊢
  split
  · rename_i m hm
    simp [hm] at h
  · rename_i hm
    split
    · rename_i m2 hm2
      simp [hm, hm2] at h
    · rfl

/-- C14 (amended): a text in which no line is classified as an item by the
line processor, and which contains no item tag `<li` and no closing list tag
`</ol>` or `</ul>` of its own, is returned unchanged. -/
theorem processListsAutomatically_no_list_lines (t : Str)
    (hlines : ∀ l ∈ splitLines t, (listLineProcessor l).isOrderedList = false
      ∧ (listLineProcessor l).isUnorderedList = false)
    (hli : ¬ "<li".toList <:+: t) (hol : ¬ "</ol>".toList <:+: t)
    (hul : ¬ "</ul>".toList <:+: t) :
    processListsAutomatically t = t := by
  have h1 : processListsWithCallback listLineProcessor t = t := by
    unfold processListsWithCallback
    have hmap : (splitLines t).map (fun line => (listLineProcessor line).processedLine)
        = splitLines t := by
      conv_rhs => rw [← List.map_id (splitLines t)]
      apply List.map_congr_left
      intro l hl
      exact listLineProcessor_of_none l (hlines l hl)
    rw [hmap, joinLines_splitLines]
  unfold processListsAutomatically
  rw [h1, listItemGrouper_of_no_tags t hli hol hul]

theorem processListsAutomatically_no_list_lines_witness :
    processListsAutomatically "hello\nworld <b>x</b>".toList = "hello\nworld <b>x</b>".toList :=
  processListsAutomatically_no_list_lines "hello\nworld <b>x</b>".toList (by decide)
    (by decide) (by decide) (by decide)

/-- C14, as stated, fails on a text with an item tag of its own: no line of
`<li>a</li>` is classified as an item, and the grouper wraps the text in an
unordered container. -/
theorem processListsAutomatically_no_list_lines_counterexample :
    (∀ l ∈ splitLines "<li>a</li>".toList, (listLineProcessor l).isOrderedList = false
      ∧ (listLineProcessor l).isUnorderedList = false
      ∧ (listLineProcessor l).listType = "none".toList)
    ∧ processListsAutomatically "<li>a</li>".toList = "<ul><li>a</li></ul>".toList
    ∧ processListsAutomatically "<li>a</li>".toList ≠ "<li>a</li>".toList := by
  decide

/-! ## app.js: the passes on texts of several lines -/

/-- C17: an item from an ordered line is left outside every container when
its text also follows a `<ul>` somewhere in the document. On `- a` followed by
`1. a` the second item stays bare, because the guard of the wrapping step
looks for `<ul>` followed by the matched text anywhere in the text; with
another content (`1. b`) the same item is wrapped in `<ol>`. -/
theorem markdownToHtml_bare_ordered_item :
    markdownToHtml "- a\n1. a".toList = "<ul><li>a</li></ul>\n<li>a</li>".toList
    ∧ wrapOrdered "<ul><li>a</li></ul>\n<li>a</li>".toList
      = "<ul><li>a</li></ul>\n<li>a</li>".toList
    ∧ markdownToHtml "- a\n1. b".toList
      = "<ul><li>a</li></ul>\n<ol><li>b</li></ol>".toList := by
  decide

/-- C18: the unordered wrapping step encloses everything from the first item
to the last item of the text, not the first run of items: on `- a`, `text`,
`- b` the container closes after the item `b`, with the plain line inside. -/
theorem convertUnordered_wraps_to_last_item :
    convertUnordered "- a\ntext\n- b".toList
      = "<ul><li>a</li>\ntext\n<li>b</li></ul>".toList
    ∧ markdownToHtml "- a\ntext\n- b".toList
      = "<ul><li>a</li>\n<p>text</p>\n<li>b</li></ul>".toList := by
  decide

/-- C19: the heading and item passes are not line-local. The white space
after the marker may be the newline, so a line with only the marker takes the
next line as its content: the pass on the whole text differs from the pass
applied line by line. -/
theorem passes_not_linewise :
    (replaceAll (headingRegex 1) (headingTag 1) "#\nfoo".toList = "<h1>foo</h1>".toList
      ∧ linewise (replaceAll (headingRegex 1) (headingTag 1)) "#\nfoo".toList
        = "#\nfoo".toList)
    ∧ (replaceAll ulItemRegex liTag "-\nfoo".toList = "<li>foo</li>".toList
      ∧ linewise (replaceAll ulItemRegex liTag) "-\nfoo".toList = "-\nfoo".toList)
    ∧ (replaceAll olItemRegex liTag "1.\nfoo".toList = "<li>foo</li>".toList
      ∧ linewise (replaceAll olItemRegex liTag) "1.\nfoo".toList = "1.\nfoo".toList)
    ∧ markdownToHtml "#\nfoo".toList = "<h1>foo</h1>".toList
    ∧ markdownToHtml "-\nfoo".toList = "<ul><li>foo</li></ul>".toList := by
  decide

end MarkdownEditor
